import Mathlib

/-!
Verification of the orange-translator core against its specification.

The development shallowly embeds the Python sources:
* `core/epub/extractor.py` — the placeholder codec (`serialize_to_placeholders`,
  `restore_from_placeholders`, `_build_open_tag`, the `_PH_RE` cleanup pass);
* `core/pipeline.py` — batch construction in `_translate_chapter`, the
  resumable chapter loop in `run`, `_load_progress`;
* `core/translator/ollama.py` / `base.py` — `_translate_batch_inner` and
  `_parse_batch_response`;
* `core/epub/packer.py` — `pack`.

Python strings are modelled as `List Char` (`Str`); Python `str.index`,
`str.replace(count=1)`, slices and the two regexes are given executable
models below, faithful to Python's leftmost / non-overlapping semantics.
-/

namespace OrangeTrans

/-- Python `str` modelled as a list of characters (code points). -/
abbrev Str := List Char

/-- Whitespace characters stripped by Python `str.strip()` (the ASCII ones,
which are the only ones the embedding needs). -/
def wsChar (c : Char) : Bool :=
  c == ' ' || c == '\t' || c == '\n' || c == '\r' || c == '\x0b' || c == '\x0c'

/-- Python `s.strip()` — remove leading and trailing whitespace. -/
def stripStr (s : Str) : Str :=
  ((s.dropWhile wsChar).reverse.dropWhile wsChar).reverse

/-- 0-based index of the first occurrence of `pat` in `s` starting the scan
at the current position; model of the scan underlying Python `str.index` /
`str.find` / the `in` operator. -/
def firstIdxFrom (pat : Str) : Str → Option Nat
  | [] => if pat <+: ([] : Str) then some 0 else none
  | c :: t => if pat <+: (c :: t) then some 0 else (firstIdxFrom pat t).map (· + 1)

/-- Python `s.index(pat)` (as `Option`; Python raises on `none`, callers in
the source always guard with `pat in s` first). -/
def firstIdx (s pat : Str) : Option Nat := firstIdxFrom pat s

/-- `pat` occurs in `s` starting at position `i`. -/
def occursAt (s pat : Str) (i : Nat) : Prop := pat <+: s.drop i

/-- Python `s.replace(pat, rep, 1)` — replace the first occurrence only;
identity when `pat` does not occur. -/
def replaceFirst (s pat rep : Str) : Str :=
  match firstIdx s pat with
  | none => s
  | some i => s.take i ++ rep ++ s.drop (i + pat.length)

/-! Decimal rendering of placeholder ids, modelling Python `f"{idx}"`. -/

/-- The decimal digit characters. -/
def digCh : Nat → Char
  | 0 => '0' | 1 => '1' | 2 => '2' | 3 => '3' | 4 => '4'
  | 5 => '5' | 6 => '6' | 7 => '7' | 8 => '8' | 9 => '9'
  | _ => '*'

/-- Decimal digit rendering, with explicit recursion fuel (the recursion
depth is at most the number of digits, so any fuel above `n` is enough;
`natDigs_eq` below recovers the fuel-free unfolding). -/
def natDigsCore : Nat → Nat → Str
  | 0, _ => []
  | fuel + 1, n =>
    if n < 10 then [digCh n]
    else natDigsCore fuel (n / 10) ++ [digCh (n % 10)]

/-- Decimal digit string of a natural number (Python `str(n)` for `n ≥ 0`). -/
def natDigs (n : Nat) : Str := natDigsCore (n + 1) n

/-- Value of a decimal digit character. -/
def digVal (c : Char) : Nat :=
  if c = '0' then 0 else if c = '1' then 1 else if c = '2' then 2
  else if c = '3' then 3 else if c = '4' then 4 else if c = '5' then 5
  else if c = '6' then 6 else if c = '7' then 7 else if c = '8' then 8
  else if c = '9' then 9 else 0

/-- Numeric value of a digit string (big-endian). -/
def digsVal (s : Str) : Nat := s.foldl (fun a c => 10 * a + digVal c) 0

/-! Placeholder marker strings from `extractor.py`:
`f"<g{idx}>"`, `f"</g{idx}>"`, `f"[OT:{idx}]"`. -/

def gOpen (k : Nat) : Str := '<' :: 'g' :: (natDigs k ++ ['>'])

def gClose (k : Nat) : Str := '<' :: '/' :: 'g' :: (natDigs k ++ ['>'])

def otMark (k : Nat) : Str := '[' :: 'O' :: 'T' :: ':' :: (natDigs k ++ [']'])

/-! The codec data model from `extractor.py`. -/

/-- `_OPAQUE_INLINE`: inline tags replaced wholesale by a standalone marker,
content never sent to the LLM. -/
def OPQ_INLINE : List Str :=
  ["sup".data, "sub".data, "br".data, "img".data, "wbr".data]

/-- `_TRANSPARENT_INLINE`: inline tags whose text content is translated,
replaced by a paired marker. -/
def TRANS_INLINE : List Str :=
  ["em".data, "strong".data, "b".data, "i".data, "u".data, "span".data,
   "a".data, "small".data, "big".data, "abbr".data, "cite".data, "q".data,
   "s".data, "del".data, "ins".data]

/-- `_SavedTag`: per-placeholder record (`opq` is the source's `opaque`
field, renamed only because of Lean keyword clashes). -/
structure SavedTag where
  tag_name : Str
  attrs : List (Str × Str)
  opq : Bool
  original_html : Str
deriving Repr, DecidableEq

/-- A parsed markup tree node (what BeautifulSoup hands the `walk` closure:
`NavigableString`s and `Tag`s with name, attributes and children).
Attribute values are modelled as plain strings; the bs4 list-valued
attribute case is joined to a string by the source before rendering. -/
inductive Node where
  | text (s : Str)
  | elem (name : Str) (attrs : List (Str × Str)) (children : List Node)

/-- Attribute-value escaping from `_build_open_tag`:
`v.replace("&", "&amp;").replace('"', "&quot;")`.  The two sequential
global replaces are equivalent to this single character map because the
first pass introduces no `"` and the second pass's replacement text keeps
its `&` (the first pass has already finished). -/
def escAttr (v : Str) : Str :=
  v.flatMap fun c =>
    if c = '&' then "&amp;".data else if c = '"' then "&quot;".data else [c]

/-- One ` key="value"` piece of an open tag (`f'{k}="{v}"'` joined by a
space in `_build_open_tag`). -/
def attrPart (kv : Str × Str) : Str :=
  ' ' :: (kv.1 ++ ('=' :: '"' :: (escAttr kv.2 ++ ['"'])))

/-- `_build_open_tag(tag_name, attrs)`. -/
def build_open_tag (nm : Str) (attrs : List (Str × Str)) : Str :=
  if attrs = [] then '<' :: (nm ++ ['>'])
  else '<' :: (nm ++ (attrs.flatMap attrPart ++ ['>']))

/-- Closing tag `f"</{tag_name}>"`. -/
def closeTag (nm : Str) : Str := '<' :: '/' :: (nm ++ ['>'])

/- Canonical serialization of a node: the model of the `inner_html`
strings the codec round-trips (bs4 `str(node)` / `decode_contents()`).
`restore` rebuilds open tags with `_build_open_tag`, so the canonical
form uses the same attribute rendering. -/
mutual

def renderN : Node → Str
  | .text s => s
  | .elem nm attrs cs => build_open_tag nm attrs ++ renderF cs ++ closeTag nm
  termination_by structural n => n

def renderF : List Node → Str
  | [] => []
  | n :: rest => renderN n ++ renderF rest
  termination_by structural l => l

end

/-- ASCII lowercasing of a tag name (`tag_name.lower()`; every name the
vocabularies can match is ASCII). -/
def lowerCh (c : Char) : Char :=
  if 'A' ≤ c ∧ c ≤ 'Z' then Char.ofNat (c.toNat + 32) else c

/-- `tag_name.lower()`. -/
def lowerStr (s : Str) : Str := s.map lowerCh

/- The `walk` closure of `serialize_to_placeholders`, with the mutable
`counter`/`saved` cell threaded explicitly: returns the marked text, the
saved entries in insertion order, and the final counter.

* opaque tag: take the next id immediately, save the full original markup,
  emit `[OT:idx]`; children are not walked;
* transparent tag: walk the children first (consuming their ids), then
  take the next id; if the produced inner text is whitespace-only the tag
  is demoted to opaque (`not inner.strip()`), else emit
  `<g idx>inner</g idx>`;
* any other tag: pass through, recursing into the children. -/
mutual

def serN : Node → Nat → Str × List (Nat × SavedTag) × Nat
  | .text s, c => (s, [], c)
  | .elem nm attrs cs, c =>
    if lowerStr nm ∈ OPQ_INLINE then
      (otMark c, [(c, ⟨lowerStr nm, attrs, true, renderN (.elem nm attrs cs)⟩)], c + 1)
    else if lowerStr nm ∈ TRANS_INLINE then
      let r := serF cs c
      if stripStr r.1 = [] then
        (otMark r.2.2,
         r.2.1 ++ [(r.2.2, ⟨lowerStr nm, attrs, true, renderN (.elem nm attrs cs)⟩)],
         r.2.2 + 1)
      else
        (gOpen r.2.2 ++ r.1 ++ gClose r.2.2,
         r.2.1 ++ [(r.2.2, ⟨lowerStr nm, attrs, false, []⟩)],
         r.2.2 + 1)
    else serF cs c
  termination_by structural n c => n

def serF : List Node → Nat → Str × List (Nat × SavedTag) × Nat
  | [], c => ([], [], c)
  | n :: rest, c =>
    let r1 := serN n c
    let r2 := serF rest r1.2.2
    (r1.1 ++ r2.1, r1.2.1 ++ r2.2.1, r2.2.2)
  termination_by structural l c => l

end

/-- `serialize_to_placeholders(inner_html)`: the source parses the inner
HTML and walks the resulting forest; the embedding starts from the parsed
forest. -/
def serialize_to_placeholders (F : List Node) : Str × List (Nat × SavedTag) :=
  ((serF F 0).1, (serF F 0).2.1)

/-- Python dict lookup `saved[idx]` (keys are unique in every map the
source builds). -/
def lookupTag (saved : List (Nat × SavedTag)) (k : Nat) : Option SavedTag :=
  List.lookup k saved

/-- Insert into a descending-sorted list (helper for the model of
`sorted(keys, reverse=True)`). -/
def insDesc (x : Nat) : List Nat → List Nat
  | [] => [x]
  | y :: t => if y ≤ x then x :: y :: t else y :: insDesc x t

/-- Model of Python `sorted(keys, reverse=True)`. -/
def sortDescNat : List Nat → List Nat
  | [] => []
  | x :: t => insDesc x (sortDescNat t)

/-- One iteration of the restore loop body for id `idx`. -/
def restoreStep (r : Str) (idx : Nat) (tag : SavedTag) : Str :=
  if tag.opq then
    replaceFirst r (otMark idx) tag.original_html
  else
    match firstIdx r (gOpen idx), firstIdx r (gClose idx) with
    | some st, some en =>
      if st < en then
        r.take st ++ build_open_tag tag.tag_name tag.attrs
          ++ ((r.drop (st + (gOpen idx).length)).take (en - (st + (gOpen idx).length)))
          ++ closeTag tag.tag_name ++ r.drop (en + (gClose idx).length)
      else
        replaceFirst (replaceFirst r (gOpen idx) []) (gClose idx) []
    | _, _ => replaceFirst (replaceFirst r (gOpen idx) []) (gClose idx) []

/-- Length of the `_PH_RE` match (`</?g\d+>|\[OT:\d+\]`) anchored at the
start of `s`, if any.  The regex is deterministic here: the digit run is
maximal and must be followed by the closer (backtracking over `\d+`
cannot succeed because every shorter run is still followed by a digit). -/
def digitRunLen (s : Str) : Nat := (s.takeWhile Char.isDigit).length

def phMatchLen (s : Str) : Option Nat :=
  match s with
  | '<' :: '/' :: 'g' :: rest =>
    if 0 < digitRunLen rest ∧ (rest.drop (digitRunLen rest)).head? = some '>'
    then some (3 + digitRunLen rest + 1) else none
  | '<' :: 'g' :: rest =>
    if 0 < digitRunLen rest ∧ (rest.drop (digitRunLen rest)).head? = some '>'
    then some (2 + digitRunLen rest + 1) else none
  | '[' :: 'O' :: 'T' :: ':' :: rest =>
    if 0 < digitRunLen rest ∧ (rest.drop (digitRunLen rest)).head? = some ']'
    then some (4 + digitRunLen rest + 1) else none
  | _ => none

/-- `_PH_RE.sub("", result)`: Python `re.sub` scans left to right, removes
each non-overlapping match and resumes after it (no rescan of the
replacement point). -/
def phCleanCore : Nat → Str → Str
  | 0, s => s
  | fuel + 1, s =>
    match phMatchLen s with
    | some n => phCleanCore fuel (s.drop n)
    | none =>
      match s with
      | [] => []
      | c :: t => c :: phCleanCore fuel t

def phClean (s : Str) : Str := phCleanCore (s.length + 1) s

/-- `restore_from_placeholders(translated, saved)`. -/
def restore_from_placeholders (translated : Str) (saved : List (Nat × SavedTag)) : Str :=
  if saved = [] then translated
  else
    phClean <|
      (sortDescNat (saved.map Prod.fst)).foldl
        (fun r idx =>
          match lookupTag saved idx with
          | some tag => restoreStep r idx tag
          | none => r)
        translated

/-! Batch construction from `TranslationPipeline._translate_chapter`
(`core/pipeline.py`, the loop over `enumerate(stripped_texts)`). -/

/-- The batching loop with its mutable state (`cur`, `cur_chars`,
`batches`) made explicit.  Conditions mirror the source:
`len(cur) >= batch_size` and `cur_chars + chars > char_limit`, and a
flush resets `cur`/`cur_chars` before the append. -/
def buildBatchesGo (batchSize charLimit : Nat) :
    List Str → Nat → List Nat → Nat → List (List Nat) → List (List Nat)
  | [], _, cur, _, acc => if cur = [] then acc else acc ++ [cur]
  | t :: ts, i, cur, curChars, acc =>
    if cur = [] then
      buildBatchesGo batchSize charLimit ts (i+1) (cur ++ [i]) (curChars + t.length) acc
    else if batchSize ≤ cur.length then
      buildBatchesGo batchSize charLimit ts (i+1) [i] t.length (acc ++ [cur])
    else if charLimit < curChars + t.length then
      buildBatchesGo batchSize charLimit ts (i+1) [i] t.length (acc ++ [cur])
    else
      buildBatchesGo batchSize charLimit ts (i+1) (cur ++ [i]) (curChars + t.length) acc

/-- The `batches` list `_translate_chapter` builds from the stripped
texts. -/
def buildBatches (batchSize charLimit : Nat) (texts : List Str) : List (List Nat) :=
  buildBatchesGo batchSize charLimit texts 0 [] 0 []

/-! The batch response parser from `TranslatorBase._parse_batch_response`
(`core/translator/base.py`) and the bisection scheduler from
`OllamaTranslator._translate_batch_inner` (`core/translator/ollama.py`). -/

/-- Decimal value of a digit string (Python `int` on the captured group,
which the regex guarantees is a nonempty digit run). -/
def digsToNat (ds : Str) : Nat := digsVal ds

/-- Try to read `digits+ ']'` at the head of `s` (the part of a
`\[(\d+)\]` match after its `[`); returns the number and the rest. -/
def numTail (s : Str) : Option (Nat × Str) :=
  if (s.takeWhile Char.isDigit).length = 0 then none
  else
    match s.drop (s.takeWhile Char.isDigit).length with
    | ']' :: r => some (digsToNat (s.takeWhile Char.isDigit), r)
    | _ => none

/-- Model of `re.split(r'\[(\d+)\]', raw)`: the text before the first
match, and for each match its captured number with the text following it
(up to the next match).  Python's scan is leftmost, non-overlapping,
resuming right after each match. -/
def splitBrCore : Nat → Str → Str × List (Nat × Str)
  | 0, _ => ([], [])
  | fuel + 1, s =>
    match s with
    | [] => ([], [])
    | c :: t =>
      if c = '[' then
        match numTail t with
        | some p =>
          let r := splitBrCore fuel p.2
          ([], (p.1, r.1) :: r.2)
        | none =>
          let r := splitBrCore fuel t
          (c :: r.1, r.2)
      else
        let r := splitBrCore fuel t
        (c :: r.1, r.2)

def splitBr (s : Str) : Str × List (Nat × Str) := splitBrCore (s.length + 1) s

/-- Python dict assignment `results[idx] = content` (overwrite keeps key
order of first insertion; only membership and values matter here). -/
def dinsert (k : Nat) (v : Str) : List (Nat × Str) → List (Nat × Str)
  | [] => [(k, v)]
  | (k', v') :: t => if k' = k then (k, v) :: t else (k', v') :: dinsert k v t

/-- The `results` dict of `_parse_batch_response`: each captured label
mapped to the stripped text that follows it (later occurrences of a label
overwrite earlier ones, as in a Python dict). -/
def batchResults (raw : Str) : List (Nat × Str) :=
  (splitBr raw).2.foldl (fun d p => dinsert p.1 (stripStr p.2) d) []

/-- `TranslatorBase._parse_batch_response(raw, expected)`; `none` models
the `ValueError`. -/
def parse_batch_response (raw : Str) (expected : Nat) : Option (List Str) :=
  if (batchResults raw).length = expected ∧
      ∀ i ∈ List.range expected, (List.lookup (i+1) (batchResults raw)).isSome = true then
    some ((List.range expected).map fun i => (List.lookup (i+1) (batchResults raw)).getD [])
  else none

/-- `f"[{i + 1}]\n{t}"` for one unit of the batch payload. -/
def numberedItem (i : Nat) (t : Str) : Str :=
  '[' :: (natDigs (i+1) ++ (']' :: '\n' :: t))

/-- `"\n\n".join(f"[{i + 1}]\n{t}" for i, t in enumerate(texts))`. -/
def joinBatch (texts : List Str) : Str :=
  List.intercalate ('\n' :: ['\n']) (texts.enum.map fun p => numberedItem p.1 p.2)

/-- `OllamaTranslator._translate_batch_inner`, instrumented with the
number of `_stream_chat` calls it issues.  `single t` is the response of
the single-text path (`_do_translate`), `chat u` the raw response to the
batch payload `u`; `none` models a raised exception in either.  A raised
batch call and an unparsable batch response both land in the `except`
branch, which bisects; a raised single call propagates.

The source recurses forever on an empty batch whose response fails to
parse (`texts[:0]` loops); no caller builds an empty batch, and the
embedding returns a failure there instead. -/
def tbiCore (single : Str → Option Str) (chat : Str → Option Str) :
    Nat → List Str → Nat × Option (List Str)
  | 0, _ => (0, none)
  | fuel + 1, texts =>
    match texts with
    | [] =>
      (1, match chat (joinBatch []) with
          | some raw => parse_batch_response raw 0
          | none => none)
    | [t] =>
      match single t with
      | some r => (1, some [r])
      | none => (1, none)
    | t₁ :: t₂ :: ts =>
      match
        match chat (joinBatch (t₁ :: t₂ :: ts)) with
        | some raw => parse_batch_response raw (t₁ :: t₂ :: ts).length
        | none => none
      with
      | some res => (1, some res)
      | none =>
        let l := tbiCore single chat fuel ((t₁ :: t₂ :: ts).take ((t₁ :: t₂ :: ts).length / 2))
        match l.2 with
        | none => (1 + l.1, none)
        | some lres =>
          let r := tbiCore single chat fuel ((t₁ :: t₂ :: ts).drop ((t₁ :: t₂ :: ts).length / 2))
          (1 + l.1 + r.1, r.2.map (lres ++ ·))

def translate_batch_inner (single : Str → Option Str) (chat : Str → Option Str)
    (texts : List Str) : Nat × Option (List Str) :=
  tbiCore single chat (texts.length + 1) texts

/-! Progress persistence (`TranslationPipeline._load_progress`), the
chapter loop of `TranslationPipeline.run`, and `pack` from
`core/epub/packer.py`.  File contents are modelled as `Str`. -/

/-- A JSON value, for the progress file. -/
inductive JValue where
  | null
  | bool (b : Bool)
  | num (n : Int)
  | str (s : Str)
  | arr (xs : List JValue)
  | obj (fields : List (Str × JValue))

/-- Whether a JSON value is hashable as a Python object (scalars are,
lists and dicts raise `TypeError` in the set comprehension). -/
def JValue.hashable : JValue → Bool
  | .arr _ => false
  | .obj _ => false
  | _ => true

/-- `e["path"]` for one progress entry, as evaluated inside the guarded
set comprehension `{e["path"] for e in entries}`: the entry must be a
dict with a `"path"` key whose value can be hashed, otherwise the
comprehension raises (and `_load_progress` returns empty). -/
def entryPath : JValue → Option JValue
  | .obj f =>
    match List.lookup "path".data f with
    | some p => if p.hashable then some p else none
    | none => none
  | _ => none

/-- The path of every entry, in order; `none` as soon as one entry's
lookup raises (short-circuiting like the comprehension). -/
def entryPaths : List JValue → Option (List JValue)
  | [] => some []
  | e :: rest =>
    match entryPath e with
    | some p =>
      match entryPaths rest with
      | some ps => some (p :: ps)
      | none => none
    | none => none

/-- The body of the `try` block in `_load_progress` after `json.loads`
succeeded: `data.get("completed", [])` (raises unless `data` is a dict),
then the path set comprehension (raises on wrong-shaped entries).
Iterating a non-list `completed` value raises once an element is reached,
so an empty string or empty dict behaves like an empty list. -/
def extract_progress (data : JValue) : Option (List JValue × List JValue) :=
  match data with
  | .obj fields =>
    match (List.lookup "completed".data fields).getD (JValue.arr []) with
    | .arr es =>
      match entryPaths es with
      | some ps => some (es, ps)
      | none => none
    | .str [] => some ([], [])
    | .obj [] => some ([], [])
    | _ => none
  | _ => none

/-- `TranslationPipeline._load_progress`: the argument models the disk
state — `none` when the progress file is absent, `some none` when present
but not valid JSON, `some (some j)` when it parses to `j`.  Returns the
entry list and the path set (as a list; only membership is used). -/
def load_progress (file : Option (Option JValue)) : List JValue × List JValue :=
  match file with
  | none => ([], [])
  | some none => ([], [])
  | some (some j) => (extract_progress j).getD ([], [])

/-- A spine chapter as `pack` and the chapter loop see it: its zip path
and its original XHTML bytes. -/
structure Chapter where
  abs_path : Str
  content : Str

/-- Python dict assignment for the string-keyed `chapter_contents`. -/
def dupd (k : Str) (v : Str) : List (Str × Str) → List (Str × Str)
  | [] => [(k, v)]
  | (k', v') :: t => if k' = k then (k, v) :: t else (k', v') :: dupd k v t

/-- The cache-restore loop of `run` (step 3): for each completed entry,
read the cached chapter bytes if present.  Computing the cache path calls
`entry["path"].encode()`, which raises `AttributeError` — uncaught, hence
fatal — when the recorded path is not a string; `none` models that crash.
The md5 cache-file naming is modelled by keying the cache oracle directly
on the path. -/
def cacheFold (cacheRead : Str → Option Str) :
    List JValue → List (Str × Str) → Option (List (Str × Str))
  | [], acc => some acc
  | p :: rest, acc =>
    match p with
    | .str s =>
      cacheFold cacheRead rest
        (match cacheRead s with
         | some b => dupd s b acc
         | none => acc)
    | _ => none

/-- State threaded through the chapter loop of `run`: the
`chapter_contents` dict, the paths newly appended to the progress record,
the chapters actually handed to `_translate_chapter`, and `error_count`. -/
structure RunState where
  contents : List (Str × Str)
  newPaths : List Str
  dispatched : List Str
  errors : Nat

/-- One `translate_chapter` task.  A path found in `completed_paths` is
skipped without dispatching; otherwise `_translate_chapter` runs and
either its result is recorded (content cached, entry appended) or the
exception is swallowed after bumping `error_count` — the task never
re-raises. -/
def jstrEq (s : Str) : JValue → Bool
  | .str t => s = t
  | _ => false

/-- Python `chapter.abs_path in completed_paths`: a string equals only an
equal string; comparison to any other member is simply `False`. -/
def pathInSet (s : Str) (paths : List JValue) : Bool := paths.any (jstrEq s)

def runStep (translateCh : Nat → Chapter → Option Str)
    (completedPaths : List JValue) (st : RunState) (ic : Nat × Chapter) :
    RunState :=
  if pathInSet ic.2.abs_path completedPaths then st
  else
    match translateCh ic.1 ic.2 with
    | some newContent =>
      ⟨dupd ic.2.abs_path newContent st.contents,
       st.newPaths ++ [ic.2.abs_path],
       st.dispatched ++ [ic.2.abs_path],
       st.errors⟩
    | none =>
      ⟨st.contents, st.newPaths,
       st.dispatched ++ [ic.2.abs_path],
       st.errors + 1⟩

/-- The chapter-translation phase of `TranslationPipeline.run` (steps
2–3): restore cached contents for completed entries, then process every
chapter.  The `asyncio.gather` tasks mutate the shared dict/list/counter
under `entries_lock`; the embedding runs them in spine order, which fixes
one of the admissible interleavings — every claim below only depends on
the resulting memberships, not on append order.  `none` models the
uncaught cache-path crash. -/
def runModel (chapters : List Chapter) (loaded : List JValue × List JValue)
    (cacheRead : Str → Option Str) (translateCh : Nat → Chapter → Option Str) :
    Option RunState :=
  match cacheFold cacheRead loaded.2 [] with
  | none => none
  | some contents0 =>
    some (chapters.enum.foldl (runStep translateCh loaded.2) ⟨contents0, [], [], 0⟩)

/-- `path.endswith(".opf")`. -/
def isOpfPath (p : Str) : Bool := ".opf".data.isSuffixOf p

/-- `pack(parsed, chapter_contents, output_path, target_lang)` as the
ordered list of zip entries written: `mimetype` first, then every asset
except `mimetype` (patching any `.opf`), the translation stylesheet, and
finally each spine chapter with its new content when present, original
content otherwise (`chapter_contents.get(abs_path, chapter.content)`).
`patchOpf` stands for `_patch_opf` (title/manifest lxml surgery, opaque
to every claim) and `cssAbs`/`cssBytes` for the stylesheet path and
text. -/
def pack (chapters : List Chapter) (assets : List (Str × Str))
    (patchOpf : Str → Str) (cssAbs cssBytes : Str)
    (contents : List (Str × Str)) : List (Str × Str) :=
  ("mimetype".data, "application/epub+zip".data)
  :: ((assets.filter (fun a => ¬ a.1 = "mimetype".data)).map
        (fun a => if isOpfPath a.1 then (a.1, patchOpf a.2) else a))
  ++ [(cssAbs, cssBytes)]
  ++ chapters.map (fun ch => (ch.abs_path, (List.lookup ch.abs_path contents).getD ch.content))

/-! Proof-side definitions: well-formedness predicates, the chunk
decomposition of marked strings, and helpers for individual claims. -/

/-- Text that contains none of the marker lead-in characters `<` and `[`.
A sufficient syntactic condition for "contains no placeholder-syntax
substring", closed under every concatenation the codec performs. -/
def cleanB (s : Str) : Bool := s.all fun c => c != '<' && c != '['

/-- Attribute lists whose keys and values are clean. -/
def cleanAttrs (attrs : List (Str × Str)) : Bool :=
  attrs.all fun kv => cleanB kv.1 && cleanB kv.2

/-- Conditions on a tag name under which rebuilt/rendered tags can never
alias a placeholder marker: nonempty, not starting with `g` or `/`, and
clean.  Every name in the two vocabularies satisfies this. -/
def goodName (nm : Str) : Bool :=
  !nm.isEmpty && nm.head? != some 'g' && nm.head? != some '/' && cleanB nm

/- Well-formed node for the round-trip theorems: every element is from
one of the two fixed vocabularies, and all text and attribute data is
clean. -/
mutual

def wfN : Node → Bool
  | .text s => cleanB s
  | .elem nm attrs cs =>
    (decide (nm ∈ OPQ_INLINE) || decide (nm ∈ TRANS_INLINE))
      && cleanAttrs attrs && wfF cs
  termination_by structural n => n

def wfF : List Node → Bool
  | [] => true
  | n :: rest => wfN n && wfF rest
  termination_by structural l => l

end

/-- A building block of every string the codec manipulates: a clean text
run, one of the three placeholder markers, or a rebuilt/rendered tag. -/
inductive Chunk where
  | txt (s : Str)
  | gO (k : Nat)
  | gC (k : Nat)
  | ot (k : Nat)
  | oTag (nm : Str) (attrs : List (Str × Str))
  | cTag (nm : Str)

/-- The string a chunk denotes. -/
def Chunk.flat : Chunk → Str
  | .txt s => s
  | .gO k => gOpen k
  | .gC k => gClose k
  | .ot k => otMark k
  | .oTag nm attrs => build_open_tag nm attrs
  | .cTag nm => closeTag nm

/-- Concatenation of a chunk list. -/
def flats (L : List Chunk) : Str := (L.map Chunk.flat).flatten

/-- Chunk well-formedness. -/
def Chunk.wf : Chunk → Bool
  | .txt s => cleanB s
  | .oTag nm attrs => goodName nm && cleanAttrs attrs
  | .cTag nm => goodName nm
  | _ => true

/-- Marker chunks. -/
def Chunk.isMarker : Chunk → Bool
  | .gO _ => true
  | .gC _ => true
  | .ot _ => true
  | _ => false

/-- The three marker shapes. -/
inductive MKind where
  | mo
  | mc
  | mt

/-- The marker string of a shape and id. -/
def mstr : MKind → Nat → Str
  | .mo, k => gOpen k
  | .mc, k => gClose k
  | .mt, k => otMark k

/-- Whether a chunk is exactly the marker of shape `m` and id `k`. -/
def Chunk.isMk : Chunk → MKind → Nat → Bool
  | .gO j, .mo, k => j == k
  | .gC j, .mc, k => j == k
  | .ot j, .mt, k => j == k
  | _, _, _ => false

/- Chunk decomposition of `renderN`/`renderF` output. -/
mutual

def rchunksN : Node → List Chunk
  | .text s => [.txt s]
  | .elem nm attrs cs => .oTag nm attrs :: (rchunksF cs ++ [.cTag nm])
  termination_by structural n => n

def rchunksF : List Node → List Chunk
  | [] => []
  | n :: rest => rchunksN n ++ rchunksF rest
  termination_by structural l => l

end

/- Chunk decomposition of `serN`/`serF` output, threading the same
counter. -/
mutual

def schunksN : Node → Nat → List Chunk × Nat
  | .text s, c => ([.txt s], c)
  | .elem nm attrs cs, c =>
    if lowerStr nm ∈ OPQ_INLINE then ([.ot c], c + 1)
    else if lowerStr nm ∈ TRANS_INLINE then
      let r := serF cs c
      if stripStr r.1 = [] then ([.ot r.2.2], r.2.2 + 1)
      else (.gO r.2.2 :: ((schunksF cs c).1 ++ [.gC r.2.2]), r.2.2 + 1)
    else schunksF cs c
  termination_by structural n c => n

def schunksF : List Node → Nat → List Chunk × Nat
  | [], c => ([], c)
  | n :: rest, c =>
    let r1 := schunksN n c
    let r2 := schunksF rest r1.2
    (r1.1 ++ r2.1, r2.2)
  termination_by structural l c => l

end

/- For claim C7: the ids `serialize_to_placeholders` assigns to the
elements of the forest, listed in document (pre-)order — each element's
own id before its descendants', siblings left to right — threading the
id counter exactly as `serN`/`serF` do. -/
mutual

def preIdsN : Node → Nat → List Nat × Nat
  | .text _, c => ([], c)
  | .elem nm _ cs, c =>
    if lowerStr nm ∈ OPQ_INLINE then ([c], c + 1)
    else if lowerStr nm ∈ TRANS_INLINE then
      let r := preIdsF cs c
      (r.2 :: r.1, r.2 + 1)
    else preIdsF cs c
  termination_by structural n c => n

def preIdsF : List Node → Nat → List Nat × Nat
  | [], c => ([], c)
  | n :: rest, c =>
    let r1 := preIdsN n c
    let r2 := preIdsF rest r1.2
    (r1.1 ++ r2.1, r2.2)
  termination_by structural l c => l

end

/- For claim C4: rendering of the forest with the element whose assigned
id is `N` unwrapped — its children rendered in place, its own tags
dropped.  Counter threading mirrors `serN`/`serF`. -/
mutual

def ruN (N : Nat) : Node → Nat → Str × Nat
  | .text s, c => (s, c)
  | .elem nm attrs cs, c =>
    if lowerStr nm ∈ OPQ_INLINE then (renderN (.elem nm attrs cs), c + 1)
    else if lowerStr nm ∈ TRANS_INLINE then
      let r := serF cs c
      if stripStr r.1 = [] then (renderN (.elem nm attrs cs), r.2.2 + 1)
      else if r.2.2 = N then ((ruF N cs c).1, r.2.2 + 1)
      else (build_open_tag nm attrs ++ (ruF N cs c).1 ++ closeTag nm, r.2.2 + 1)
    else ruF N cs c
  termination_by structural n c => n

def ruF (N : Nat) : List Node → Nat → Str × Nat
  | [], c => ([], c)
  | n :: rest, c =>
    let r1 := ruN N n c
    let r2 := ruF N rest r1.2
    (r1.1 ++ r2.1, r2.2)
  termination_by structural l c => l

end

/- For claim C4: the children of the (transparent, non-demoted) element
whose assigned id is `N`, if any. -/
mutual

def childrenAtN (N : Nat) : Node → Nat → Option (List Node)
  | .text _, _ => none
  | .elem nm _ cs, c =>
    if lowerStr nm ∈ OPQ_INLINE then none
    else if lowerStr nm ∈ TRANS_INLINE then
      let r := serF cs c
      if stripStr r.1 = [] then none
      else if r.2.2 = N then some cs
      else childrenAtF N cs c
    else childrenAtF N cs c
  termination_by structural n c => n

def childrenAtF (N : Nat) : List Node → Nat → Option (List Node)
  | [], _ => none
  | n :: rest, c =>
    match childrenAtN N n c with
    | some cs => some cs
    | none => childrenAtF N rest (serN n c).2.2
  termination_by structural l c => l

end

/-- No placeholder-pattern match anywhere in `s` (claim C9). -/
def noPH (s : Str) : Prop := ∀ i, phMatchLen (s.drop i) = none

/-- Saved-map entries whose data cannot alias markers: a transparent
entry carries a good clean tag, an opaque entry's stored markup is a
concatenation of well-formed non-marker chunks (claim C9). -/
def SavedTagWf (t : SavedTag) : Prop :=
  if t.opq then
    ∃ L, (∀ ch ∈ L, ch.wf = true ∧ ch.isMarker = false) ∧ t.original_html = flats L
  else goodName t.tag_name = true ∧ cleanAttrs t.attrs = true

/-- Sum of the text lengths of a batch's units (claim C2). -/
def sumLens (texts : List Str) (b : List Nat) : Nat :=
  (b.map fun i => (texts.getD i []).length).sum

/-- Ids `c, c+1, …, c+k-1` in ascending order. -/
def ascIds (c : Nat) : Nat → List Nat
  | 0 => []
  | k + 1 => c :: ascIds (c + 1) k

/-- Ids `hi-1, …, lo` in descending order (the processing order of the
restore loop over the ids of a sub-run `[lo, hi)`). -/
def descIds (lo k : Nat) : List Nat := (ascIds lo k).reverse

/-- The restore fold over a list of ids with the saved map abstracted into
a lookup function `σ` (the `foldl` body of `restore_from_placeholders`). -/
def rfold (σ : Nat → Option SavedTag) (r : Str) (ids : List Nat) : Str :=
  ids.foldl (fun r idx =>
    match σ idx with
    | some tag => restoreStep r idx tag
    | none => r) r

/-- Remove the first chunk that is exactly the marker of shape `m` and id
`i` — the chunk-level effect of `replaceFirst _ (mstr m i) []`. -/
def eraseMk (m : MKind) (i : Nat) : List Chunk → List Chunk
  | [] => []
  | ch :: t => if ch.isMk m i then t else ch :: eraseMk m i t

/- Chunk decomposition of `ruN`/`ruF` output (claim C4), mirroring their
branch structure. -/
mutual

def ruchN (N : Nat) : Node → Nat → List Chunk
  | .text s, _ => [.txt s]
  | .elem nm attrs cs, c =>
    if lowerStr nm ∈ OPQ_INLINE then rchunksN (.elem nm attrs cs)
    else if lowerStr nm ∈ TRANS_INLINE then
      if stripStr (serF cs c).1 = [] then rchunksN (.elem nm attrs cs)
      else if (serF cs c).2.2 = N then ruchF N cs c
      else .oTag nm attrs :: (ruchF N cs c ++ [.cTag nm])
    else ruchF N cs c
  termination_by structural n c => n

def ruchF (N : Nat) : List Node → Nat → List Chunk
  | [], _ => []
  | n :: rest, c => ruchN N n c ++ ruchF N rest (serN n c).2.2
  termination_by structural l c => l

end

/-- Context chunk lists for the restore induction: well-formed, and holding
no marker chunk whose id lies in `[c, c')`. -/
def inertCtx (L : List Chunk) (c c' : Nat) : Prop :=
  ∀ ch ∈ L, ch.wf = true ∧ ∀ m i, c ≤ i → i < c' → ch.isMk m i = false

/-! General-purpose lemmas about the embedded primitives. -/

theorem firstIdx_eq_some_iff (s pat : Str) (i : Nat) :
    firstIdx s pat = some i ↔
      occursAt s pat i ∧ ∀ j, j < i → ¬ occursAt s pat j := by
  unfold firstIdx
  induction s generalizing i with
  | nil =>
    unfold firstIdxFrom
    by_cases h : pat <+: ([] : Str)
    · rw [if_pos h]
      constructor
      · rintro h0; cases h0
        refine ⟨by simpa [occursAt] using h, ?_⟩; omega
      · rintro ⟨ho, hmin⟩
        by_contra hne
        have hi : 0 < i := by
          rcases Nat.eq_zero_or_pos i with h0 | hpos
          · subst h0; simp at hne
          · exact hpos
        exact hmin 0 hi (by simpa [occursAt] using h)
    · rw [if_neg h]
      constructor
      · intro hc; cases hc
      · rintro ⟨ho, -⟩
        exact absurd (by simpa [occursAt] using ho) h
  | cons c t ih =>
    unfold firstIdxFrom
    by_cases h : pat <+: (c :: t)
    · rw [if_pos h]
      constructor
      · rintro h0; cases h0
        refine ⟨by simpa [occursAt] using h, ?_⟩; omega
      · rintro ⟨ho, hmin⟩
        by_contra hne
        have hi : 0 < i := by
          rcases Nat.eq_zero_or_pos i with h0 | hpos
          · subst h0; simp at hne
          · exact hpos
        exact hmin 0 hi (by simpa [occursAt] using h)
    · rw [if_neg h]
      constructor
      · intro hc
        match i, hc with
        | 0, hc =>
          exfalso
          cases he : firstIdxFrom pat t with
          | none => rw [he] at hc; exact Option.noConfusion hc
          | some k =>
            rw [he] at hc
            simp only [Option.map_some'] at hc
            exact absurd (Option.some.inj hc) (by omega)
        | i + 1, hc =>
          have hc' : firstIdxFrom pat t = some i := by
            cases he : firstIdxFrom pat t with
            | none => rw [he] at hc; exact Option.noConfusion hc
            | some k =>
              rw [he] at hc
              simp only [Option.map_some'] at hc
              have hki : k + 1 = i + 1 := Option.some.inj hc
              exact congrArg some (by omega)
          have hmain := (ih i).mp hc'
          refine ⟨by simpa [occursAt] using hmain.1, ?_⟩
          intro j hj
          match j with
          | 0 =>
            intro hocc
            exact absurd (by simpa [occursAt] using hocc) h
          | j + 1 =>
            intro hocc
            exact hmain.2 j (by omega) (by simpa [occursAt] using hocc)
      · rintro ⟨ho, hmin⟩
        match i with
        | 0 =>
          exact absurd (by simpa [occursAt] using ho) h
        | i + 1 =>
          have hko : occursAt t pat i := by simpa [occursAt] using ho
          have hkm : ∀ j, j < i → ¬ occursAt t pat j := by
            intro j hj hocc
            exact hmin (j+1) (by omega) (by simpa [occursAt] using hocc)
          rw [(ih i).mpr ⟨hko, hkm⟩]
          rfl

theorem firstIdx_eq_none_iff (s pat : Str) :
    firstIdx s pat = none ↔ ∀ i, ¬ occursAt s pat i := by
  unfold firstIdx
  induction s with
  | nil =>
    unfold firstIdxFrom
    by_cases h : pat <+: ([] : Str)
    · rw [if_pos h]
      constructor
      · intro hc; cases hc
      · intro hall
        exact absurd (by simpa [occursAt] using h) (hall 0)
    · rw [if_neg h]
      simp only [true_iff]
      intro i hocc
      exact absurd (by simpa [occursAt] using hocc) h
  | cons c t ih =>
    unfold firstIdxFrom
    by_cases h : pat <+: (c :: t)
    · rw [if_pos h]
      constructor
      · intro hc; cases hc
      · intro hall
        exact absurd (by simpa [occursAt] using h) (hall 0)
    · rw [if_neg h]
      rw [Option.map_eq_none', ih]
      constructor
      · intro hall i
        match i with
        | 0 =>
          intro hocc
          exact absurd (by simpa [occursAt] using hocc) h
        | i + 1 =>
          intro hocc
          exact hall i (by simpa [occursAt] using hocc)
      · intro hall i hocc
        exact hall (i+1) (by simpa [occursAt] using hocc)

theorem firstIdx_of_minimal {s pat : Str} {i : Nat} (h : occursAt s pat i)
    (hmin : ∀ j, j < i → ¬ occursAt s pat j) : firstIdx s pat = some i :=
  (firstIdx_eq_some_iff s pat i).mpr ⟨h, hmin⟩

theorem occursAt_append_self (P pat R : Str) :
    occursAt (P ++ pat ++ R) pat P.length := by
  unfold occursAt
  rw [List.append_assoc, List.drop_left]
  exact ⟨R, rfl⟩

theorem drop_append_left (A B : Str) (n : Nat) :
    (A ++ B).drop (A.length + n) = B.drop n := by
  rw [List.drop_append_eq_append_drop]
  have h1 : A.drop (A.length + n) = [] := List.drop_eq_nil_of_le (by omega)
  rw [h1]
  simp

theorem take_append_left (A B : Str) : (A ++ B).take A.length = A :=
  List.take_left A B

theorem replaceFirst_decomp (P pat R rep : Str)
    (hmin : ∀ j, j < P.length → ¬ occursAt (P ++ pat ++ R) pat j) :
    replaceFirst (P ++ pat ++ R) pat rep = P ++ rep ++ R := by
  have hf : firstIdx (P ++ pat ++ R) pat = some P.length :=
    firstIdx_of_minimal (occursAt_append_self P pat R) hmin
  have hd : (P ++ pat ++ R).drop (P.length + pat.length) = R := by
    rw [List.append_assoc, drop_append_left, List.drop_left]
  have ht : (P ++ pat ++ R).take P.length = P := by
    rw [List.append_assoc, List.take_left]
  simp only [replaceFirst, hf, hd, ht]

theorem replaceFirst_of_none {s pat : Str} (rep : Str)
    (h : firstIdx s pat = none) : replaceFirst s pat rep = s := by
  unfold replaceFirst
  rw [h]

theorem natDigsCore_irrel (f₁ : Nat) : ∀ f₂ n, n < f₁ → n < f₂ →
    natDigsCore f₁ n = natDigsCore f₂ n := by
  induction f₁ with
  | zero => intro f₂ n h; omega
  | succ f₁ ih =>
    intro f₂ n h₁ h₂
    match f₂ with
    | 0 => omega
    | f₂ + 1 =>
      show natDigsCore (f₁ + 1) n = natDigsCore (f₂ + 1) n
      unfold natDigsCore
      by_cases h : n < 10
      · rw [if_pos h, if_pos h]
      · rw [if_neg h, if_neg h]
        rw [ih f₂ (n / 10) (by omega) (by omega)]

theorem natDigs_eq (n : Nat) :
    natDigs n = if n < 10 then [digCh n] else natDigs (n / 10) ++ [digCh (n % 10)] := by
  unfold natDigs
  show natDigsCore (n + 1) n = _
  conv_lhs => unfold natDigsCore
  by_cases h : n < 10
  · rw [if_pos h, if_pos h]
  · rw [if_neg h, if_neg h]
    rw [natDigsCore_irrel n (n / 10 + 1) (n / 10) (by omega) (by omega)]

theorem natDigs_ne_nil (n : Nat) : natDigs n ≠ [] := by
  rw [natDigs_eq]
  by_cases h : n < 10
  · rw [if_pos h]; simp
  · rw [if_neg h]; simp

theorem digCh_isDigit {d : Nat} (h : d < 10) : (digCh d).isDigit = true := by
  interval_cases d <;> decide

theorem natDigs_isDigit (n : Nat) : ∀ c ∈ natDigs n, c.isDigit = true := by
  induction n using Nat.strong_induction_on with
  | _ n ih =>
    intro c hc
    rw [natDigs_eq] at hc
    by_cases h : n < 10
    · rw [if_pos h] at hc
      rw [List.mem_singleton] at hc
      subst hc
      exact digCh_isDigit h
    · rw [if_neg h] at hc
      rcases List.mem_append.mp hc with hc | hc
      · exact ih (n / 10) (Nat.div_lt_self (by omega) (by omega)) c hc
      · rw [List.mem_singleton] at hc
        subst hc
        exact digCh_isDigit (Nat.mod_lt n (by omega))

theorem digVal_digCh {d : Nat} (h : d < 10) : digVal (digCh d) = d := by
  interval_cases d <;> decide

theorem digsVal_append_digit (xs : Str) (c : Char) :
    digsVal (xs ++ [c]) = 10 * digsVal xs + digVal c := by
  unfold digsVal
  rw [List.foldl_append]
  rfl

theorem digsVal_natDigs (n : Nat) : digsVal (natDigs n) = n := by
  induction n using Nat.strong_induction_on with
  | _ n ih =>
    rw [natDigs_eq]
    by_cases h : n < 10
    · rw [if_pos h]
      show 10 * 0 + digVal (digCh n) = n
      rw [digVal_digCh h]; omega
    · rw [if_neg h]
      rw [digsVal_append_digit]
      rw [ih (n / 10) (Nat.div_lt_self (by omega) (by omega))]
      rw [digVal_digCh (Nat.mod_lt n (by omega))]
      omega

theorem natDigs_inj {m n : Nat} (h : natDigs m = natDigs n) : m = n := by
  have := digsVal_natDigs m
  rw [h, digsVal_natDigs] at this
  omega

/-- A digit string followed by a non-digit closer determines the digit
string: if `d₁ ++ [cl]` is a prefix of `d₂ ++ [cl] ++ r`, the digit parts
agree. -/
theorem digits_closer_prefix {d₁ d₂ : Str} {cl : Char} {r : Str}
    (h₁ : ∀ c ∈ d₁, c.isDigit = true) (h₂ : ∀ c ∈ d₂, c.isDigit = true)
    (hcl : cl.isDigit = false)
    (hp : d₁ ++ [cl] <+: d₂ ++ [cl] ++ r) : d₁ = d₂ := by
  induction d₁ generalizing d₂ with
  | nil =>
    cases d₂ with
    | nil => rfl
    | cons b t₂ =>
      exfalso
      rcases hp with ⟨u, hu⟩
      simp only [List.nil_append, List.cons_append] at hu
      have : cl = b := by
        have := congrArg (·.head?) hu
        simpa using this
      rw [this] at hcl
      rw [h₂ b (by simp)] at hcl
      cases hcl
  | cons a t₁ ih =>
    cases d₂ with
    | nil =>
      exfalso
      rcases hp with ⟨u, hu⟩
      simp only [List.cons_append, List.nil_append] at hu
      have ha : a = cl := by
        have := congrArg (·.head?) hu
        simpa using this
      rw [← ha] at hcl
      rw [h₁ a (by simp)] at hcl
      cases hcl
    | cons b t₂ =>
      rcases hp with ⟨u, hu⟩
      simp only [List.cons_append] at hu
      have hab : a = b := by
        have := congrArg (·.head?) hu
        simpa using this
      subst hab
      have ht : t₁ ++ [cl] <+: t₂ ++ [cl] ++ r := by
        refine ⟨u, ?_⟩
        have := congrArg (·.tail) hu
        simpa using this
      rw [ih (fun c hc => h₁ c (by simp [hc])) (fun c hc => h₂ c (by simp [hc])) ht]

theorem phMatchLen_pos {s : Str} {n : Nat} (h : phMatchLen s = some n) : 0 < n := by
  unfold phMatchLen at h
  split at h <;> first
    | exact Option.noConfusion h
    | (split at h
       · exact Option.some.inj h ▸ by omega
       · exact Option.noConfusion h)

theorem numTail_lt {s : Str} {p : Nat × Str} (h : numTail s = some p) :
    p.2.length < s.length := by
  unfold numTail at h
  split at h
  · exact Option.noConfusion h
  · rename_i hd
    split at h
    · rename_i r hr
      have hp := Option.some.inj h
      have hlen : (s.drop (s.takeWhile Char.isDigit).length).length
          = s.length - (s.takeWhile Char.isDigit).length := List.length_drop _ _
      rw [hr] at hlen
      have htw : (s.takeWhile Char.isDigit).length ≤ s.length :=
        List.Sublist.length_le (List.takeWhile_sublist _)
      subst hp
      simp only [List.length_cons] at hlen
      dsimp only
      omega
    · exact Option.noConfusion h

/-! Counterexample theorems for the corrected claims. -/

/-- C1 counterexample: the round-trip identity fails as stated.  The
markup `<em>x</em>[OT:0]` contains only vocabulary elements (`em` is
transparent), yet decoding the unchanged encoded text loses the literal
text `[OT:0]`: the final `_PH_RE` cleanup deletes any marker-shaped
substring, including ones that were ordinary document text.  The restored
string is `<em>x</em>`, not the original inner markup. -/
theorem C1_counterexample :
    restore_from_placeholders
        (serialize_to_placeholders [Node.elem "em".data [] [.text "x".data], .text "[OT:0]".data]).1
        (serialize_to_placeholders [Node.elem "em".data [] [.text "x".data], .text "[OT:0]".data]).2
      = "<em>x</em>".data
    ∧ renderF [Node.elem "em".data [] [.text "x".data], .text "[OT:0]".data]
      = "<em>x</em>[OT:0]".data
    ∧ restore_from_placeholders
        (serialize_to_placeholders [Node.elem "em".data [] [.text "x".data], .text "[OT:0]".data]).1
        (serialize_to_placeholders [Node.elem "em".data [] [.text "x".data], .text "[OT:0]".data]).2
      ≠ renderF [Node.elem "em".data [] [.text "x".data], .text "[OT:0]".data] :=
  ⟨rfl, rfl, by decide⟩

/-- C3 counterexample: with a capability whose every multi-text response
fails batch parsing (here every batch response is the unlabeled text
`x`), a 2-unit batch is bisected into singletons, and each singleton is
translated by a real single-text call — `_translate_batch_inner` returns
the two translations (`a!`, `b!`) after 3 calls.  No unit is "reported as
a failure": the final fallback is `_do_translate`, an ordinary
translation request whose result is returned as a success. -/
theorem C3_counterexample :
    translate_batch_inner (fun t => some (t ++ ['!'])) (fun _ => some "x".data)
        ["a".data, "b".data]
      = (3, some ["a!".data, "b!".data]) := rfl

/-- C4 counterexample: for the translated string
`<g0>A[OT:</g0>1]B[OT:1]` (map: `g0` = `em`, `[OT:1]` = `<br/>`), the
full restoration rebuilds `<em>A[OT:</em>1]B<br/>`, with `<br/>` after
`B`.  After removing the closing tag `</g0>`, the text fragments `[OT:`
and `1]` become adjacent and form a spurious `[OT:1]` marker; the marker
with the *other* id 1 is then restored at that earlier position instead
(`A<br/>B`), and the pair's inner text `A[OT:` is no longer contained in
the result.  So deleting one closing tag can corrupt an unrelated
marker's restoration and lose text. -/
theorem C4_counterexample :
    restore_from_placeholders
        (replaceFirst "<g0>A[OT:</g0>1]B[OT:1]".data (gClose 0) [])
        [(0, ⟨"em".data, [], false, []⟩), (1, ⟨"br".data, [], true, "<br/>".data⟩)]
      = "A<br/>B".data
    ∧ restore_from_placeholders "<g0>A[OT:</g0>1]B[OT:1]".data
        [(0, ⟨"em".data, [], false, []⟩), (1, ⟨"br".data, [], true, "<br/>".data⟩)]
      = "<em>A[OT:</em>1]B<br/>".data
    ∧ ¬ "A[OT:".data <:+: "A<br/>B".data :=
  ⟨rfl, rfl, by decide⟩

/-- C7 counterexample: ids are not assigned monotonically increasing in
document order.  For `<em>a<b>c</b></em>`, the outer `em` starts first in
document order but receives id 1, its descendant `b` receives id 0
(transparent elements take their id only after their children have been
walked): the document-order id sequence is `[1, 0]`, not sorted. -/
theorem C7_counterexample :
    (preIdsF [Node.elem "em".data [] [.text "a".data, .elem "b".data [] [.text "c".data]]] 0).1
      = [1, 0]
    ∧ (serialize_to_placeholders
        [Node.elem "em".data [] [.text "a".data, .elem "b".data [] [.text "c".data]]]).2
      = [(0, ⟨"b".data, [], false, []⟩), (1, ⟨"em".data, [], false, []⟩)]
    ∧ (serialize_to_placeholders
        [Node.elem "em".data [] [.text "a".data, .elem "b".data [] [.text "c".data]]]).1
      = "<g1>a<g0>c</g0></g1>".data
    ∧ ¬ List.Sorted (· ≤ ·)
        (preIdsF [Node.elem "em".data [] [.text "a".data, .elem "b".data [] [.text "c".data]]] 0).1 :=
  ⟨rfl, rfl, rfl, by decide⟩

/-- C8 counterexample: a present-but-malformed progress file whose entry
has a non-string path, `{"completed": [{"path": 42}]}`, is *not* treated
as empty: `_load_progress`'s guarded extraction succeeds (42 is
hashable), returns the non-empty path set `{42}`, and the subsequent
cache-restore loop in `run` crashes on `entry["path"].encode()` — a
fatal, uncaught `AttributeError` (the run model returns `none`). -/
theorem C8_counterexample :
    (load_progress (some (some (.obj
        [("completed".data, .arr [.obj [("path".data, .num 42)]])])))).2
      = [JValue.num 42]
    ∧ runModel [⟨"ch1".data, "X".data⟩]
        (load_progress (some (some (.obj
          [("completed".data, .arr [.obj [("path".data, .num 42)]])]))))
        (fun _ => none) (fun _ ch => some ch.content)
      = none :=
  ⟨rfl, rfl⟩

/-- C9 counterexample: decode output is not always marker-free.  The
cleanup regex pass is a single left-to-right sweep that never rescans:
on the translated string `<g<g1>1>` (non-empty map, no matching ids) it
removes the inner match `<g1>` and the surrounding fragments `<g` and
`1>` join into a fresh marker — the returned string *is* `<g1>`, a full
placeholder pattern (`phMatchLen` matches all 4 characters). -/
theorem C9_counterexample :
    restore_from_placeholders "<g<g1>1>".data [(0, ⟨"br".data, [], true, "<br/>".data⟩)]
      = "<g1>".data
    ∧ phMatchLen "<g1>".data = some 4 :=
  ⟨rfl, rfl⟩

/-! Claim C2: batch partition. -/

theorem sumLens_nil (texts : List Str) : sumLens texts [] = 0 := rfl

theorem sumLens_concat (texts : List Str) (b : List Nat) (i : Nat) :
    sumLens texts (b ++ [i]) = sumLens texts b + (texts.getD i []).length := by
  unfold sumLens
  rw [List.map_append, List.sum_append]
  rfl

theorem drop_cons_head {texts : List Str} {i : Nat} {t : Str} {ts : List Str}
    (h : texts.drop i = t :: ts) :
    texts.getD i [] = t ∧ texts.drop (i + 1) = ts := by
  constructor
  · have h0 : (texts.drop i)[0]? = some t := by rw [h]; simp
    rw [List.getElem?_drop] at h0
    rw [show i + 0 = i from rfl] at h0
    simp [List.getD_eq_getElem?_getD, h0]
  · have h1 : (texts.drop i).drop 1 = ts := by rw [h]; simp
    rw [List.drop_drop] at h1
    first
      | exact h1
      | (rw [show 1 + i = i + 1 from by omega] at h1; exact h1)

theorem buildBatchesGo_spec (batchSize charLimit : Nat) (hb : 0 < batchSize)
    (texts : List Str) :
    ∀ ts i cur curChars acc,
      ts = texts.drop i →
      curChars = sumLens texts cur →
      cur.length ≤ batchSize →
      (cur ≠ [] → cur.length = 1 ∨ sumLens texts cur ≤ charLimit) →
      (∀ b ∈ acc, b ≠ [] ∧ b.length ≤ batchSize ∧
          (charLimit < sumLens texts b → b.length = 1)) →
      (buildBatchesGo batchSize charLimit ts i cur curChars acc).flatten
          = acc.flatten ++ cur ++ List.range' i ts.length
        ∧ ∀ b ∈ buildBatchesGo batchSize charLimit ts i cur curChars acc,
            b ≠ [] ∧ b.length ≤ batchSize ∧
              (charLimit < sumLens texts b → b.length = 1) := by
  intro ts
  induction ts with
  | nil =>
    intro i cur curChars acc hts hcc hlen hinv hacc
    unfold buildBatchesGo
    by_cases h : cur = []
    · rw [if_pos h]
      subst h
      refine ⟨by simp, hacc⟩
    · rw [if_neg h]
      constructor
      · rw [List.flatten_append]
        simp
      · intro b hb'
        rcases List.mem_append.mp hb' with hm | hm
        · exact hacc b hm
        · rw [List.mem_singleton] at hm
          subst hm
          refine ⟨h, hlen, ?_⟩
          intro hgt
          rcases hinv h with h1 | h1
          · exact h1
          · omega
  | cons t ts ih =>
    intro i cur curChars acc hts hcc hlen hinv hacc
    obtain ⟨hget, hdrop⟩ := drop_cons_head hts.symm
    unfold buildBatchesGo
    by_cases h0 : cur = []
    · rw [if_pos h0]
      subst h0
      simp only [List.nil_append]
      have := ih (i+1) [i] (curChars + t.length) acc hdrop.symm
        (by rw [hcc, sumLens_nil]
            show 0 + t.length = sumLens texts [i]
            unfold sumLens
            simp only [List.map_cons, List.map_nil, List.sum_cons, List.sum_nil, hget]
            omega)
        (by simpa using hb)
        (by intro; left; rfl)
        hacc
      refine ⟨?_, this.2⟩
      rw [this.1]
      simp only [List.length_cons, List.range'_succ, List.nil_append,
        List.append_nil]
      rw [List.append_assoc]
      rfl
    · rw [if_neg h0]
      by_cases h1 : batchSize ≤ cur.length
      · rw [if_pos h1]
        have hacc' : ∀ b ∈ acc ++ [cur], b ≠ [] ∧ b.length ≤ batchSize ∧
            (charLimit < sumLens texts b → b.length = 1) := by
          intro b hb'
          rcases List.mem_append.mp hb' with hm | hm
          · exact hacc b hm
          · rw [List.mem_singleton] at hm
            subst hm
            refine ⟨h0, hlen, ?_⟩
            intro hgt
            rcases hinv h0 with hx | hx
            · exact hx
            · omega
        have := ih (i+1) [i] t.length (acc ++ [cur]) hdrop.symm
          (by show t.length = sumLens texts [i]
              unfold sumLens
              simp only [List.map_cons, List.map_nil, List.sum_cons, List.sum_nil, hget]
              omega)
          (by simpa using hb)
          (by intro; left; rfl)
          hacc'
        refine ⟨?_, this.2⟩
        rw [this.1]
        simp only [List.length_cons, List.range'_succ, List.flatten_append]
        simp [List.append_assoc]
      · rw [if_neg h1]
        by_cases h2 : charLimit < curChars + t.length
        · rw [if_pos h2]
          have hacc' : ∀ b ∈ acc ++ [cur], b ≠ [] ∧ b.length ≤ batchSize ∧
              (charLimit < sumLens texts b → b.length = 1) := by
            intro b hb'
            rcases List.mem_append.mp hb' with hm | hm
            · exact hacc b hm
            · rw [List.mem_singleton] at hm
              subst hm
              refine ⟨h0, hlen, ?_⟩
              intro hgt
              rcases hinv h0 with hx | hx
              · exact hx
              · omega
          have := ih (i+1) [i] t.length (acc ++ [cur]) hdrop.symm
            (by show t.length = sumLens texts [i]
                unfold sumLens
                simp only [List.map_cons, List.map_nil, List.sum_cons, List.sum_nil, hget]
                omega)
            (by simpa using hb)
            (by intro; left; rfl)
            hacc'
          refine ⟨?_, this.2⟩
          rw [this.1]
          simp only [List.length_cons, List.range'_succ, List.flatten_append]
          simp [List.append_assoc]
        · rw [if_neg h2]
          have := ih (i+1) (cur ++ [i]) (curChars + t.length) acc hdrop.symm
            (by rw [hcc, sumLens_concat, hget])
            (by simp only [List.length_append, List.length_cons,
                  List.length_nil]; omega)
            (by intro
                right
                rw [sumLens_concat, hget, ← hcc]
                omega)
            hacc
          refine ⟨?_, this.2⟩
          rw [this.1]
          simp only [List.length_cons, List.range'_succ]
          simp [List.append_assoc]

/-- C2: batch partition — for every list of stripped texts and positive
`batch_size` / `batch_char_limit`, the batches `_translate_chapter`
builds cover the indices `0 .. n-1` exactly once in increasing order
(their concatenation is `range n`); every batch is non-empty with at most
`batch_size` units; and a batch whose summed character length exceeds
`batch_char_limit` is a singleton — an oversized unit is placed alone
rather than raising. -/
theorem C2_batch_partition (texts : List Str) (batchSize charLimit : Nat)
    (hb : 0 < batchSize) (_hc : 0 < charLimit) :
    (buildBatches batchSize charLimit texts).flatten = List.range texts.length
    ∧ (∀ b ∈ buildBatches batchSize charLimit texts,
        b ≠ [] ∧ b.length ≤ batchSize)
    ∧ (∀ b ∈ buildBatches batchSize charLimit texts,
        charLimit < sumLens texts b → b.length = 1) := by
  have := buildBatchesGo_spec batchSize charLimit hb texts texts 0 [] 0 []
    (by rfl) (by rfl) (by simp) (by intro h; exact absurd rfl h) (by intro b hb'; cases hb')
  unfold buildBatches
  refine ⟨?_, ?_, ?_⟩
  · rw [this.1]
    simp [List.range_eq_range']
  · intro b hb'
    exact ⟨(this.2 b hb').1, (this.2 b hb').2.1⟩
  · intro b hb'
    exact (this.2 b hb').2.2

/-- C2 witness: a concrete instance — three texts of lengths 1, 5 and 2
with `batch_size = 2`, `batch_char_limit = 4` yield the batches
`[[0], [1], [2]]` (the 5-char text exceeds the limit and sits alone). -/
theorem C2_batch_partition_witness :
    (0 : Nat) < 2 ∧ (0 : Nat) < 4 ∧
    ((buildBatches 2 4 ["a".data, "bcdef".data, "gh".data]).flatten
        = List.range 3
      ∧ (∀ b ∈ buildBatches 2 4 ["a".data, "bcdef".data, "gh".data],
          b ≠ [] ∧ b.length ≤ 2)
      ∧ (∀ b ∈ buildBatches 2 4 ["a".data, "bcdef".data, "gh".data],
          4 < sumLens ["a".data, "bcdef".data, "gh".data] b → b.length = 1)) :=
  ⟨by decide, by decide,
    C2_batch_partition ["a".data, "bcdef".data, "gh".data] 2 4 (by decide) (by decide)⟩

/-! Claims C3 and C10: the bisection scheduler. -/

theorem parse_batch_response_length {raw : Str} {expected : Nat} {l : List Str}
    (h : parse_batch_response raw expected = some l) : l.length = expected := by
  unfold parse_batch_response at h
  split at h
  · have := Option.some.inj h
    rw [← this, List.length_map, List.length_range]
  · exact Option.noConfusion h

theorem parse_batch_response_get {raw : Str} {expected : Nat} {l : List Str}
    (h : parse_batch_response raw expected = some l) :
    ∀ i, i < expected →
      l[i]? = some ((List.lookup (i+1) (batchResults raw)).getD []) := by
  intro i hi
  unfold parse_batch_response at h
  split at h
  · have := Option.some.inj h
    rw [← this]
    rw [List.getElem?_map, List.getElem?_range hi]
    rfl
  · exact Option.noConfusion h

theorem tbiCore_irrel (single chat : Str → Option Str) (f₁ : Nat) :
    ∀ f₂ texts, texts.length < f₁ → texts.length < f₂ →
      tbiCore single chat f₁ texts = tbiCore single chat f₂ texts := by
  induction f₁ with
  | zero => intro f₂ texts h; omega
  | succ f₁ ih =>
    intro f₂ texts h₁ h₂
    match f₂ with
    | 0 => omega
    | f₂ + 1 =>
      match texts with
      | [] => rfl
      | [t] => rfl
      | t₁ :: t₂ :: ts =>
        show tbiCore single chat (f₁+1) (t₁ :: t₂ :: ts)
            = tbiCore single chat (f₂+1) (t₁ :: t₂ :: ts)
        simp only [tbiCore]
        cases hatt : (match chat (joinBatch (t₁ :: t₂ :: ts)) with
          | some raw => parse_batch_response raw (t₁ :: t₂ :: ts).length
          | none => none) with
        | some res => rfl
        | none =>
          simp only [List.length_cons] at h₁ h₂
          have hmid : (t₁ :: t₂ :: ts).length / 2 < (t₁ :: t₂ :: ts).length := by
            simp only [List.length_cons]
            omega
          have htake : ((t₁ :: t₂ :: ts).take ((t₁ :: t₂ :: ts).length / 2)).length
              < (t₁ :: t₂ :: ts).length := by
            rw [List.length_take]
            simp only [List.length_cons]
            omega
          have hdrop : ((t₁ :: t₂ :: ts).drop ((t₁ :: t₂ :: ts).length / 2)).length
              < (t₁ :: t₂ :: ts).length := by
            rw [List.length_drop]
            simp only [List.length_cons]
            omega
          simp only [List.length_cons] at htake hdrop
          rw [ih f₂ ((t₁ :: t₂ :: ts).take ((t₁ :: t₂ :: ts).length / 2))
              (by simp only [List.length_cons]; omega)
              (by simp only [List.length_cons]; omega)]
          rw [ih f₂ ((t₁ :: t₂ :: ts).drop ((t₁ :: t₂ :: ts).length / 2))
              (by simp only [List.length_cons]; omega)
              (by simp only [List.length_cons]; omega)]

theorem tbiCore_allfail (single chat : Str → Option Str)
    (hs : ∀ t, single t ≠ none)
    (hc : ∀ b : List Str, 2 ≤ b.length →
      ∃ raw, chat (joinBatch b) = some raw ∧ parse_batch_response raw b.length = none) :
    ∀ fuel texts, texts.length < fuel → 0 < texts.length →
      tbiCore single chat fuel texts
        = (2 * texts.length - 1, some (texts.map fun t => (single t).getD [])) := by
  intro fuel
  induction fuel with
  | zero => intro texts h; omega
  | succ fuel ih =>
    intro texts h₁ h₂
    match texts with
    | [t] =>
      cases hst : single t with
      | none => exact absurd hst (hs t)
      | some r =>
        show (match single t with
              | some r => (1, some [r])
              | none => (1, none)) = _
        simp [hst]
    | t₁ :: t₂ :: ts =>
      obtain ⟨raw, hraw, hparse⟩ := hc (t₁ :: t₂ :: ts) (by simp)
      simp only [tbiCore]
      simp only [hraw]
      simp only [hparse]
      have hlen : (t₁ :: t₂ :: ts).length = ts.length + 2 := by simp
      have htl : ((t₁ :: t₂ :: ts).take ((t₁ :: t₂ :: ts).length / 2)).length
          = (t₁ :: t₂ :: ts).length / 2 := by
        rw [List.length_take]
        simp only [List.length_cons]
        omega
      have hdl : ((t₁ :: t₂ :: ts).drop ((t₁ :: t₂ :: ts).length / 2)).length
          = (t₁ :: t₂ :: ts).length - (t₁ :: t₂ :: ts).length / 2 :=
        List.length_drop _ _
      rw [ih ((t₁ :: t₂ :: ts).take ((t₁ :: t₂ :: ts).length / 2))
          (by rw [htl]; simp only [List.length_cons] at h₁ ⊢; omega)
          (by rw [htl]; simp only [List.length_cons]; omega)]
      rw [ih ((t₁ :: t₂ :: ts).drop ((t₁ :: t₂ :: ts).length / 2))
          (by rw [hdl]; simp only [List.length_cons] at h₁ ⊢; omega)
          (by rw [hdl]; simp only [List.length_cons]; omega)]
      simp only [Option.map_some']
      rw [← List.map_append, List.take_append_drop]
      have : 1 + (2 * ((t₁ :: t₂ :: ts).take ((t₁ :: t₂ :: ts).length / 2)).length - 1)
          + (2 * ((t₁ :: t₂ :: ts).drop ((t₁ :: t₂ :: ts).length / 2)).length - 1)
          = 2 * (t₁ :: t₂ :: ts).length - 1 := by
        rw [htl, hdl]
        simp only [List.length_cons]
        omega
      rw [this]

/-- C3 (amended): for a batch of `n ≥ 1` texts against a capability whose
every multi-text response fails batch parsing (and whose single-text
calls succeed), `_translate_batch_inner` issues exactly `2n - 1` calls to
the external service — full binary bisection down to singletons, never
looping (the model is a total function) — and returns the per-unit
*single-call translations*: the bottom of the bisection is a real
`_do_translate` request per unit, not a reported failure; this component
reports no unit failures (a failing single call would propagate as an
exception instead). -/
theorem C3_bisection_calls (single chat : Str → Option Str) (texts : List Str)
    (hn : 0 < texts.length)
    (hs : ∀ t, single t ≠ none)
    (hc : ∀ b : List Str, 2 ≤ b.length →
      ∃ raw, chat (joinBatch b) = some raw ∧ parse_batch_response raw b.length = none) :
    translate_batch_inner single chat texts
      = (2 * texts.length - 1, some (texts.map fun t => (single t).getD [])) :=
  tbiCore_allfail single chat hs hc (texts.length + 1) texts (by omega) hn

/-- C3 witness: four units, every batch response is the unparsable text
`bad` — 7 calls (`2·4 - 1`), and the four single-call translations are
returned. -/
theorem C3_bisection_calls_witness :
    0 < (["a".data, "b".data, "c".data, "d".data] : List Str).length
    ∧ translate_batch_inner (fun t => some (t ++ ['!'])) (fun _ => some "bad".data)
        ["a".data, "b".data, "c".data, "d".data]
      = (7, some ["a!".data, "b!".data, "c!".data, "d!".data]) := by
  refine ⟨by decide, ?_⟩
  have := C3_bisection_calls (fun t => some (t ++ ['!'])) (fun _ => some "bad".data)
    ["a".data, "b".data, "c".data, "d".data] (by decide)
    (fun t => by simp)
    (fun b hb => ⟨"bad".data, rfl, by
      have : batchResults "bad".data = [] := rfl
      unfold parse_batch_response
      rw [this]
      simp only [List.length_nil]
      rw [if_neg]
      intro hcon
      omega⟩)
  rw [this]
  rfl

theorem tbiCore_length (single chat : Str → Option Str) :
    ∀ fuel texts calls out, texts.length < fuel →
      tbiCore single chat fuel texts = (calls, some out) →
      out.length = texts.length := by
  intro fuel
  induction fuel with
  | zero => intro texts calls out h; omega
  | succ fuel ih =>
    intro texts calls out h₁ hres
    match texts with
    | [] =>
      simp only [tbiCore] at hres
      have h2 := congrArg Prod.snd hres
      cases hch : chat (joinBatch []) with
      | none =>
        simp only [hch] at h2
        exact Option.noConfusion h2
      | some raw =>
        simp only [hch] at h2
        rw [parse_batch_response_length h2]
        rfl
    | [t] =>
      cases hst : single t with
      | none =>
        simp only [tbiCore, hst] at hres
        exact Option.noConfusion (congrArg Prod.snd hres)
      | some r =>
        simp only [tbiCore, hst] at hres
        have h2 := congrArg Prod.snd hres
        rw [← Option.some.inj h2]
        rfl
    | t₁ :: t₂ :: ts =>
      cases hatt : (match chat (joinBatch (t₁ :: t₂ :: ts)) with
        | some raw => parse_batch_response raw (t₁ :: t₂ :: ts).length
        | none => none) with
      | some res =>
        simp only [tbiCore, hatt] at hres
        have h2 := congrArg Prod.snd hres
        have hout : res = out := Option.some.inj h2
        have hr : ∃ raw, chat (joinBatch (t₁ :: t₂ :: ts)) = some raw ∧
            parse_batch_response raw (t₁ :: t₂ :: ts).length = some res := by
          cases hch : chat (joinBatch (t₁ :: t₂ :: ts)) with
          | none => simp only [hch] at hatt; exact Option.noConfusion hatt
          | some raw =>
            simp only [hch] at hatt
            exact ⟨raw, rfl, hatt⟩
        obtain ⟨raw, -, hp⟩ := hr
        rw [← hout]
        exact parse_batch_response_length hp
      | none =>
        simp only [tbiCore, hatt] at hres
        cases hl : (tbiCore single chat fuel
            ((t₁ :: t₂ :: ts).take ((t₁ :: t₂ :: ts).length / 2))).2 with
        | none =>
          simp only [hl] at hres
          exact Option.noConfusion (congrArg Prod.snd hres)
        | some lres =>
          simp only [hl] at hres
          cases hr : (tbiCore single chat fuel
              ((t₁ :: t₂ :: ts).drop ((t₁ :: t₂ :: ts).length / 2))).2 with
          | none =>
            simp only [hr, Option.map_none'] at hres
            exact Option.noConfusion (congrArg Prod.snd hres)
          | some rres =>
            simp only [hr, Option.map_some'] at hres
            have h2 := congrArg Prod.snd hres
            have hout : lres ++ rres = out := Option.some.inj h2
            have hll : lres.length
                = ((t₁ :: t₂ :: ts).take ((t₁ :: t₂ :: ts).length / 2)).length :=
              ih _ _ _
                (by rw [List.length_take]; simp only [List.length_cons] at h₁ ⊢; omega)
                (Prod.ext rfl hl)
            have hrl : rres.length
                = ((t₁ :: t₂ :: ts).drop ((t₁ :: t₂ :: ts).length / 2)).length :=
              ih _ _ _
                (by rw [List.length_drop]; simp only [List.length_cons] at h₁ ⊢; omega)
                (Prod.ext rfl hr)
            rw [← hout, List.length_append, hll, hrl, List.length_take, List.length_drop]
            simp only [List.length_cons]
            omega

theorem tbiCore_succ_split (single chat : Str → Option Str) (fuel : Nat)
    (t₁ t₂ : Str) (ts : List Str)
    (hatt : (match chat (joinBatch (t₁ :: t₂ :: ts)) with
      | some raw => parse_batch_response raw (t₁ :: t₂ :: ts).length
      | none => none) = none) :
    tbiCore single chat (fuel + 1) (t₁ :: t₂ :: ts)
      = (match (tbiCore single chat fuel
            ((t₁ :: t₂ :: ts).take ((t₁ :: t₂ :: ts).length / 2))).2 with
         | none => (1 + (tbiCore single chat fuel
              ((t₁ :: t₂ :: ts).take ((t₁ :: t₂ :: ts).length / 2))).1, none)
         | some lres =>
           (1 + (tbiCore single chat fuel
                ((t₁ :: t₂ :: ts).take ((t₁ :: t₂ :: ts).length / 2))).1
              + (tbiCore single chat fuel
                  ((t₁ :: t₂ :: ts).drop ((t₁ :: t₂ :: ts).length / 2))).1,
            Option.map (lres ++ ·)
              (tbiCore single chat fuel
                ((t₁ :: t₂ :: ts).drop ((t₁ :: t₂ :: ts).length / 2))).2)) := by
  simp only [tbiCore, hatt]

/-- C10: whenever `translate_batch` returns without raising, the list it
returns has exactly `len(texts)` elements and is assembled positionally:
a batch whose response parses returns the segments labelled
`[1] .. [n]` in label order; a failed parse bisects and returns the left
half's results concatenated with the right half's (with the call count
`1 +` the two halves'); a singleton returns exactly the one single-call
result. -/
theorem C10_batch_cardinality (single chat : Str → Option Str) (texts : List Str)
    (calls : Nat) (out : List Str)
    (h : translate_batch_inner single chat texts = (calls, some out)) :
    out.length = texts.length
    ∧ (∀ t, texts = [t] → out = [(single t).getD []])
    ∧ (∀ raw res, chat (joinBatch texts) = some raw →
        parse_batch_response raw texts.length = some res →
        2 ≤ texts.length →
        out = res ∧ ∀ i, i < texts.length →
          res[i]? = some ((List.lookup (i+1) (batchResults raw)).getD []))
    ∧ (2 ≤ texts.length →
        (match chat (joinBatch texts) with
         | some raw => parse_batch_response raw texts.length
         | none => none) = none →
        ∃ lres rres c₁ c₂,
          translate_batch_inner single chat (texts.take (texts.length / 2))
              = (c₁, some lres)
          ∧ translate_batch_inner single chat (texts.drop (texts.length / 2))
              = (c₂, some rres)
          ∧ out = lres ++ rres ∧ calls = 1 + c₁ + c₂) := by
  refine ⟨tbiCore_length single chat (texts.length + 1) texts calls out (by omega) h, ?_, ?_, ?_⟩
  · intro t ht
    subst ht
    cases hst : single t with
    | none =>
      simp only [translate_batch_inner, tbiCore, hst] at h
      exact Option.noConfusion (congrArg Prod.snd h)
    | some r =>
      simp only [translate_batch_inner, tbiCore, hst] at h
      rw [← Option.some.inj (congrArg Prod.snd h)]
      rfl
  · intro raw res hraw hparse hlen
    match texts, h, hraw, hparse, hlen with
    | t₁ :: t₂ :: ts, h, hraw, hparse, hlen =>
      simp only [translate_batch_inner, tbiCore, hraw, hparse] at h
      have hout : res = out := Option.some.inj (congrArg Prod.snd h)
      exact ⟨hout.symm, parse_batch_response_get hparse⟩
  · intro hlen hatt
    match texts, h, hatt, hlen with
    | t₁ :: t₂ :: ts, h, hatt, hlen =>
      rw [show translate_batch_inner single chat (t₁ :: t₂ :: ts)
          = tbiCore single chat ((t₁ :: t₂ :: ts).length + 1) (t₁ :: t₂ :: ts) from rfl] at h
      rw [tbiCore_succ_split single chat (t₁ :: t₂ :: ts).length t₁ t₂ ts hatt] at h
      have hirr₁ : tbiCore single chat (t₁ :: t₂ :: ts).length
            ((t₁ :: t₂ :: ts).take ((t₁ :: t₂ :: ts).length / 2))
          = translate_batch_inner single chat
              ((t₁ :: t₂ :: ts).take ((t₁ :: t₂ :: ts).length / 2)) := by
        unfold translate_batch_inner
        apply tbiCore_irrel
        · rw [List.length_take]; simp only [List.length_cons]; omega
        · omega
      have hirr₂ : tbiCore single chat (t₁ :: t₂ :: ts).length
            ((t₁ :: t₂ :: ts).drop ((t₁ :: t₂ :: ts).length / 2))
          = translate_batch_inner single chat
              ((t₁ :: t₂ :: ts).drop ((t₁ :: t₂ :: ts).length / 2)) := by
        unfold translate_batch_inner
        apply tbiCore_irrel
        · rw [List.length_drop]; simp only [List.length_cons]; omega
        · omega
      rw [hirr₁, hirr₂] at h
      cases hl : (translate_batch_inner single chat
          ((t₁ :: t₂ :: ts).take ((t₁ :: t₂ :: ts).length / 2))).2 with
      | none =>
        simp only [hl] at h
        exact absurd (congrArg Prod.snd h) (by simp)
      | some lres =>
        simp only [hl] at h
        cases hr : (translate_batch_inner single chat
            ((t₁ :: t₂ :: ts).drop ((t₁ :: t₂ :: ts).length / 2))).2 with
        | none =>
          simp only [hr, Option.map_none'] at h
          exact absurd (congrArg Prod.snd h) (by simp)
        | some rres =>
          simp only [hr, Option.map_some'] at h
          refine ⟨lres, rres,
            (translate_batch_inner single chat
              ((t₁ :: t₂ :: ts).take ((t₁ :: t₂ :: ts).length / 2))).1,
            (translate_batch_inner single chat
              ((t₁ :: t₂ :: ts).drop ((t₁ :: t₂ :: ts).length / 2))).1,
            Prod.ext rfl hl, Prod.ext rfl hr, ?_, ?_⟩
          · exact (Option.some.inj (congrArg Prod.snd h)).symm
          · exact (congrArg Prod.fst h).symm

/-- C10 witness: a 2-unit batch whose response carries labels `[1]` and
`[2]` parses successfully, so translate_batch returns two segments in
label order after one call. -/
theorem C10_batch_cardinality_witness :
    translate_batch_inner (fun t => some t) (fun _ => some "[1] X [2] Y".data)
        ["x".data, "y".data]
      = (1, some ["X".data, "Y".data])
    ∧ (["X".data, "Y".data] : List Str).length = (["x".data, "y".data] : List Str).length := by
  refine ⟨rfl, ?_⟩
  exact (C10_batch_cardinality (fun t => some t) (fun _ => some "[1] X [2] Y".data)
    ["x".data, "y".data] 1 ["X".data, "Y".data] rfl).1

/-! Claims C5, C6, C8: the chapter loop, progress store and packer. -/

theorem lookup_cons_pair (p k : Str) (v : Str) (t : List (Str × Str)) :
    List.lookup p ((k, v) :: t) = if p = k then some v else List.lookup p t := by
  by_cases h : p = k
  · have hb : (p == k) = true := by simpa using h
    simp only [List.lookup, hb, if_pos h]
  · have hb : (p == k) = false := by simpa using h
    simp only [List.lookup, hb, if_neg h]

theorem lookup_dupd (k p v : Str) (m : List (Str × Str)) :
    List.lookup p (dupd k v m) = if p = k then some v else List.lookup p m := by
  induction m with
  | nil =>
    show List.lookup p [(k, v)] = _
    rw [lookup_cons_pair]
  | cons kv t ih =>
    obtain ⟨k', v'⟩ := kv
    show List.lookup p (if k' = k then (k, v) :: t else (k', v') :: dupd k v t) = _
    by_cases h : k' = k
    · rw [if_pos h]
      rw [lookup_cons_pair]
      by_cases h2 : p = k
      · rw [if_pos h2, if_pos h2]
      · rw [if_neg h2, if_neg h2, lookup_cons_pair, if_neg (by rw [h]; exact h2)]
    · rw [if_neg h]
      rw [lookup_cons_pair, ih, lookup_cons_pair]
      by_cases h2 : p = k'
      · subst h2
        rw [if_pos rfl, if_neg h, if_pos rfl]
      · rw [if_neg h2]
        by_cases h3 : p = k
        · rw [if_pos h3, if_pos h3]
        · rw [if_neg h3, if_neg h3, if_neg h2]

theorem pathInSet_append (q : Str) (l₁ l₂ : List JValue) :
    pathInSet q (l₁ ++ l₂) = (pathInSet q l₁ || pathInSet q l₂) := by
  unfold pathInSet
  exact List.any_append

theorem runFold_dispatched (tc : Nat → Chapter → Option Str) (completed : List JValue) :
    ∀ chs : List Chapter, ∀ i st,
      ((chs.enumFrom i).foldl (runStep tc completed) st).dispatched
        = st.dispatched
          ++ (chs.filter fun ch => !(pathInSet ch.abs_path completed)).map Chapter.abs_path := by
  intro chs
  induction chs with
  | nil => intro i st; simp
  | cons ch rest ih =>
    intro i st
    show ((rest.enumFrom (i+1)).foldl (runStep tc completed)
        (runStep tc completed st (i, ch))).dispatched = _
    rw [ih]
    unfold runStep
    by_cases h : pathInSet ch.abs_path completed
    · rw [if_pos (by exact h)]
      rw [List.filter_cons_of_neg (by simp [h])]
    · rw [if_neg (by exact h)]
      rw [List.filter_cons_of_pos (by simp [h])]
      cases tc i ch with
      | some b => simp
      | none => simp

theorem runFold_newPaths (tc : Nat → Chapter → Option Str) (completed : List JValue) :
    ∀ chs : List Chapter, ∀ i st,
      ((chs.enumFrom i).foldl (runStep tc completed) st).newPaths
        = st.newPaths
          ++ ((chs.enumFrom i).filter fun p =>
              !(pathInSet p.2.abs_path completed) && (tc p.1 p.2).isSome).map
                (fun p => p.2.abs_path) := by
  intro chs
  induction chs with
  | nil => intro i st; simp
  | cons ch rest ih =>
    intro i st
    show ((rest.enumFrom (i+1)).foldl (runStep tc completed)
        (runStep tc completed st (i, ch))).newPaths
      = st.newPaths ++ (((i, ch) :: rest.enumFrom (i+1)).filter fun p =>
          !(pathInSet p.2.abs_path completed) && (tc p.1 p.2).isSome).map
            (fun p => p.2.abs_path)
    rw [ih]
    unfold runStep
    by_cases h : pathInSet ch.abs_path completed
    · rw [if_pos (by exact h)]
      rw [List.filter_cons_of_neg (by simp [h])]
    · rw [if_neg (by exact h)]
      cases htc : tc i ch with
      | some b =>
        rw [List.filter_cons_of_pos (by simp [h, htc])]
        try simp
      | none =>
        rw [List.filter_cons_of_neg (by simp [h, htc])]
        try simp

theorem runFold_errors (tc : Nat → Chapter → Option Str) (completed : List JValue) :
    ∀ chs : List Chapter, ∀ i st,
      ((chs.enumFrom i).foldl (runStep tc completed) st).errors
        = st.errors
          + ((chs.enumFrom i).filter fun p =>
              !(pathInSet p.2.abs_path completed) && (tc p.1 p.2).isNone).length := by
  intro chs
  induction chs with
  | nil => intro i st; simp
  | cons ch rest ih =>
    intro i st
    show ((rest.enumFrom (i+1)).foldl (runStep tc completed)
        (runStep tc completed st (i, ch))).errors
      = st.errors + (((i, ch) :: rest.enumFrom (i+1)).filter fun p =>
          !(pathInSet p.2.abs_path completed) && (tc p.1 p.2).isNone).length
    rw [ih]
    unfold runStep
    by_cases h : pathInSet ch.abs_path completed
    · rw [if_pos (by exact h)]
      rw [List.filter_cons_of_neg (by simp [h])]
    · rw [if_neg (by exact h)]
      cases htc : tc i ch with
      | some b =>
        rw [List.filter_cons_of_neg (by simp [h, htc])]
        try simp
      | none =>
        rw [List.filter_cons_of_pos (by simp [h, htc])]
        try simp
        try omega

theorem runFold_lookup_notmem (tc : Nat → Chapter → Option Str) (completed : List JValue) :
    ∀ chs : List Chapter, ∀ i st p,
      (∀ ch ∈ chs, ch.abs_path ≠ p) →
      List.lookup p ((chs.enumFrom i).foldl (runStep tc completed) st).contents
        = List.lookup p st.contents := by
  intro chs
  induction chs with
  | nil => intro i st p _; rfl
  | cons ch rest ih =>
    intro i st p hp
    show List.lookup p ((rest.enumFrom (i+1)).foldl (runStep tc completed)
        (runStep tc completed st (i, ch))).contents = _
    rw [ih _ _ p (fun c hc => hp c (by simp [hc]))]
    unfold runStep
    by_cases h : pathInSet ch.abs_path completed
    · rw [if_pos (by exact h)]
    · rw [if_neg (by exact h)]
      cases tc i ch with
      | some b =>
        show List.lookup p (dupd ch.abs_path b st.contents) = _
        rw [lookup_dupd]
        rw [if_neg (by intro hc; exact hp ch (by simp) hc.symm)]
      | none => rfl

theorem runFold_lookup_skipped (tc : Nat → Chapter → Option Str) (completed : List JValue) :
    ∀ chs : List Chapter, ∀ i st p,
      pathInSet p completed = true →
      List.lookup p ((chs.enumFrom i).foldl (runStep tc completed) st).contents
        = List.lookup p st.contents := by
  intro chs
  induction chs with
  | nil => intro i st p _; rfl
  | cons ch rest ih =>
    intro i st p hp
    show List.lookup p ((rest.enumFrom (i+1)).foldl (runStep tc completed)
        (runStep tc completed st (i, ch))).contents = _
    rw [ih _ _ p hp]
    unfold runStep
    by_cases h : pathInSet ch.abs_path completed
    · rw [if_pos (by exact h)]
    · rw [if_neg (by exact h)]
      cases tc i ch with
      | some b =>
        show List.lookup p (dupd ch.abs_path b st.contents) = _
        rw [lookup_dupd]
        rw [if_neg (by intro hc; rw [hc] at hp; rw [hp] at h; exact h rfl)]
      | none => rfl

theorem jstrEq_iff (p : Str) (e : JValue) : jstrEq p e = true ↔ e = .str p := by
  cases e <;> simp [jstrEq]
  · rename_i t
    constructor
    · intro h; rw [h]
    · intro h; exact h.symm

theorem pathInSet_iff (p : Str) (paths : List JValue) :
    pathInSet p paths = true ↔ JValue.str p ∈ paths := by
  unfold pathInSet
  rw [List.any_eq_true]
  constructor
  · rintro ⟨e, he, hj⟩
    rw [(jstrEq_iff p e).mp hj] at he
    exact he
  · intro h
    exact ⟨JValue.str p, h, (jstrEq_iff p (JValue.str p)).mpr rfl⟩

theorem runFold_lookup_notwritten (tc : Nat → Chapter → Option Str)
    (completed : List JValue) :
    ∀ chs : List Chapter, ∀ i st p,
      (∀ pair ∈ chs.enumFrom i, pair.2.abs_path = p →
        pathInSet p completed = true ∨ tc pair.1 pair.2 = none) →
      List.lookup p ((chs.enumFrom i).foldl (runStep tc completed) st).contents
        = List.lookup p st.contents := by
  intro chs
  induction chs with
  | nil => intro i st p _; rfl
  | cons ch rest ih =>
    intro i st p hp
    show List.lookup p ((rest.enumFrom (i+1)).foldl (runStep tc completed)
        (runStep tc completed st (i, ch))).contents = _
    rw [ih _ _ p (fun pair hpair hpath => hp pair (by simp [hpair]) hpath)]
    unfold runStep
    by_cases h : pathInSet ch.abs_path completed
    · rw [if_pos (by exact h)]
    · rw [if_neg (by exact h)]
      cases htc : tc i ch with
      | some b =>
        show List.lookup p (dupd ch.abs_path b st.contents) = _
        rw [lookup_dupd]
        rw [if_neg ?hne]
        case hne =>
          intro hc
          rcases hp (i, ch) (by simp) hc.symm with hx | hx
          · rw [hc] at hx
            rw [hx] at h
            exact h rfl
          · rw [hx] at htc
            exact Option.noConfusion htc
      | none => rfl

theorem runFold_lookup_hit (tc : Nat → Chapter → Option Str)
    (completed : List JValue) (pre : List Chapter) (chK : Chapter)
    (post : List Chapter) :
    ∀ i st b,
      pathInSet chK.abs_path completed = false →
      (∀ pair ∈ post.enumFrom (i + pre.length + 1), pair.2.abs_path = chK.abs_path →
        pathInSet chK.abs_path completed = true ∨ tc pair.1 pair.2 = none) →
      tc (i + pre.length) chK = some b →
      List.lookup chK.abs_path
          ((((pre ++ chK :: post).enumFrom i)).foldl (runStep tc completed) st).contents
        = some b := by
  induction pre with
  | nil =>
    intro i st b hskip hpost htc
    show List.lookup chK.abs_path ((post.enumFrom (i+1)).foldl (runStep tc completed)
        (runStep tc completed st (i, chK))).contents = some b
    rw [runFold_lookup_notwritten tc completed post (i+1) _ chK.abs_path
      (by intro pair hpair hpath
          exact hpost pair (by simpa using hpair) hpath)]
    unfold runStep
    rw [if_neg (by rw [hskip]; simp)]
    simp only [show i + [].length = i from by simp] at htc
    rw [htc]
    show List.lookup chK.abs_path (dupd chK.abs_path b st.contents) = some b
    rw [lookup_dupd, if_pos rfl]
  | cons c' pre' ih =>
    intro i st b hskip hpost htc
    show List.lookup chK.abs_path
        (((pre' ++ chK :: post).enumFrom (i+1)).foldl (runStep tc completed)
          (runStep tc completed st (i, c'))).contents = some b
    apply ih (i+1) _ b hskip
    · intro pair hpair hpath
      apply hpost pair _ hpath
      have : i + 1 + pre'.length + 1 = i + (c' :: pre').length + 1 := by simp; omega
      rw [← this]
      exact hpair
    · have : i + 1 + pre'.length = i + (c' :: pre').length := by simp; omega
      rw [this]
      exact htc

theorem cacheFold_strings (cacheRead : Str → Option Str) :
    ∀ entries acc, (∀ e ∈ entries, ∃ s, e = JValue.str s) →
      ∃ m, cacheFold cacheRead entries acc = some m := by
  intro entries
  induction entries with
  | nil => intro acc _; exact ⟨acc, rfl⟩
  | cons e rest ih =>
    intro acc hstr
    obtain ⟨s, hs⟩ := hstr e (by simp)
    subst hs
    show ∃ m, cacheFold cacheRead rest _ = some m
    exact ih _ (fun e he => hstr e (by simp [he]))

theorem cacheFold_lookup (cacheRead : Str → Option Str) :
    ∀ entries acc m, cacheFold cacheRead entries acc = some m →
      ∀ p b, cacheRead p = some b →
        (JValue.str p ∈ entries ∨ List.lookup p acc = some b) →
        List.lookup p m = some b := by
  intro entries
  induction entries with
  | nil =>
    intro acc m hm p b hcr hmem
    rcases hmem with hmem | hmem
    · cases hmem
    · have : acc = m := Option.some.inj hm
      rw [← this]
      exact hmem
  | cons e rest ih =>
    intro acc m hm p b hcr hmem
    cases e with
    | str s =>
      have hm' : cacheFold cacheRead rest
          (match cacheRead s with
           | some b' => dupd s b' acc
           | none => acc) = some m := hm
      apply ih _ m hm' p b hcr
      rcases hmem with hmem | hmem
      · rcases List.mem_cons.mp hmem with hx | hx
        · right
          have hps : p = s := by
            have := JValue.str.inj hx
            exact this
          subst hps
          rw [hcr]
          show List.lookup p (dupd p b acc) = some b
          rw [lookup_dupd, if_pos rfl]
        · left; exact hx
      · right
        cases hcs : cacheRead s with
        | some b' =>
          show List.lookup p (dupd s b' acc) = some b
          rw [lookup_dupd]
          by_cases hps : p = s
          · subst hps
            rw [hcr] at hcs
            rw [if_pos rfl]
            rw [Option.some.inj hcs]
          · rw [if_neg hps]
            exact hmem
        | none =>
          exact hmem
    | null => exact Option.noConfusion hm
    | bool b' => exact Option.noConfusion hm
    | num n => exact Option.noConfusion hm
    | arr xs => exact Option.noConfusion hm
    | obj f => exact Option.noConfusion hm

theorem pack_mem_chapter (chapters : List Chapter) (assets : List (Str × Str))
    (patchOpf : Str → Str) (cssAbs cssBytes : Str) (contents : List (Str × Str))
    (ch : Chapter) (h : ch ∈ chapters) :
    (ch.abs_path, (List.lookup ch.abs_path contents).getD ch.content)
      ∈ pack chapters assets patchOpf cssAbs cssBytes contents := by
  unfold pack
  apply List.mem_cons_of_mem
  apply List.mem_append_right
  exact List.mem_map_of_mem _ h

theorem enumFrom_append (l₁ l₂ : List Chapter) :
    ∀ i, (l₁ ++ l₂).enumFrom i = l₁.enumFrom i ++ l₂.enumFrom (i + l₁.length) := by
  induction l₁ with
  | nil => intro i; simp
  | cons c t ih =>
    intro i
    show (i, c) :: (t ++ l₂).enumFrom (i+1) = _
    rw [ih (i+1)]
    simp only [List.enumFrom, List.cons_append, List.length_cons]
    have : i + 1 + t.length = i + (t.length + 1) := by omega
    rw [this]

theorem mem_enumFrom_split (chs : List Chapter) :
    ∀ i pair, pair ∈ chs.enumFrom i →
      ∃ pre post, chs = pre ++ pair.2 :: post ∧ pair.1 = i + pre.length := by
  induction chs with
  | nil => intro i pair h; cases h
  | cons c t ih =>
    intro i pair h
    rcases List.mem_cons.mp h with h | h
    · refine ⟨[], t, ?_, ?_⟩
      · rw [h]
        rfl
      · rw [h]
        simp
    · obtain ⟨pre, post, h1, h2⟩ := ih (i+1) pair h
      refine ⟨c :: pre, post, by rw [h1]; rfl, ?_⟩
      rw [h2]
      simp only [List.length_cons]
      omega

theorem snd_mem_of_mem_enumFrom (chs : List Chapter) :
    ∀ i pair, pair ∈ chs.enumFrom i → pair.2 ∈ chs := by
  intro i pair h
  obtain ⟨pre, post, h1, -⟩ := mem_enumFrom_split chs i pair h
  rw [h1]
  simp

theorem nodup_path_unique (pre : List Chapter) (chK : Chapter) (post : List Chapter)
    (hnd : (((pre ++ chK :: post).map Chapter.abs_path)).Nodup) :
    ∀ i pair, pair ∈ (pre ++ chK :: post).enumFrom i →
      pair.2.abs_path = chK.abs_path → pair = (i + pre.length, chK) := by
  have hnotpre : ∀ c ∈ pre, c.abs_path ≠ chK.abs_path := by
    intro c hc he
    rw [List.map_append, List.map_cons] at hnd
    have hdisj := (List.nodup_append.mp hnd).2.2
    have hmem1 : chK.abs_path ∈ pre.map Chapter.abs_path := by
      rw [← he]
      exact List.mem_map_of_mem _ hc
    exact hdisj hmem1 (by simp)
  have hnotpost : ∀ c ∈ post, c.abs_path ≠ chK.abs_path := by
    intro c hc he
    rw [List.map_append, List.map_cons] at hnd
    have h2 := (List.nodup_append.mp hnd).2.1
    rw [List.nodup_cons] at h2
    exact h2.1 (by rw [← he]; exact List.mem_map_of_mem _ hc)
  intro i pair hmem hpath
  rw [enumFrom_append] at hmem
  rcases List.mem_append.mp hmem with h | h
  · exact absurd hpath (hnotpre pair.2 (snd_mem_of_mem_enumFrom pre i pair h))
  · rcases List.mem_cons.mp h with h | h
    · rw [h]
    · exact absurd hpath
        (hnotpost pair.2 (snd_mem_of_mem_enumFrom post (i + pre.length + 1) pair
          (by simpa using h)))

theorem enum_eq_enumFrom (l : List Chapter) : l.enum = l.enumFrom 0 := rfl

/-- C5: failure isolation and progress omission.  On a fresh run (empty
progress record), if `_translate_chapter` raises for the chapter `chK`
(at spine position `pre.length`) and succeeds for every other chapter,
then the run completes (no abort): every chapter — including those after
the failure — is dispatched; the failed chapter's path is not appended to
the progress record, so a later run retries it; the packaged output still
contains `chK` with its original content verbatim; and every other
chapter is packed with its translated content. -/
theorem C5_failure_isolation
    (pre post : List Chapter) (chK : Chapter) (cacheRead : Str → Option Str)
    (tc : Nat → Chapter → Option Str)
    (assets : List (Str × Str)) (patchOpf : Str → Str) (cssAbs cssBytes : Str)
    (hnd : (((pre ++ chK :: post).map Chapter.abs_path)).Nodup)
    (hfail : tc pre.length chK = none)
    (hok : ∀ pair ∈ (pre ++ chK :: post).enum,
      pair.2.abs_path ≠ chK.abs_path → (tc pair.1 pair.2).isSome = true) :
    ∃ st, runModel (pre ++ chK :: post) ([], []) cacheRead tc = some st
    ∧ st.dispatched = (pre ++ chK :: post).map Chapter.abs_path
    ∧ chK.abs_path ∉ st.newPaths
    ∧ (chK.abs_path, chK.content)
        ∈ pack (pre ++ chK :: post) assets patchOpf cssAbs cssBytes st.contents
    ∧ ∀ pair ∈ (pre ++ chK :: post).enum, pair.2.abs_path ≠ chK.abs_path →
        (pair.2.abs_path, (tc pair.1 pair.2).getD [])
          ∈ pack (pre ++ chK :: post) assets patchOpf cssAbs cssBytes st.contents := by
  rw [show (pre ++ chK :: post).enum = (pre ++ chK :: post).enumFrom 0 from rfl] at hok ⊢
  refine ⟨(((pre ++ chK :: post)).enumFrom 0).foldl (runStep tc []) ⟨[], [], [], 0⟩,
    rfl, ?_, ?_, ?_, ?_⟩
  · rw [runFold_dispatched]
    show (List.filter _ (pre ++ chK :: post)).map Chapter.abs_path = _
    congr 1
    apply List.filter_eq_self.mpr
    intro ch _
    rfl
  · intro hmem
    rw [runFold_newPaths] at hmem
    rw [List.nil_append] at hmem
    obtain ⟨pair, hpre, hpath⟩ := List.mem_map.mp hmem
    have hfil := List.mem_filter.mp hpre
    have huniq := nodup_path_unique pre chK post hnd 0 pair hfil.1 hpath
    have hsat := hfil.2
    rw [huniq] at hsat
    rw [show ((0 + pre.length, chK) : Nat × Chapter).1 = pre.length from by simp] at hsat
    rw [show ((0 + pre.length, chK) : Nat × Chapter).2 = chK from rfl] at hsat
    rw [hfail] at hsat
    simp at hsat
  · have hlk : List.lookup chK.abs_path
        ((((pre ++ chK :: post)).enumFrom 0).foldl (runStep tc []) ⟨[], [], [], 0⟩).contents
        = none := by
      rw [runFold_lookup_notwritten]
      · rfl
      · intro pair hmem hpath
        right
        have huniq := nodup_path_unique pre chK post hnd 0 pair hmem hpath
        rw [huniq]
        show tc (0 + pre.length) chK = none
        rw [show 0 + pre.length = pre.length from by omega]
        exact hfail
    have hm := pack_mem_chapter (pre ++ chK :: post) assets patchOpf cssAbs cssBytes
      ((((pre ++ chK :: post)).enumFrom 0).foldl (runStep tc []) ⟨[], [], [], 0⟩).contents
      chK (by simp)
    rw [hlk] at hm
    exact hm
  · intro pair hmem hpath
    obtain ⟨pre', post', hsplit, hidx⟩ := mem_enumFrom_split _ 0 pair hmem
    have hsome := hok pair hmem hpath
    obtain ⟨b, hb⟩ := Option.isSome_iff_exists.mp hsome
    have hlk : List.lookup pair.2.abs_path
        ((((pre ++ chK :: post)).enumFrom 0).foldl (runStep tc []) ⟨[], [], [], 0⟩).contents
        = some b := by
      rw [show pre ++ chK :: post = pre' ++ pair.2 :: post' from hsplit]
      apply runFold_lookup_hit
      · rfl
      · intro pair' hmem' hpath'
        right
        have hmem'' : pair' ∈ (pre' ++ pair.2 :: post').enumFrom 0 := by
          rw [enumFrom_append]
          apply List.mem_append_right
          apply List.mem_cons_of_mem
          simpa using hmem'
        have huniq := nodup_path_unique pre' pair.2 post'
          (by rw [← hsplit]; exact hnd) 0 pair' hmem'' hpath'
        exfalso
        obtain ⟨prex, postx, hsx, hix⟩ := mem_enumFrom_split _ _ pair' hmem'
        have hgt : pair'.1 = 0 + pre'.length + 1 + prex.length := hix
        rw [huniq] at hgt
        simp only at hgt
        omega
      · rw [show 0 + pre'.length = pair.1 from by omega]
        exact hb
    have hm := pack_mem_chapter (pre ++ chK :: post) assets patchOpf cssAbs cssBytes
      ((((pre ++ chK :: post)).enumFrom 0).foldl (runStep tc []) ⟨[], [], [], 0⟩).contents
      pair.2 (by rw [hsplit]; simp)
    rw [hlk] at hm
    rw [hb]
    exact hm

/-- C5 witness: two chapters, the first fails, the second succeeds; the
run returns, chapter `a` is packed verbatim and not recorded as
completed, chapter `b` is packed translated. -/
theorem C5_failure_isolation_witness :
    ∃ st, runModel ([] ++ (⟨"a".data, "A".data⟩ : Chapter) :: [⟨"b".data, "B".data⟩])
        ([], []) (fun _ => none)
        (fun i _ => if i = 0 then none else some "T".data) = some st
    ∧ st.dispatched = ([] ++ (⟨"a".data, "A".data⟩ : Chapter) :: [⟨"b".data, "B".data⟩]).map Chapter.abs_path
    ∧ "a".data ∉ st.newPaths
    ∧ ("a".data, "A".data) ∈ pack ([] ++ (⟨"a".data, "A".data⟩ : Chapter) :: [⟨"b".data, "B".data⟩])
        [] id "c".data "css".data st.contents
    ∧ ∀ pair ∈ ([] ++ (⟨"a".data, "A".data⟩ : Chapter) :: [⟨"b".data, "B".data⟩]).enum,
        pair.2.abs_path ≠ "a".data →
        (pair.2.abs_path, ((if pair.1 = 0 then none else some "T".data) : Option Str).getD [])
          ∈ pack ([] ++ (⟨"a".data, "A".data⟩ : Chapter) :: [⟨"b".data, "B".data⟩])
              [] id "c".data "css".data st.contents := by
  exact C5_failure_isolation [] [⟨"b".data, "B".data⟩] ⟨"a".data, "A".data⟩
    (fun _ => none) (fun i _ => if i = 0 then none else some "T".data)
    [] id "c".data "css".data
    (by decide) rfl
    (by intro pair hmem hpath
        rcases List.mem_cons.mp hmem with h | h
        · rw [h] at hpath
          exact absurd rfl hpath
        · rcases List.mem_cons.mp h with h | h
          · rw [h]
            rfl
          · cases h)

/-- C6: resume idempotence.  If the progress file lists a set of chapter
paths as completed (all of them strings, as `_save_progress` writes
them), the re-run dispatches no translation call for any chapter whose
path is in that set, and each such chapter whose cached translated
content is present on disk is packed with exactly that cached content. -/
theorem C6_resume_idempotence
    (chapters : List Chapter) (entries paths : List JValue)
    (cacheRead : Str → Option Str) (tc : Nat → Chapter → Option Str)
    (assets : List (Str × Str)) (patchOpf : Str → Str) (cssAbs cssBytes : Str)
    (hstr : ∀ e ∈ paths, ∃ s, e = JValue.str s) :
    ∃ st, runModel chapters (entries, paths) cacheRead tc = some st
    ∧ (∀ ch ∈ chapters, pathInSet ch.abs_path paths = true →
        ch.abs_path ∉ st.dispatched)
    ∧ (∀ ch ∈ chapters, pathInSet ch.abs_path paths = true →
        ∀ b, cacheRead ch.abs_path = some b →
          (ch.abs_path, b) ∈ pack chapters assets patchOpf cssAbs cssBytes st.contents) := by
  obtain ⟨m, hm⟩ := cacheFold_strings cacheRead paths [] hstr
  refine ⟨(chapters.enumFrom 0).foldl (runStep tc paths) ⟨m, [], [], 0⟩, ?_, ?_, ?_⟩
  · show (match cacheFold cacheRead paths [] with
      | none => none
      | some contents0 =>
        some (chapters.enum.foldl (runStep tc paths) ⟨contents0, [], [], 0⟩)) = _
    rw [hm]
    rfl
  · intro ch hch hskip hmem
    rw [runFold_dispatched] at hmem
    rw [List.nil_append] at hmem
    obtain ⟨c, hcf, hcp⟩ := List.mem_map.mp hmem
    have hfil := List.mem_filter.mp hcf
    have : pathInSet c.abs_path paths = false := by
      have := hfil.2
      simpa using this
    rw [hcp, hskip] at this
    exact Bool.noConfusion this
  · intro ch hch hskip b hb
    have hlk : List.lookup ch.abs_path
        ((chapters.enumFrom 0).foldl (runStep tc paths) ⟨m, [], [], 0⟩).contents
        = some b := by
      rw [runFold_lookup_skipped tc paths chapters 0 _ ch.abs_path hskip]
      exact cacheFold_lookup cacheRead paths [] m hm ch.abs_path b hb
        (Or.inl ((pathInSet_iff ch.abs_path paths).mp hskip))
    have hmp := pack_mem_chapter chapters assets patchOpf cssAbs cssBytes
      ((chapters.enumFrom 0).foldl (runStep tc paths) ⟨m, [], [], 0⟩).contents
      ch hch
    rw [hlk] at hmp
    exact hmp

/-- C6 witness: one completed chapter `a` with cached bytes `CACHED`; the
re-run dispatches nothing for it and packs the cached bytes. -/
theorem C6_resume_idempotence_witness :
    ∃ st, runModel [(⟨"a".data, "A".data⟩ : Chapter)]
        ([JValue.obj [("path".data, JValue.str "a".data)]], [JValue.str "a".data])
        (fun p => if p = "a".data then some "CACHED".data else none)
        (fun _ _ => some "T".data) = some st
    ∧ (∀ ch ∈ [(⟨"a".data, "A".data⟩ : Chapter)],
        pathInSet ch.abs_path [JValue.str "a".data] = true →
        ch.abs_path ∉ st.dispatched)
    ∧ (∀ ch ∈ [(⟨"a".data, "A".data⟩ : Chapter)],
        pathInSet ch.abs_path [JValue.str "a".data] = true →
        ∀ b, (if ch.abs_path = "a".data then some "CACHED".data else none) = some b →
          (ch.abs_path, b) ∈ pack [(⟨"a".data, "A".data⟩ : Chapter)] [] id
            "c".data "css".data st.contents) :=
  C6_resume_idempotence [(⟨"a".data, "A".data⟩ : Chapter)]
    [JValue.obj [("path".data, JValue.str "a".data)]] [JValue.str "a".data]
    (fun p => if p = "a".data then some "CACHED".data else none)
    (fun _ _ => some "T".data) [] id "c".data "css".data
    (by intro e he
        rw [List.mem_singleton] at he
        exact ⟨"a".data, he⟩)

theorem entryPaths_none {es : List JValue} {e : JValue}
    (hmem : e ∈ es) (he : entryPath e = none) : entryPaths es = none := by
  induction es with
  | nil => cases hmem
  | cons e' rest ih =>
    rcases List.mem_cons.mp hmem with h | h
    · subst h
      show (match entryPath e with
            | some p =>
              match entryPaths rest with
              | some ps => some (p :: ps)
              | none => none
            | none => none) = none
      rw [he]
    · show (match entryPath e' with
            | some p =>
              match entryPaths rest with
              | some ps => some (p :: ps)
              | none => none
            | none => none) = none
      rw [ih h]
      cases entryPath e' <;> rfl

theorem cacheFold_append_single (cacheRead : Str → Option Str) (p : Str) :
    ∀ paths acc,
      cacheFold cacheRead (paths ++ [JValue.str p]) acc
        = match cacheFold cacheRead paths acc with
          | some m =>
            some (match cacheRead p with
                  | some b => dupd p b m
                  | none => m)
          | none => none := by
  intro paths
  induction paths with
  | nil => intro acc; rfl
  | cons e rest ih =>
    intro acc
    cases e with
    | str s => exact ih _
    | null => rfl
    | bool b => rfl
    | num n => rfl
    | arr xs => rfl
    | obj f => rfl

theorem runFold_agree (tc : Nat → Chapter → Option Str)
    (completed₁ completed₂ : List JValue) (p : Str)
    (hc : ∀ q, q ≠ p → pathInSet q completed₁ = pathInSet q completed₂) :
    ∀ chs : List Chapter, ∀ i st₁ st₂,
      (∀ ch ∈ chs, ch.abs_path ≠ p) →
      st₁.dispatched = st₂.dispatched → st₁.newPaths = st₂.newPaths →
      (∀ q, q ≠ p → List.lookup q st₁.contents = List.lookup q st₂.contents) →
      ((chs.enumFrom i).foldl (runStep tc completed₁) st₁).dispatched
          = ((chs.enumFrom i).foldl (runStep tc completed₂) st₂).dispatched
        ∧ ((chs.enumFrom i).foldl (runStep tc completed₁) st₁).newPaths
          = ((chs.enumFrom i).foldl (runStep tc completed₂) st₂).newPaths
        ∧ ∀ q, q ≠ p →
            List.lookup q ((chs.enumFrom i).foldl (runStep tc completed₁) st₁).contents
              = List.lookup q ((chs.enumFrom i).foldl (runStep tc completed₂) st₂).contents := by
  intro chs
  induction chs with
  | nil =>
    intro i st₁ st₂ _ h1 h2 h3
    exact ⟨h1, h2, h3⟩
  | cons ch rest ih =>
    intro i st₁ st₂ hp h1 h2 h3
    show (((rest.enumFrom (i+1)).foldl (runStep tc completed₁)
        (runStep tc completed₁ st₁ (i, ch)))).dispatched = _ ∧ _ ∧ _
    have hstep : (runStep tc completed₁ st₁ (i, ch)).dispatched
          = (runStep tc completed₂ st₂ (i, ch)).dispatched
        ∧ (runStep tc completed₁ st₁ (i, ch)).newPaths
          = (runStep tc completed₂ st₂ (i, ch)).newPaths
        ∧ ∀ q, q ≠ p →
            List.lookup q (runStep tc completed₁ st₁ (i, ch)).contents
              = List.lookup q (runStep tc completed₂ st₂ (i, ch)).contents := by
      unfold runStep
      have hpc : pathInSet ch.abs_path completed₁ = pathInSet ch.abs_path completed₂ :=
        hc ch.abs_path (hp ch (by simp))
      by_cases hskip : pathInSet ch.abs_path completed₁
      · rw [if_pos (by exact hskip), if_pos (by rw [← hpc]; exact hskip)]
        exact ⟨h1, h2, h3⟩
      · rw [if_neg (by exact hskip), if_neg (by rw [← hpc]; exact hskip)]
        cases tc i ch with
        | some b =>
          refine ⟨by rw [h1], by rw [h2], ?_⟩
          intro q hq
          show List.lookup q (dupd ch.abs_path b st₁.contents)
            = List.lookup q (dupd ch.abs_path b st₂.contents)
          rw [lookup_dupd, lookup_dupd]
          by_cases hqc : q = ch.abs_path
          · rw [if_pos hqc, if_pos hqc]
          · rw [if_neg hqc, if_neg hqc]
            exact h3 q hq
        | none =>
          exact ⟨by rw [h1], h2, h3⟩
    exact ih (i+1) _ _ (fun c hcm => hp c (by simp [hcm]))
      hstep.1 hstep.2.1 hstep.2.2

theorem pack_congr (chapters : List Chapter) (assets : List (Str × Str))
    (patchOpf : Str → Str) (cssAbs cssBytes : Str)
    (c₁ c₂ : List (Str × Str))
    (h : ∀ ch ∈ chapters, List.lookup ch.abs_path c₁ = List.lookup ch.abs_path c₂) :
    pack chapters assets patchOpf cssAbs cssBytes c₁
      = pack chapters assets patchOpf cssAbs cssBytes c₂ := by
  unfold pack
  have hmaps : chapters.map
        (fun ch => (ch.abs_path, (List.lookup ch.abs_path c₁).getD ch.content))
      = chapters.map
        (fun ch => (ch.abs_path, (List.lookup ch.abs_path c₂).getD ch.content)) := by
    apply List.map_congr_left
    intro ch hch
    rw [h ch hch]
  rw [hmaps]

/-- C8 (amended): progress-file robustness.  An absent file and an
unparsable file load as the empty completed set; so does a parsed file
whose shape makes the guarded extraction raise — a non-dict top level, or
any entry that is not a dict with a hashable `"path"` value.  (An entry
whose `"path"` is a hashable non-string — the counterexample — passes the
loader and crashes the run later.)  A well-formed completed entry whose
string path matches no chapter of the document is ignored by both the
skip check and the packer: adding it changes neither the set of
dispatched chapters, nor the newly recorded paths, nor any byte of the
packed output. -/
theorem C8_progress_robustness :
    load_progress none = ([], [])
    ∧ load_progress (some none) = ([], [])
    ∧ (∀ j : JValue, (∀ fields, j ≠ .obj fields) →
        load_progress (some (some j)) = ([], []))
    ∧ (∀ fields es e,
        (List.lookup "completed".data fields).getD (JValue.arr []) = .arr es →
        e ∈ es → entryPath e = none →
        load_progress (some (some (.obj fields))) = ([], []))
    ∧ (∀ (chapters : List Chapter) (entries paths : List JValue)
        (cacheRead : Str → Option Str) (tc : Nat → Chapter → Option Str) (p : Str),
        (∀ ch ∈ chapters, ch.abs_path ≠ p) →
        (∀ e ∈ paths, ∃ s, e = JValue.str s) →
        ∃ st₁ st₂,
          runModel chapters (entries, paths) cacheRead tc = some st₁
          ∧ runModel chapters (entries, paths ++ [JValue.str p]) cacheRead tc = some st₂
          ∧ st₁.dispatched = st₂.dispatched
          ∧ st₁.newPaths = st₂.newPaths
          ∧ ∀ (assets : List (Str × Str)) (patchOpf : Str → Str) (cssAbs cssBytes : Str),
              pack chapters assets patchOpf cssAbs cssBytes st₁.contents
                = pack chapters assets patchOpf cssAbs cssBytes st₂.contents) := by
  refine ⟨rfl, rfl, ?_, ?_, ?_⟩
  · intro j hj
    cases j with
    | obj fields => exact absurd rfl (hj fields)
    | null => rfl
    | bool b => rfl
    | num n => rfl
    | str s => rfl
    | arr xs => rfl
  · intro fields es e hlk hmem hep
    show (extract_progress (JValue.obj fields)).getD ([], []) = ([], [])
    unfold extract_progress
    simp only [hlk, entryPaths_none hmem hep]
    rfl
  · intro chapters entries paths cacheRead tc p hnp hstr
    obtain ⟨m, hm⟩ := cacheFold_strings cacheRead paths [] hstr
    have hm2 : cacheFold cacheRead (paths ++ [JValue.str p]) []
        = some (match cacheRead p with
                | some b => dupd p b m
                | none => m) := by
      rw [cacheFold_append_single, hm]
    have hcs : ∀ q, q ≠ p →
        pathInSet q paths = pathInSet q (paths ++ [JValue.str p]) := by
      intro q hq
      rw [pathInSet_append]
      have : pathInSet q [JValue.str p] = false := by
        unfold pathInSet
        simp only [List.any_cons, List.any_nil, Bool.or_false]
        cases hj : jstrEq q (JValue.str p) with
        | false => rfl
        | true =>
          exfalso
          have := (jstrEq_iff q (JValue.str p)).mp hj
          exact hq (JValue.str.inj this).symm
      rw [this]
      simp
    have hlk0 : ∀ q, q ≠ p →
        List.lookup q m
          = List.lookup q (match cacheRead p with
              | some b => dupd p b m
              | none => m) := by
      intro q hq
      cases cacheRead p with
      | some b =>
        show _ = List.lookup q (dupd p b m)
        rw [lookup_dupd, if_neg hq]
      | none => rfl
    have hagree := runFold_agree tc paths (paths ++ [JValue.str p]) p hcs
      chapters 0 ⟨m, [], [], 0⟩
      ⟨(match cacheRead p with
        | some b => dupd p b m
        | none => m), [], [], 0⟩
      hnp rfl rfl hlk0
    refine ⟨(chapters.enumFrom 0).foldl (runStep tc paths) ⟨m, [], [], 0⟩,
      (chapters.enumFrom 0).foldl (runStep tc (paths ++ [JValue.str p]))
        ⟨(match cacheRead p with
          | some b => dupd p b m
          | none => m), [], [], 0⟩, ?_, ?_, hagree.1, hagree.2.1, ?_⟩
    · show (match cacheFold cacheRead paths [] with
        | none => none
        | some contents0 =>
          some (chapters.enum.foldl (runStep tc paths) ⟨contents0, [], [], 0⟩)) = _
      rw [hm]
      rfl
    · show (match cacheFold cacheRead (paths ++ [JValue.str p]) [] with
        | none => none
        | some contents0 =>
          some (chapters.enum.foldl (runStep tc (paths ++ [JValue.str p]))
            ⟨contents0, [], [], 0⟩)) = _
      rw [hm2]
      rfl
    · intro assets patchOpf cssAbs cssBytes
      apply pack_congr
      intro ch hch
      exact hagree.2.2 ch.abs_path (hnp ch hch)

/-- C8 witness: all five conjuncts at concrete inputs — the loader
yields empty for absent, unparsable, non-dict, and raising-entry files,
and a completed entry for the unknown path `ghost` changes nothing about
a one-chapter run's dispatch or output. -/
theorem C8_progress_robustness_witness :
    load_progress none = ([], [])
    ∧ load_progress (some (some (JValue.num 7))) = ([], [])
    ∧ load_progress (some (some (JValue.obj
        [("completed".data, JValue.arr [JValue.num 5])]))) = ([], [])
    ∧ (∃ st₁ st₂,
        runModel [(⟨"a".data, "A".data⟩ : Chapter)] ([], []) (fun _ => none)
          (fun _ _ => some "T".data) = some st₁
        ∧ runModel [(⟨"a".data, "A".data⟩ : Chapter)]
            ([], [] ++ [JValue.str "ghost".data]) (fun _ => none)
            (fun _ _ => some "T".data) = some st₂
        ∧ st₁.dispatched = st₂.dispatched
        ∧ st₁.newPaths = st₂.newPaths
        ∧ ∀ (assets : List (Str × Str)) (patchOpf : Str → Str) (cssAbs cssBytes : Str),
            pack [(⟨"a".data, "A".data⟩ : Chapter)] assets patchOpf cssAbs cssBytes st₁.contents
              = pack [(⟨"a".data, "A".data⟩ : Chapter)] assets patchOpf cssAbs cssBytes st₂.contents) := by
  refine ⟨(C8_progress_robustness).1, ?_, ?_, ?_⟩
  · exact (C8_progress_robustness).2.2.1 (JValue.num 7) (fun fields h => JValue.noConfusion h)
  · exact (C8_progress_robustness).2.2.2.1
      [("completed".data, JValue.arr [JValue.num 5])] [JValue.num 5] (JValue.num 5)
      rfl (by simp) rfl
  · exact (C8_progress_robustness).2.2.2.2
      [(⟨"a".data, "A".data⟩ : Chapter)] [] [] (fun _ => none)
      (fun _ _ => some "T".data) "ghost".data
      (by intro ch hch
          rw [List.mem_singleton] at hch
          subst hch
          decide)
      (by intro e he; cases he)

/-! Chunk-level machinery for the codec claims: `flats` arithmetic, marker
strings, and cleanliness of chunk bodies. -/

theorem flats_nil : flats [] = [] := rfl

theorem flats_cons (ch : Chunk) (L : List Chunk) :
    flats (ch :: L) = ch.flat ++ flats L := by
  unfold flats
  simp

theorem flats_append (L₁ L₂ : List Chunk) :
    flats (L₁ ++ L₂) = flats L₁ ++ flats L₂ := by
  unfold flats
  simp

theorem mstr_ne_nil (m : MKind) (i : Nat) : mstr m i ≠ [] := by
  cases m <;> simp [mstr, gOpen, gClose, otMark]

theorem flat_of_isMk {ch : Chunk} {m : MKind} {i : Nat}
    (h : ch.isMk m i = true) : ch.flat = mstr m i := by
  cases ch <;> cases m <;> simp_all [Chunk.isMk, Chunk.flat, mstr]

theorem isMk_isMarker {ch : Chunk} {m : MKind} {i : Nat}
    (h : ch.isMk m i = true) : ch.isMarker = true := by
  cases ch <;> cases m <;> simp_all [Chunk.isMk, Chunk.isMarker]

theorem marker_isMk {ch : Chunk} (h : ch.isMarker = true) :
    ∃ m i, ch.isMk m i = true := by
  cases ch with
  | gO k => exact ⟨.mo, k, by simp [Chunk.isMk]⟩
  | gC k => exact ⟨.mc, k, by simp [Chunk.isMk]⟩
  | ot k => exact ⟨.mt, k, by simp [Chunk.isMk]⟩
  | txt s => simp [Chunk.isMarker] at h
  | oTag nm attrs => simp [Chunk.isMarker] at h
  | cTag nm => simp [Chunk.isMarker] at h

theorem cleanB_mem {s : Str} {c : Char} (h : cleanB s = true) (hc : c ∈ s) :
    c ≠ '<' ∧ c ≠ '[' := by
  have := List.all_eq_true.mp h c hc
  constructor <;> intro he <;> subst he <;> simp at this

theorem cleanB_drop {s : Str} (n : Nat) (h : cleanB s = true) :
    cleanB (s.drop n) = true := by
  apply List.all_eq_true.mpr
  intro c hc
  exact List.all_eq_true.mp h c (List.mem_of_mem_drop hc)

theorem digit_clean {c : Char} (h : c.isDigit = true) : c ≠ '<' ∧ c ≠ '[' := by
  constructor <;> intro he <;> subst he <;> exact absurd h (by decide)

theorem natDigs_clean (n : Nat) : cleanB (natDigs n) = true := by
  apply List.all_eq_true.mpr
  intro c hc
  have hd := digit_clean (natDigs_isDigit n c hc)
  simp only [bne_iff_ne, ne_eq, Bool.and_eq_true, decide_eq_true_eq]
  exact hd

theorem escAttr_clean {v : Str} (h : cleanB v = true) :
    cleanB (escAttr v) = true := by
  induction v with
  | nil => rfl
  | cons c t ih =>
    have hc : (c != '<' && c != '[') = true ∧ cleanB t = true := by
      simpa [cleanB] using h
    rw [show escAttr (c :: t)
        = (if c = '&' then "&amp;".data else if c = '"' then "&quot;".data
           else [c]) ++ escAttr t from rfl]
    rw [show cleanB ((if c = '&' then "&amp;".data else if c = '"' then "&quot;".data
           else [c]) ++ escAttr t)
        = (cleanB (if c = '&' then "&amp;".data else if c = '"' then "&quot;".data
           else [c]) && cleanB (escAttr t)) from List.all_append]
    rw [ih hc.2, Bool.and_true]
    split_ifs with h1 h2
    · decide
    · decide
    · simpa [cleanB] using hc.1

theorem attrPart_clean {kv : Str × Str} (h1 : cleanB kv.1 = true)
    (h2 : cleanB kv.2 = true) : cleanB (attrPart kv) = true := by
  unfold attrPart cleanB
  simp only [List.all_cons, List.all_append, List.all_cons, List.all_nil]
  have e2 := escAttr_clean h2
  unfold cleanB at h1 e2
  rw [h1, e2]
  decide

theorem attrsFlat_clean {attrs : List (Str × Str)} (h : cleanAttrs attrs = true) :
    cleanB (attrs.flatMap attrPart) = true := by
  induction attrs with
  | nil => rfl
  | cons kv t ih =>
    have hc : (cleanB kv.1 && cleanB kv.2) = true ∧ cleanAttrs t = true := by
      simpa [cleanAttrs] using h
    have hkv := Bool.and_eq_true_iff.mp hc.1
    rw [show (kv :: t).flatMap attrPart = attrPart kv ++ t.flatMap attrPart from rfl]
    rw [show cleanB (attrPart kv ++ t.flatMap attrPart)
        = (cleanB (attrPart kv) && cleanB (t.flatMap attrPart)) from List.all_append]
    rw [attrPart_clean hkv.1 hkv.2, ih hc.2]
    rfl

theorem goodName_parts {nm : Str} (h : goodName nm = true) :
    nm ≠ [] ∧ nm.head? ≠ some 'g' ∧ nm.head? ≠ some '/' ∧ cleanB nm = true := by
  unfold goodName at h
  simp only [Bool.and_eq_true, Bool.not_eq_true', bne_iff_ne, ne_eq] at h
  refine ⟨?_, h.1.1.2, h.1.2, h.2⟩
  intro he
  subst he
  simp [List.isEmpty] at h

theorem build_open_tag_shape (nm : Str) (attrs : List (Str × Str)) :
    ∃ Y, build_open_tag nm attrs = '<' :: (nm ++ Y) ∧
      (cleanAttrs attrs = true → cleanB nm = true → cleanB (nm ++ Y) = true) := by
  unfold build_open_tag
  split_ifs with h
  · refine ⟨['>'], rfl, ?_⟩
    intro _ hnm
    rw [show cleanB (nm ++ ['>']) = (cleanB nm && cleanB ['>']) from List.all_append]
    rw [hnm]
    decide
  · refine ⟨attrs.flatMap attrPart ++ ['>'], rfl, ?_⟩
    intro ha hnm
    rw [show cleanB (nm ++ (attrs.flatMap attrPart ++ ['>']))
        = (cleanB nm && cleanB (attrs.flatMap attrPart ++ ['>'])) from List.all_append]
    rw [show cleanB (attrs.flatMap attrPart ++ ['>'])
        = (cleanB (attrs.flatMap attrPart) && cleanB ['>']) from List.all_append]
    rw [hnm, attrsFlat_clean ha]
    decide

theorem flat_drop1_clean {ch : Chunk} (h : ch.wf = true) :
    cleanB (ch.flat.drop 1) = true := by
  cases ch with
  | txt s => exact cleanB_drop 1 h
  | gO k =>
    show cleanB ('g' :: (natDigs k ++ ['>'])) = true
    rw [show cleanB ('g' :: (natDigs k ++ ['>']))
        = (('g' != '<' && 'g' != '[') && cleanB (natDigs k ++ ['>'])) from List.all_cons]
    rw [show cleanB (natDigs k ++ ['>'])
        = (cleanB (natDigs k) && cleanB ['>']) from List.all_append]
    rw [natDigs_clean]
    decide
  | gC k =>
    show cleanB ('/' :: 'g' :: (natDigs k ++ ['>'])) = true
    unfold cleanB
    rw [List.all_cons, List.all_cons, List.all_append]
    have hn := natDigs_clean k
    unfold cleanB at hn
    rw [hn]
    decide
  | ot k =>
    show cleanB ('O' :: 'T' :: ':' :: (natDigs k ++ [']'])) = true
    unfold cleanB
    rw [List.all_cons, List.all_cons, List.all_cons, List.all_append]
    have hn := natDigs_clean k
    unfold cleanB at hn
    rw [hn]
    decide
  | oTag nm attrs =>
    have hw : goodName nm = true ∧ cleanAttrs attrs = true := by
      simpa [Chunk.wf] using h
    obtain ⟨Y, hsh, hcl⟩ := build_open_tag_shape nm attrs
    show cleanB ((build_open_tag nm attrs).drop 1) = true
    rw [hsh]
    exact hcl hw.2 (goodName_parts hw.1).2.2.2
  | cTag nm =>
    have hw : goodName nm = true := by simpa [Chunk.wf] using h
    show cleanB ('/' :: (nm ++ ['>'])) = true
    rw [show cleanB ('/' :: (nm ++ ['>']))
        = (('/' != '<' && '/' != '[') && cleanB (nm ++ ['>'])) from List.all_cons]
    rw [show cleanB (nm ++ ['>']) = (cleanB nm && cleanB ['>']) from List.all_append]
    rw [(goodName_parts hw).2.2.2]
    decide

/-! Occurrence analysis: in a concatenation of well-formed chunks, a
marker string occurs exactly at the whole marker chunks of that shape and
id — text is clean, rebuilt tags cannot alias a marker (their names do
not start with `g` or `/`), and two markers only match when their ids
agree (`digits_closer_prefix`). -/

theorem marker_prefix_clean_head {m : MKind} {i : Nat} {d : Char} {t : Str}
    (hd : d ≠ '<' ∧ d ≠ '[') : ¬ (mstr m i <+: d :: t) := by
  intro hp
  cases m with
  | mo =>
    have h1 : ('<' : Char) :: ('g' :: (natDigs i ++ ['>'])) <+: d :: t := hp
    exact hd.1 (List.cons_prefix_cons.mp h1).1.symm
  | mc =>
    have h1 : ('<' : Char) :: ('/' :: 'g' :: (natDigs i ++ ['>'])) <+: d :: t := hp
    exact hd.1 (List.cons_prefix_cons.mp h1).1.symm
  | mt =>
    have h1 : ('[' : Char) :: ('O' :: 'T' :: ':' :: (natDigs i ++ [']'])) <+: d :: t := hp
    exact hd.2 (List.cons_prefix_cons.mp h1).1.symm

theorem marker_prefix_chunk {ch : Chunk} (hwf : ch.wf = true) {m : MKind}
    {i : Nat} {t : Str} (hne : ch.flat ≠ [])
    (h : mstr m i <+: ch.flat ++ t) : ch.isMk m i = true := by
  cases ch with
  | txt s =>
    exfalso
    cases s with
    | nil => exact hne rfl
    | cons c s' =>
      have hc := cleanB_mem hwf (List.mem_cons_self c s')
      exact marker_prefix_clean_head hc (by simpa using h)
  | gO k =>
    have hsh : Chunk.flat (.gO k) ++ t
        = '<' :: 'g' :: ((natDigs k ++ ['>']) ++ t) := by
      simp [Chunk.flat, gOpen]
    rw [hsh] at h
    cases m with
    | mo =>
      have h1 : ('<' : Char) :: 'g' :: (natDigs i ++ ['>'])
          <+: '<' :: 'g' :: ((natDigs k ++ ['>']) ++ t) := h
      have h2 := (List.cons_prefix_cons.mp h1).2
      have h3 := (List.cons_prefix_cons.mp h2).2
      have hek := digits_closer_prefix (natDigs_isDigit i) (natDigs_isDigit k)
        (by decide) h3
      have hik := natDigs_inj hek
      simp [Chunk.isMk, hik]
    | mc =>
      exfalso
      have h1 : ('<' : Char) :: '/' :: 'g' :: (natDigs i ++ ['>'])
          <+: '<' :: 'g' :: ((natDigs k ++ ['>']) ++ t) := h
      have h2 := (List.cons_prefix_cons.mp h1).2
      exact absurd (List.cons_prefix_cons.mp h2).1 (by decide)
    | mt =>
      exfalso
      have h1 : ('[' : Char) :: 'O' :: 'T' :: ':' :: (natDigs i ++ [']'])
          <+: '<' :: 'g' :: ((natDigs k ++ ['>']) ++ t) := h
      exact absurd (List.cons_prefix_cons.mp h1).1 (by decide)
  | gC k =>
    have hsh : Chunk.flat (.gC k) ++ t
        = '<' :: '/' :: 'g' :: ((natDigs k ++ ['>']) ++ t) := by
      simp [Chunk.flat, gClose]
    rw [hsh] at h
    cases m with
    | mc =>
      have h1 : ('<' : Char) :: '/' :: 'g' :: (natDigs i ++ ['>'])
          <+: '<' :: '/' :: 'g' :: ((natDigs k ++ ['>']) ++ t) := h
      have h2 := (List.cons_prefix_cons.mp h1).2
      have h3 := (List.cons_prefix_cons.mp h2).2
      have h4 := (List.cons_prefix_cons.mp h3).2
      have hek := digits_closer_prefix (natDigs_isDigit i) (natDigs_isDigit k)
        (by decide) h4
      have hik := natDigs_inj hek
      simp [Chunk.isMk, hik]
    | mo =>
      exfalso
      have h1 : ('<' : Char) :: 'g' :: (natDigs i ++ ['>'])
          <+: '<' :: '/' :: 'g' :: ((natDigs k ++ ['>']) ++ t) := h
      have h2 := (List.cons_prefix_cons.mp h1).2
      exact absurd (List.cons_prefix_cons.mp h2).1 (by decide)
    | mt =>
      exfalso
      have h1 : ('[' : Char) :: 'O' :: 'T' :: ':' :: (natDigs i ++ [']'])
          <+: '<' :: '/' :: 'g' :: ((natDigs k ++ ['>']) ++ t) := h
      exact absurd (List.cons_prefix_cons.mp h1).1 (by decide)
  | ot k =>
    have hsh : Chunk.flat (.ot k) ++ t
        = '[' :: 'O' :: 'T' :: ':' :: ((natDigs k ++ [']']) ++ t) := by
      simp [Chunk.flat, otMark]
    rw [hsh] at h
    cases m with
    | mt =>
      have h1 : ('[' : Char) :: 'O' :: 'T' :: ':' :: (natDigs i ++ [']'])
          <+: '[' :: 'O' :: 'T' :: ':' :: ((natDigs k ++ [']']) ++ t) := h
      have h2 := (List.cons_prefix_cons.mp h1).2
      have h3 := (List.cons_prefix_cons.mp h2).2
      have h4 := (List.cons_prefix_cons.mp h3).2
      have h5 := (List.cons_prefix_cons.mp h4).2
      have hek := digits_closer_prefix (natDigs_isDigit i) (natDigs_isDigit k)
        (by decide) h5
      have hik := natDigs_inj hek
      simp [Chunk.isMk, hik]
    | mo =>
      exfalso
      have h1 : ('<' : Char) :: 'g' :: (natDigs i ++ ['>'])
          <+: '[' :: 'O' :: 'T' :: ':' :: ((natDigs k ++ [']']) ++ t) := h
      exact absurd (List.cons_prefix_cons.mp h1).1 (by decide)
    | mc =>
      exfalso
      have h1 : ('<' : Char) :: '/' :: 'g' :: (natDigs i ++ ['>'])
          <+: '[' :: 'O' :: 'T' :: ':' :: ((natDigs k ++ [']']) ++ t) := h
      exact absurd (List.cons_prefix_cons.mp h1).1 (by decide)
  | oTag nm attrs =>
    exfalso
    have hw : goodName nm = true ∧ cleanAttrs attrs = true := by
      simpa [Chunk.wf] using hwf
    obtain ⟨hnm, hg, hs, -⟩ := goodName_parts hw.1
    obtain ⟨Y, hsh, -⟩ := build_open_tag_shape nm attrs
    obtain ⟨n0, nm', hn⟩ := List.exists_cons_of_ne_nil hnm
    have hft : Chunk.flat (.oTag nm attrs) ++ t
        = '<' :: n0 :: ((nm' ++ Y) ++ t) := by
      show build_open_tag nm attrs ++ t = _
      rw [hsh, hn]
      simp
    rw [hft] at h
    have hg0 : n0 ≠ 'g' := by
      intro he
      rw [hn, he] at hg
      simp at hg
    have hs0 : n0 ≠ '/' := by
      intro he
      rw [hn, he] at hs
      simp at hs
    cases m with
    | mo =>
      have h1 : ('<' : Char) :: 'g' :: (natDigs i ++ ['>'])
          <+: '<' :: n0 :: ((nm' ++ Y) ++ t) := h
      have h2 := (List.cons_prefix_cons.mp h1).2
      exact hg0 (List.cons_prefix_cons.mp h2).1.symm
    | mc =>
      have h1 : ('<' : Char) :: '/' :: 'g' :: (natDigs i ++ ['>'])
          <+: '<' :: n0 :: ((nm' ++ Y) ++ t) := h
      have h2 := (List.cons_prefix_cons.mp h1).2
      exact hs0 (List.cons_prefix_cons.mp h2).1.symm
    | mt =>
      have h1 : ('[' : Char) :: 'O' :: 'T' :: ':' :: (natDigs i ++ [']'])
          <+: '<' :: n0 :: ((nm' ++ Y) ++ t) := h
      exact absurd (List.cons_prefix_cons.mp h1).1 (by decide)
  | cTag nm =>
    exfalso
    have hw : goodName nm = true := by simpa [Chunk.wf] using hwf
    obtain ⟨hnm, hg, -, -⟩ := goodName_parts hw
    obtain ⟨n0, nm', hn⟩ := List.exists_cons_of_ne_nil hnm
    have hft : Chunk.flat (.cTag nm) ++ t
        = '<' :: '/' :: n0 :: ((nm' ++ ['>']) ++ t) := by
      show closeTag nm ++ t = _
      rw [hn]
      simp [closeTag]
    rw [hft] at h
    have hg0 : n0 ≠ 'g' := by
      intro he
      rw [hn, he] at hg
      simp at hg
    cases m with
    | mo =>
      have h1 : ('<' : Char) :: 'g' :: (natDigs i ++ ['>'])
          <+: '<' :: '/' :: n0 :: ((nm' ++ ['>']) ++ t) := h
      have h2 := (List.cons_prefix_cons.mp h1).2
      exact absurd (List.cons_prefix_cons.mp h2).1 (by decide)
    | mc =>
      have h1 : ('<' : Char) :: '/' :: 'g' :: (natDigs i ++ ['>'])
          <+: '<' :: '/' :: n0 :: ((nm' ++ ['>']) ++ t) := h
      have h2 := (List.cons_prefix_cons.mp h1).2
      have h3 := (List.cons_prefix_cons.mp h2).2
      exact hg0 (List.cons_prefix_cons.mp h3).1.symm
    | mt =>
      have h1 : ('[' : Char) :: 'O' :: 'T' :: ':' :: (natDigs i ++ [']'])
          <+: '<' :: '/' :: n0 :: ((nm' ++ ['>']) ++ t) := h
      exact absurd (List.cons_prefix_cons.mp h1).1 (by decide)

theorem occursAt_flats {L : List Chunk} (hwf : ∀ ch ∈ L, ch.wf = true)
    {m : MKind} {i j : Nat} (h : occursAt (flats L) (mstr m i) j) :
    ∃ A ch B, L = A ++ ch :: B ∧ ch.isMk m i = true ∧ j = (flats A).length := by
  induction L generalizing j with
  | nil =>
    exfalso
    have hp : mstr m i <+: ([] : Str) := by
      simpa [flats, occursAt] using h
    exact mstr_ne_nil m i (List.prefix_nil.mp hp)
  | cons ch B ih =>
    rw [show flats (ch :: B) = ch.flat ++ flats B from flats_cons ch B] at h
    by_cases hj : j < ch.flat.length
    · rcases Nat.eq_zero_or_pos j with h0 | hpos
      · subst h0
        have hp : mstr m i <+: ch.flat ++ flats B := by
          simpa [occursAt] using h
        have hne : ch.flat ≠ [] := by
          intro he
          rw [he] at hj
          simp at hj
        have hm := marker_prefix_chunk (hwf ch (by simp)) hne hp
        exact ⟨[], ch, B, rfl, hm, by simp [flats]⟩
      · exfalso
        have hd : (ch.flat ++ flats B).drop j = ch.flat.drop j ++ flats B :=
          List.drop_append_of_le_length (by omega)
        have hdj : ch.flat.drop j ≠ [] := by
          intro he
          have := congrArg List.length he
          rw [List.length_drop] at this
          simp at this
          omega
        obtain ⟨d, r, hdr⟩ := List.exists_cons_of_ne_nil hdj
        have hdc : d ∈ ch.flat.drop 1 := by
          have hsplit : ch.flat.drop j = (ch.flat.drop 1).drop (j - 1) := by
            rw [List.drop_drop]
            congr 1
            omega
          have hmem : d ∈ (ch.flat.drop 1).drop (j - 1) := by
            rw [← hsplit, hdr]
            simp
          exact List.mem_of_mem_drop hmem
        have hclean := cleanB_mem (flat_drop1_clean (hwf ch (by simp))) hdc
        have hp : mstr m i <+: d :: (r ++ flats B) := by
          unfold occursAt at h
          rw [hd, hdr] at h
          simpa using h
        exact marker_prefix_clean_head hclean hp
    · push_neg at hj
      have hd : (ch.flat ++ flats B).drop j
          = (flats B).drop (j - ch.flat.length) := by
        have hda := drop_append_left ch.flat (flats B) (j - ch.flat.length)
        rw [show ch.flat.length + (j - ch.flat.length) = j from by omega] at hda
        exact hda
      have h' : occursAt (flats B) (mstr m i) (j - ch.flat.length) := by
        unfold occursAt at h ⊢
        rw [hd] at h
        exact h
      obtain ⟨A, ch', B', hL, hMk, hj'⟩ := ih (fun c hc => hwf c (by simp [hc])) h'
      refine ⟨ch :: A, ch', B', by rw [hL]; simp, hMk, ?_⟩
      rw [show flats (ch :: A) = ch.flat ++ flats A from flats_cons ch A,
        List.length_append]
      omega

theorem occursAt_flats_intro (A : List Chunk) (ch : Chunk) (B : List Chunk)
    {m : MKind} {i : Nat} (h : ch.isMk m i = true) :
    occursAt (flats (A ++ ch :: B)) (mstr m i) (flats A).length := by
  rw [show A ++ ch :: B = A ++ [ch] ++ B from by simp]
  rw [flats_append, flats_append]
  rw [show flats [ch] = mstr m i from by
    rw [flats_cons, flats_nil, List.append_nil]
    exact flat_of_isMk h]
  exact occursAt_append_self _ _ _

theorem firstIdx_flats_none {L : List Chunk} (hwf : ∀ ch ∈ L, ch.wf = true)
    {m : MKind} {i : Nat} (h : ∀ ch ∈ L, ch.isMk m i = false) :
    firstIdx (flats L) (mstr m i) = none := by
  rw [firstIdx_eq_none_iff]
  intro j hocc
  obtain ⟨A, ch, B, hL, hMk, -⟩ := occursAt_flats hwf hocc
  have hfalse := h ch (by rw [hL]; simp)
  rw [hfalse] at hMk
  exact Bool.noConfusion hMk

theorem firstIdx_flats_first {A : List Chunk} {ch : Chunk} {B : List Chunk}
    (hwf : ∀ c ∈ A ++ ch :: B, c.wf = true)
    {m : MKind} {i : Nat} (hMk : ch.isMk m i = true)
    (hA : ∀ c ∈ A, c.isMk m i = false) :
    firstIdx (flats (A ++ ch :: B)) (mstr m i) = some (flats A).length := by
  apply firstIdx_of_minimal (occursAt_flats_intro A ch B hMk)
  intro j hj hocc
  obtain ⟨A', ch', B', hL, hMk', hj'⟩ := occursAt_flats hwf hocc
  rcases List.append_eq_append_iff.mp hL.symm with ⟨a', ha1, ha2⟩ | ⟨c', hc1, hc2⟩
  · cases a' with
    | nil =>
      rw [List.append_nil] at ha1
      rw [ha1] at hj
      omega
    | cons x a'' =>
      rw [List.cons_append] at ha2
      injection ha2 with hx hrest
      have hch'A : ch' ∈ A := by
        rw [ha1, ← hx]
        simp
      have hfalse := hA ch' hch'A
      rw [hfalse] at hMk'
      exact Bool.noConfusion hMk'
  · have hfl : flats A' = flats A ++ flats c' := by
      rw [hc1, flats_append]
    rw [hfl, List.length_append] at hj'
    omega

/-! `restoreStep` on chunk-decomposed strings. -/

theorem firstSplit {α : Type} (p : α → Bool) {L : List α} {x : α}
    (hx : x ∈ L) (hp : p x = true) :
    ∃ A y B, L = A ++ y :: B ∧ p y = true ∧ ∀ a ∈ A, p a = false := by
  induction L with
  | nil => cases hx
  | cons h t ih =>
    by_cases hh : p h = true
    · exact ⟨[], h, t, rfl, hh, by intro a ha; cases ha⟩
    · rcases List.mem_cons.mp hx with he | ht
      · subst he
        exact absurd hp hh
      · obtain ⟨A, y, B, hL, hy, hA⟩ := ih ht
        refine ⟨h :: A, y, B, by rw [hL]; rfl, hy, ?_⟩
        intro a ha
        rcases List.mem_cons.mp ha with he | hmem
        · subst he
          exact Bool.not_eq_true _ ▸ (by simpa using hh)
        · exact hA a hmem

theorem eraseMk_cons (m : MKind) (i : Nat) (c : Chunk) (t : List Chunk) :
    eraseMk m i (c :: t) = if c.isMk m i = true then t else c :: eraseMk m i t :=
  rfl

theorem eraseMk_of_not_mem {m : MKind} {i : Nat} {L : List Chunk}
    (h : ∀ ch ∈ L, ch.isMk m i = false) : eraseMk m i L = L := by
  induction L with
  | nil => rfl
  | cons c t ih =>
    rw [eraseMk_cons, if_neg (by rw [h c (by simp)]; simp)]
    rw [ih (fun ch hc => h ch (by simp [hc]))]

theorem eraseMk_append_right {m : MKind} {i : Nat} {L₁ L₂ : List Chunk}
    (h : ∀ ch ∈ L₁, ch.isMk m i = false) :
    eraseMk m i (L₁ ++ L₂) = L₁ ++ eraseMk m i L₂ := by
  induction L₁ with
  | nil => rfl
  | cons c t ih =>
    rw [List.cons_append, eraseMk_cons, if_neg (by rw [h c (by simp)]; simp)]
    rw [ih (fun ch hc => h ch (by simp [hc]))]
    rfl

theorem eraseMk_first {m : MKind} {i : Nat} {A : List Chunk} {ch : Chunk}
    {B : List Chunk} (hA : ∀ c ∈ A, c.isMk m i = false)
    (h : ch.isMk m i = true) : eraseMk m i (A ++ ch :: B) = A ++ B := by
  rw [eraseMk_append_right hA, eraseMk_cons, if_pos h]

theorem eraseMk_mem {m : MKind} {i : Nat} {L : List Chunk} {c : Chunk}
    (h : c ∈ eraseMk m i L) : c ∈ L := by
  induction L with
  | nil => cases h
  | cons x t ih =>
    rw [eraseMk_cons] at h
    split_ifs at h with hx
    · exact List.mem_cons_of_mem x h
    · rcases List.mem_cons.mp h with he | hm
      · exact he ▸ List.mem_cons_self x t
      · exact List.mem_cons_of_mem x (ih hm)

theorem isMk_mo_eq {ch : Chunk} {i : Nat} (h : ch.isMk .mo i = true) :
    ch = .gO i := by
  cases ch <;> simp_all [Chunk.isMk]

theorem isMk_mc_eq {ch : Chunk} {i : Nat} (h : ch.isMk .mc i = true) :
    ch = .gC i := by
  cases ch <;> simp_all [Chunk.isMk]

theorem isMk_mt_eq {ch : Chunk} {i : Nat} (h : ch.isMk .mt i = true) :
    ch = .ot i := by
  cases ch <;> simp_all [Chunk.isMk]

theorem replaceFirst_flats_erase {L : List Chunk}
    (hwf : ∀ ch ∈ L, ch.wf = true) (m : MKind) (i : Nat) :
    replaceFirst (flats L) (mstr m i) [] = flats (eraseMk m i L) := by
  by_cases hex : ∃ ch ∈ L, ch.isMk m i = true
  · obtain ⟨x, hx, hp⟩ := hex
    obtain ⟨A, y, B, hL, hy, hA⟩ := firstSplit (fun c => c.isMk m i) hx hp
    subst hL
    have hfi := firstIdx_flats_first hwf hy hA
    have hmin := ((firstIdx_eq_some_iff _ _ _).mp hfi).2
    have hflat : flats (A ++ y :: B) = flats A ++ mstr m i ++ flats B := by
      rw [show A ++ y :: B = A ++ [y] ++ B from by simp, flats_append, flats_append]
      rw [show flats [y] = mstr m i from by
        rw [flats_cons, flats_nil, List.append_nil]
        exact flat_of_isMk hy]
    rw [hflat]
    rw [hflat] at hmin
    rw [replaceFirst_decomp (flats A) (mstr m i) (flats B) [] hmin]
    rw [eraseMk_first hA hy, flats_append]
    simp
  · push_neg at hex
    have hall : ∀ ch ∈ L, ch.isMk m i = false := by
      intro ch hc
      exact Bool.not_eq_true _ ▸ (by simpa using hex ch hc)
    rw [replaceFirst_of_none [] (firstIdx_flats_none hwf hall)]
    rw [eraseMk_of_not_mem hall]

theorem restoreStep_opq {A : List Chunk} {ch : Chunk} {B : List Chunk} {i : Nat}
    (hwf : ∀ c ∈ A ++ ch :: B, c.wf = true) {tag : SavedTag}
    (ht : tag.opq = true) (hMk : ch.isMk .mt i = true)
    (hA : ∀ c ∈ A, c.isMk .mt i = false) :
    restoreStep (flats (A ++ ch :: B)) i tag
      = flats A ++ tag.original_html ++ flats B := by
  unfold restoreStep
  rw [if_pos ht]
  have hfi := firstIdx_flats_first hwf hMk hA
  have hmin := ((firstIdx_eq_some_iff _ _ _).mp hfi).2
  have hflat : flats (A ++ ch :: B) = flats A ++ mstr .mt i ++ flats B := by
    rw [show A ++ ch :: B = A ++ [ch] ++ B from by simp, flats_append, flats_append]
    rw [show flats [ch] = mstr .mt i from by
      rw [flats_cons, flats_nil, List.append_nil]
      exact flat_of_isMk hMk]
  rw [hflat]
  rw [hflat] at hmin
  exact replaceFirst_decomp (flats A) (mstr .mt i) (flats B) tag.original_html hmin

theorem restoreStep_opq_none {L : List Chunk} {i : Nat}
    (hwf : ∀ c ∈ L, c.wf = true) {tag : SavedTag} (ht : tag.opq = true)
    (h : ∀ c ∈ L, c.isMk .mt i = false) :
    restoreStep (flats L) i tag = flats L := by
  unfold restoreStep
  rw [if_pos ht]
  exact replaceFirst_of_none tag.original_html (firstIdx_flats_none hwf h)

theorem restoreStep_trans_noclose {L : List Chunk} {i : Nat}
    (hwf : ∀ c ∈ L, c.wf = true) {tag : SavedTag} (ht : tag.opq = false)
    (hnc : ∀ c ∈ L, c.isMk .mc i = false) :
    restoreStep (flats L) i tag = flats (eraseMk .mo i L) := by
  have hcn : firstIdx (flats L) (gClose i) = none := firstIdx_flats_none hwf hnc
  have hwf' : ∀ c ∈ eraseMk .mo i L, c.wf = true :=
    fun c hc => hwf c (eraseMk_mem hc)
  have hnc' : ∀ c ∈ eraseMk .mo i L, c.isMk .mc i = false :=
    fun c hc => hnc c (eraseMk_mem hc)
  unfold restoreStep
  rw [if_neg (by rw [ht]; simp)]
  rcases ho : firstIdx (flats L) (gOpen i) with _ | st <;>
    simp only [ho, hcn] <;>
    rw [show gOpen i = mstr .mo i from rfl, replaceFirst_flats_erase hwf .mo i] <;>
    exact replaceFirst_of_none [] (firstIdx_flats_none hwf' hnc')

theorem restoreStep_trans_noopen {L : List Chunk} {i : Nat}
    (hwf : ∀ c ∈ L, c.wf = true) {tag : SavedTag} (ht : tag.opq = false)
    (hno : ∀ c ∈ L, c.isMk .mo i = false) :
    restoreStep (flats L) i tag = flats (eraseMk .mc i L) := by
  have ho : firstIdx (flats L) (gOpen i) = none := firstIdx_flats_none hwf hno
  unfold restoreStep
  rw [if_neg (by rw [ht]; simp)]
  simp only [ho]
  rw [show gOpen i = mstr .mo i from rfl, replaceFirst_flats_erase hwf .mo i,
    eraseMk_of_not_mem hno]
  rw [show gClose i = mstr .mc i from rfl, replaceFirst_flats_erase hwf .mc i]

theorem restoreStep_trans_paired {A M B : List Chunk} {i : Nat}
    (hwf : ∀ c ∈ A ++ Chunk.gO i :: (M ++ Chunk.gC i :: B), c.wf = true)
    {tag : SavedTag} (ht : tag.opq = false)
    (hA : ∀ c ∈ A, c.isMk .mo i = false)
    (hAc : ∀ c ∈ A, c.isMk .mc i = false)
    (hM : ∀ c ∈ M, c.isMk .mc i = false) :
    restoreStep (flats (A ++ Chunk.gO i :: (M ++ Chunk.gC i :: B))) i tag
      = flats (A ++ Chunk.oTag tag.tag_name tag.attrs
          :: (M ++ Chunk.cTag tag.tag_name :: B)) := by
  have hL : A ++ Chunk.gO i :: (M ++ Chunk.gC i :: B)
      = (A ++ Chunk.gO i :: M) ++ Chunk.gC i :: B := by
    simp
  have hwf2 : ∀ c ∈ (A ++ Chunk.gO i :: M) ++ Chunk.gC i :: B, c.wf = true := by
    rw [← hL]
    exact hwf
  have hno : ∀ c ∈ A ++ Chunk.gO i :: M, c.isMk .mc i = false := by
    intro c hc
    rcases List.mem_append.mp hc with h1 | h2
    · exact hAc c h1
    · rcases List.mem_cons.mp h2 with he | hm
      · subst he
        rfl
      · exact hM c hm
  have ho : firstIdx (flats (A ++ Chunk.gO i :: (M ++ Chunk.gC i :: B))) (gOpen i)
      = some (flats A).length :=
    firstIdx_flats_first hwf (by simp [Chunk.isMk]) hA
  have hcidx : firstIdx (flats (A ++ Chunk.gO i :: (M ++ Chunk.gC i :: B))) (gClose i)
      = some (flats ((A ++ Chunk.gO i :: M))).length := by
    rw [hL]
    exact firstIdx_flats_first hwf2 (by simp [Chunk.isMk]) hno
  have hgo : flats [Chunk.gO i] = gOpen i := by
    rw [flats_cons, flats_nil, List.append_nil]
    rfl
  have hlen : (flats (A ++ Chunk.gO i :: M)).length
      = (flats A).length + (gOpen i).length + (flats M).length := by
    rw [show A ++ Chunk.gO i :: M = A ++ [Chunk.gO i] ++ M from by simp,
      flats_append, flats_append, hgo, List.length_append, List.length_append]
  have hflat : flats (A ++ Chunk.gO i :: (M ++ Chunk.gC i :: B))
      = flats A ++ (gOpen i ++ (flats M ++ (gClose i ++ flats B))) := by
    rw [flats_append, flats_cons, flats_append, flats_cons]
    rfl
  have hgpos : 0 < (gOpen i).length := by
    simp [gOpen]
  unfold restoreStep
  rw [if_neg (by rw [ht]; simp)]
  simp only [ho, hcidx]
  rw [if_pos (by rw [hlen]; omega)]
  have ht1 : (flats (A ++ Chunk.gO i :: (M ++ Chunk.gC i :: B))).take (flats A).length
      = flats A := by
    rw [hflat]
    exact take_append_left _ _
  have hd1 : (flats (A ++ Chunk.gO i :: (M ++ Chunk.gC i :: B))).drop
        ((flats A).length + (gOpen i).length)
      = flats M ++ (gClose i ++ flats B) := by
    rw [hflat, drop_append_left]
    have h0 := drop_append_left (gOpen i) (flats M ++ (gClose i ++ flats B)) 0
    rw [Nat.add_zero] at h0
    rw [h0, List.drop_zero]
  have ht2 : (flats M ++ (gClose i ++ flats B)).take
        ((flats (A ++ Chunk.gO i :: M)).length - ((flats A).length + (gOpen i).length))
      = flats M := by
    rw [hlen, show (flats A).length + (gOpen i).length + (flats M).length
        - ((flats A).length + (gOpen i).length) = (flats M).length from by omega]
    exact take_append_left _ _
  have hd2 : (flats (A ++ Chunk.gO i :: (M ++ Chunk.gC i :: B))).drop
        ((flats (A ++ Chunk.gO i :: M)).length + (gClose i).length)
      = flats B := by
    rw [hflat, hlen]
    rw [show (flats A).length + (gOpen i).length + (flats M).length + (gClose i).length
        = (flats A).length + ((gOpen i).length + ((flats M).length
          + ((gClose i).length + 0))) from by omega]
    rw [drop_append_left, drop_append_left, drop_append_left, drop_append_left]
    exact List.drop_zero _
  rw [ht1, hd1, ht2, hd2]
  rw [flats_append, flats_cons, flats_append, flats_cons]
  show flats A ++ build_open_tag tag.tag_name tag.attrs ++ flats M
      ++ closeTag tag.tag_name ++ flats B
    = flats A ++ (build_open_tag tag.tag_name tag.attrs
        ++ (flats M ++ (closeTag tag.tag_name ++ flats B)))
  simp [List.append_assoc]

theorem restoreStep_wf {L : List Chunk} (hwf : ∀ c ∈ L, c.wf = true)
    (i : Nat) {tag : SavedTag} (htw : SavedTagWf tag) :
    ∃ L', (∀ c ∈ L', c.wf = true) ∧ restoreStep (flats L) i tag = flats L' := by
  unfold SavedTagWf at htw
  by_cases ho : tag.opq = true
  · rw [if_pos ho] at htw
    obtain ⟨O, hO, hhtml⟩ := htw
    by_cases hex : ∃ c ∈ L, c.isMk .mt i = true
    · obtain ⟨x, hx, hp⟩ := hex
      obtain ⟨A, y, B, hLd, hy, hA⟩ := firstSplit (fun c => c.isMk .mt i) hx hp
      subst hLd
      refine ⟨A ++ O ++ B, ?_, ?_⟩
      · intro c hc
        rcases List.mem_append.mp hc with h1 | h2
        · rcases List.mem_append.mp h1 with ha | hb
          · exact hwf c (by simp [ha])
          · exact (hO c hb).1
        · exact hwf c (by simp [h2])
      · rw [restoreStep_opq hwf ho hy hA, hhtml, flats_append, flats_append]
    · push_neg at hex
      refine ⟨L, hwf, restoreStep_opq_none hwf ho ?_⟩
      intro c hc
      exact Bool.eq_false_iff.mpr (hex c hc)
  · have hof : tag.opq = false := Bool.eq_false_iff.mpr ho
    rw [if_neg ho] at htw
    obtain ⟨hgn, hca⟩ := htw
    by_cases hexc : ∃ c ∈ L, c.isMk .mc i = true
    · by_cases hexo : ∃ c ∈ L, c.isMk .mo i = true
      · obtain ⟨xo, hxo, hpo⟩ := hexo
        obtain ⟨A, y, R, hLo, hyo, hAo⟩ := firstSplit (fun c => c.isMk .mo i) hxo hpo
        have hyO : y = Chunk.gO i := isMk_mo_eq hyo
        subst hyO
        obtain ⟨xc, hxc, hpc⟩ := hexc
        obtain ⟨A₂, z, B₂, hLc, hzc, hAc⟩ := firstSplit (fun c => c.isMk .mc i) hxc hpc
        have hzC : z = Chunk.gC i := isMk_mc_eq hzc
        subst hzC
        have heq : A ++ Chunk.gO i :: R = A₂ ++ Chunk.gC i :: B₂ := by
          rw [← hLo, ← hLc]
        rcases List.append_eq_append_iff.mp heq with ⟨a', ha1, ha2⟩ | ⟨c', hc1, hc2⟩
        · cases a' with
          | nil =>
            rw [List.nil_append] at ha2
            injection ha2 with h1 h2
            exact Chunk.noConfusion h1
          | cons w a'' =>
            rw [List.cons_append] at ha2
            injection ha2 with hw hR
            subst hR
            have hAc1 : ∀ c ∈ A, c.isMk .mc i = false := by
              intro c hc
              exact hAc c (by rw [ha1, ← hw]; simp [hc])
            have hM : ∀ c ∈ a'', c.isMk .mc i = false := by
              intro c hc
              exact hAc c (by rw [ha1, ← hw]; simp [hc])
            rw [hLo]
            have hwf' : ∀ c ∈ A ++ Chunk.gO i :: (a'' ++ Chunk.gC i :: B₂), c.wf = true := by
              rw [← hLo]
              exact hwf
            refine ⟨A ++ Chunk.oTag tag.tag_name tag.attrs
                :: (a'' ++ Chunk.cTag tag.tag_name :: B₂), ?_, ?_⟩
            · intro c hc
              rcases List.mem_append.mp hc with h1 | h2
              · exact hwf' c (by simp [h1])
              · rcases List.mem_cons.mp h2 with he | hm
                · subst he
                  show (goodName tag.tag_name && cleanAttrs tag.attrs) = true
                  rw [hgn, hca]
                  rfl
                · rcases List.mem_append.mp hm with h3 | h4
                  · exact hwf' c (by simp [h3])
                  · rcases List.mem_cons.mp h4 with he | h5
                    · subst he
                      show goodName tag.tag_name = true
                      exact hgn
                    · exact hwf' c (by simp [h5])
            · exact restoreStep_trans_paired hwf' hof hAo hAc1 hM
        · cases c' with
          | nil =>
            rw [List.nil_append] at hc2
            injection hc2 with h1 h2
            exact Chunk.noConfusion h1
          | cons w c'' =>
            rw [List.cons_append] at hc2
            injection hc2 with hw hB
            have hidxo : firstIdx (flats L) (gOpen i) = some (flats A).length := by
              rw [hLo]
              have hwf' : ∀ c ∈ A ++ Chunk.gO i :: R, c.wf = true := by
                rw [← hLo]
                exact hwf
              exact firstIdx_flats_first hwf' (by simp [Chunk.isMk]) hAo
            have hidxc : firstIdx (flats L) (gClose i) = some (flats A₂).length := by
              rw [hLc]
              have hwf' : ∀ c ∈ A₂ ++ Chunk.gC i :: B₂, c.wf = true := by
                rw [← hLc]
                exact hwf
              exact firstIdx_flats_first hwf' (by simp [Chunk.isMk]) hAc
            have hge : (flats A₂).length ≤ (flats A).length := by
              rw [hc1, ← hw, flats_append, List.length_append]
              omega
            have hwfe : ∀ c ∈ eraseMk .mo i L, c.wf = true :=
              fun c hc => hwf c (eraseMk_mem hc)
            refine ⟨eraseMk .mc i (eraseMk .mo i L),
              fun c hc => hwfe c (eraseMk_mem hc), ?_⟩
            unfold restoreStep
            rw [if_neg (by rw [hof]; simp)]
            simp only [hidxo, hidxc]
            rw [if_neg (by omega)]
            rw [show gOpen i = mstr .mo i from rfl, replaceFirst_flats_erase hwf .mo i]
            rw [show gClose i = mstr .mc i from rfl,
              replaceFirst_flats_erase hwfe .mc i]
      · push_neg at hexo
        have hno : ∀ c ∈ L, c.isMk .mo i = false :=
          fun c hc => Bool.eq_false_iff.mpr (hexo c hc)
        exact ⟨eraseMk .mc i L, fun c hc => hwf c (eraseMk_mem hc),
          restoreStep_trans_noopen hwf hof hno⟩
    · push_neg at hexc
      have hnc : ∀ c ∈ L, c.isMk .mc i = false :=
        fun c hc => Bool.eq_false_iff.mpr (hexc c hc)
      exact ⟨eraseMk .mo i L, fun c hc => hwf c (eraseMk_mem hc),
        restoreStep_trans_noclose hwf hof hnc⟩

/-! The final `_PH_RE.sub` cleanup on chunk-decomposed strings. -/

theorem phCleanCore_irrel (f₁ : Nat) : ∀ f₂ s, s.length < f₁ → s.length < f₂ →
    phCleanCore f₁ s = phCleanCore f₂ s := by
  induction f₁ with
  | zero =>
    intro f₂ s h _
    omega
  | succ f₁ ih =>
    intro f₂ s h₁ h₂
    match f₂ with
    | 0 => omega
    | f₂ + 1 =>
      show phCleanCore (f₁ + 1) s = phCleanCore (f₂ + 1) s
      unfold phCleanCore
      cases hm : phMatchLen s with
      | some n =>
        simp only [hm]
        have hpos := phMatchLen_pos hm
        have hs : s ≠ [] := by
          intro he
          rw [he] at hm
          exact Option.noConfusion hm
        have hlen : 0 < s.length := List.length_pos.mpr hs
        exact ih f₂ (s.drop n) (by rw [List.length_drop]; omega)
          (by rw [List.length_drop]; omega)
      | none =>
        simp only [hm]
        cases s with
        | nil => rfl
        | cons c t =>
          have hl₁ : t.length < f₁ := by
            simp only [List.length_cons] at h₁
            omega
          have hl₂ : t.length < f₂ := by
            simp only [List.length_cons] at h₂
            omega
          show c :: phCleanCore f₁ t = c :: phCleanCore f₂ t
          rw [ih f₂ t hl₁ hl₂]

theorem phClean_match {s : Str} {n : Nat} (h : phMatchLen s = some n) :
    phClean s = phClean (s.drop n) := by
  unfold phClean
  conv_lhs => unfold phCleanCore
  simp only [h]
  have hpos := phMatchLen_pos h
  have hs : s ≠ [] := by
    intro he
    rw [he] at h
    exact Option.noConfusion h
  have hlen : 0 < s.length := List.length_pos.mpr hs
  exact phCleanCore_irrel _ _ _ (by rw [List.length_drop]; omega)
    (by omega)

theorem phClean_cons_nomatch {c : Char} {t : Str}
    (h : phMatchLen (c :: t) = none) : phClean (c :: t) = c :: phClean t := by
  unfold phClean
  conv_lhs => unfold phCleanCore
  simp only [h]
  congr 1

theorem phMatchLen_clean_head {c : Char} {t : Str} (hc : c ≠ '<' ∧ c ≠ '[') :
    phMatchLen (c :: t) = none := by
  unfold phMatchLen
  split
  · rename_i rest heq
    injection heq with h1 _
    exact absurd h1 hc.1
  · rename_i rest heq
    injection heq with h1 _
    exact absurd h1 hc.1
  · rename_i rest heq
    injection heq with h1 _
    exact absurd h1 hc.2
  · rfl

theorem takeWhile_digits (d : Str) (hd : ∀ c ∈ d, c.isDigit = true)
    {c : Char} (hc : c.isDigit = false) (t : Str) :
    (d ++ c :: t).takeWhile Char.isDigit = d := by
  induction d with
  | nil =>
    simp [List.takeWhile_cons, hc]
  | cons a d' ih =>
    rw [List.cons_append, List.takeWhile_cons, hd a (by simp)]
    rw [ih (fun x hx => hd x (by simp [hx]))]
    rfl

theorem phMatchLen_marker (m : MKind) (k : Nat) (t : Str) :
    phMatchLen (mstr m k ++ t) = some (mstr m k).length := by
  have hdr : digitRunLen (natDigs k ++ '>' :: t) = (natDigs k).length := by
    unfold digitRunLen
    rw [takeWhile_digits (natDigs k) (natDigs_isDigit k) (by decide) t]
  have hdrb : digitRunLen (natDigs k ++ ']' :: t) = (natDigs k).length := by
    unfold digitRunLen
    rw [takeWhile_digits (natDigs k) (natDigs_isDigit k) (by decide) t]
  have hdrop : (natDigs k ++ '>' :: t).drop (natDigs k).length = '>' :: t := by
    have h0 := drop_append_left (natDigs k) ('>' :: t) 0
    rw [Nat.add_zero] at h0
    rw [h0, List.drop_zero]
  have hdropb : (natDigs k ++ ']' :: t).drop (natDigs k).length = ']' :: t := by
    have h0 := drop_append_left (natDigs k) (']' :: t) 0
    rw [Nat.add_zero] at h0
    rw [h0, List.drop_zero]
  have hnd : 0 < (natDigs k).length := List.length_pos.mpr (natDigs_ne_nil k)
  cases m with
  | mo =>
    show phMatchLen ('<' :: 'g' :: ((natDigs k ++ ['>']) ++ t)) = some (gOpen k).length
    rw [show (natDigs k ++ ['>']) ++ t = natDigs k ++ '>' :: t from by simp]
    show (if 0 < digitRunLen (natDigs k ++ '>' :: t)
        ∧ ((natDigs k ++ '>' :: t).drop (digitRunLen (natDigs k ++ '>' :: t))).head?
          = some '>'
      then some (2 + digitRunLen (natDigs k ++ '>' :: t) + 1) else none)
      = some (gOpen k).length
    rw [hdr]
    rw [if_pos ⟨hnd, by rw [hdrop]; rfl⟩]
    show _ = some ('<' :: 'g' :: (natDigs k ++ ['>'])).length
    simp only [List.length_cons, List.length_append, List.length_cons,
      List.length_nil]
    exact congrArg some (by omega)
  | mc =>
    show phMatchLen ('<' :: '/' :: 'g' :: ((natDigs k ++ ['>']) ++ t))
      = some (gClose k).length
    rw [show (natDigs k ++ ['>']) ++ t = natDigs k ++ '>' :: t from by simp]
    show (if 0 < digitRunLen (natDigs k ++ '>' :: t)
        ∧ ((natDigs k ++ '>' :: t).drop (digitRunLen (natDigs k ++ '>' :: t))).head?
          = some '>'
      then some (3 + digitRunLen (natDigs k ++ '>' :: t) + 1) else none)
      = some (gClose k).length
    rw [hdr]
    rw [if_pos ⟨hnd, by rw [hdrop]; rfl⟩]
    show _ = some ('<' :: '/' :: 'g' :: (natDigs k ++ ['>'])).length
    simp only [List.length_cons, List.length_append, List.length_cons,
      List.length_nil]
    exact congrArg some (by omega)
  | mt =>
    show phMatchLen ('[' :: 'O' :: 'T' :: ':' :: ((natDigs k ++ [']']) ++ t))
      = some (otMark k).length
    rw [show (natDigs k ++ [']']) ++ t = natDigs k ++ ']' :: t from by simp]
    show (if 0 < digitRunLen (natDigs k ++ ']' :: t)
        ∧ ((natDigs k ++ ']' :: t).drop (digitRunLen (natDigs k ++ ']' :: t))).head?
          = some ']'
      then some (4 + digitRunLen (natDigs k ++ ']' :: t) + 1) else none)
      = some (otMark k).length
    rw [hdrb]
    rw [if_pos ⟨hnd, by rw [hdropb]; rfl⟩]
    show _ = some ('[' :: 'O' :: 'T' :: ':' :: (natDigs k ++ [']'])).length
    simp only [List.length_cons, List.length_append, List.length_cons,
      List.length_nil]
    exact congrArg some (by omega)

theorem chunk_nomatch {ch : Chunk} (hwf : ch.wf = true) (hnm : ch.isMarker = false)
    (t : Str) {j : Nat} (hj : j < ch.flat.length) :
    phMatchLen ((ch.flat ++ t).drop j) = none := by
  rcases Nat.eq_zero_or_pos j with h0 | hpos
  · subst h0
    rw [List.drop_zero]
    cases ch with
    | txt s =>
      cases s with
      | nil => simp [Chunk.flat] at hj
      | cons c s' =>
        show phMatchLen (c :: (s' ++ t)) = none
        exact phMatchLen_clean_head (cleanB_mem hwf (by simp))
    | gO k => simp [Chunk.isMarker] at hnm
    | gC k => simp [Chunk.isMarker] at hnm
    | ot k => simp [Chunk.isMarker] at hnm
    | oTag nm attrs =>
      have hw : goodName nm = true ∧ cleanAttrs attrs = true := by
        simpa [Chunk.wf] using hwf
      obtain ⟨hne, hg, hsl, -⟩ := goodName_parts hw.1
      obtain ⟨Y, hsh, -⟩ := build_open_tag_shape nm attrs
      obtain ⟨n0, nm', hn⟩ := List.exists_cons_of_ne_nil hne
      have hft : Chunk.flat (.oTag nm attrs) ++ t = '<' :: n0 :: ((nm' ++ Y) ++ t) := by
        show build_open_tag nm attrs ++ t = _
        rw [hsh, hn]
        simp
      rw [hft]
      have hg0 : n0 ≠ 'g' := by
        intro he
        rw [hn, he] at hg
        simp at hg
      have hs0 : n0 ≠ '/' := by
        intro he
        rw [hn, he] at hsl
        simp at hsl
      unfold phMatchLen
      split
      · rename_i rest heq
        injection heq with _ h2
        injection h2 with h3 _
        exact absurd h3 hs0
      · rename_i rest heq
        injection heq with _ h2
        injection h2 with h3 _
        exact absurd h3 hg0
      · rename_i rest heq
        injection heq with h1 _
        exact absurd h1 (by decide)
      · rfl
    | cTag nm =>
      have hw : goodName nm = true := by simpa [Chunk.wf] using hwf
      obtain ⟨hne, hg, -, -⟩ := goodName_parts hw
      obtain ⟨n0, nm', hn⟩ := List.exists_cons_of_ne_nil hne
      have hft : Chunk.flat (.cTag nm) ++ t
          = '<' :: '/' :: n0 :: ((nm' ++ ['>']) ++ t) := by
        show closeTag nm ++ t = _
        rw [hn]
        simp [closeTag]
      rw [hft]
      have hg0 : n0 ≠ 'g' := by
        intro he
        rw [hn, he] at hg
        simp at hg
      unfold phMatchLen
      split
      · rename_i rest heq
        injection heq with _ h2
        injection h2 with _ h3
        injection h3 with h4 _
        exact absurd h4 hg0
      · rename_i rest heq
        injection heq with _ h2
        injection h2 with h3 _
        exact absurd h3 (by decide)
      · rename_i rest heq
        injection heq with h1 _
        exact absurd h1 (by decide)
      · rfl
  · have hd : (ch.flat ++ t).drop j = ch.flat.drop j ++ t :=
      List.drop_append_of_le_length (by omega)
    have hdj : ch.flat.drop j ≠ [] := by
      intro he
      have hle := congrArg List.length he
      rw [List.length_drop] at hle
      simp at hle
      omega
    obtain ⟨d, r, hdr⟩ := List.exists_cons_of_ne_nil hdj
    have hdc : d ∈ ch.flat.drop 1 := by
      have hsplit : ch.flat.drop j = (ch.flat.drop 1).drop (j - 1) := by
        rw [List.drop_drop]
        congr 1
        omega
      have hmem : d ∈ (ch.flat.drop 1).drop (j - 1) := by
        rw [← hsplit, hdr]
        simp
      exact List.mem_of_mem_drop hmem
    have hclean := cleanB_mem (flat_drop1_clean hwf) hdc
    rw [hd, hdr, List.cons_append]
    exact phMatchLen_clean_head hclean

theorem phClean_prefix_safe {s t : Str}
    (hsafe : ∀ j, j < s.length → phMatchLen ((s ++ t).drop j) = none) :
    phClean (s ++ t) = s ++ phClean t := by
  induction s with
  | nil => simp
  | cons c s' ih =>
    have h0 := hsafe 0 (by simp)
    rw [List.drop_zero, List.cons_append] at h0
    have hrec : ∀ j, j < s'.length → phMatchLen ((s' ++ t).drop j) = none := by
      intro j hj
      exact hsafe (j + 1) (by simp only [List.length_cons]; omega)
    rw [List.cons_append, phClean_cons_nomatch h0, ih hrec]
    rfl

theorem phClean_flats {L : List Chunk} (hwf : ∀ c ∈ L, c.wf = true) :
    phClean (flats L) = flats (L.filter fun ch => !ch.isMarker) := by
  induction L with
  | nil => rfl
  | cons ch B ih =>
    by_cases hm : ch.isMarker = true
    · obtain ⟨m, k, hmk⟩ := marker_isMk hm
      rw [flats_cons, flat_of_isMk hmk]
      rw [phClean_match (phMatchLen_marker m k (flats B))]
      have hd := drop_append_left (mstr m k) (flats B) 0
      rw [Nat.add_zero] at hd
      rw [hd, List.drop_zero]
      rw [ih (fun c hc => hwf c (by simp [hc]))]
      rw [List.filter_cons, if_neg (by simp [hm])]
    · have hnm : ch.isMarker = false := Bool.eq_false_iff.mpr hm
      rw [flats_cons]
      rw [phClean_prefix_safe
        (fun j hj => chunk_nomatch (hwf ch (by simp)) hnm (flats B) hj)]
      rw [ih (fun c hc => hwf c (by simp [hc]))]
      rw [List.filter_cons, if_pos (by simp [hnm]), flats_cons]

theorem noPH_flats {L : List Chunk} (hwf : ∀ c ∈ L, c.wf = true)
    (hnm : ∀ c ∈ L, c.isMarker = false) : noPH (flats L) := by
  revert hwf hnm
  induction L with
  | nil =>
    intro _ _ i
    rw [flats_nil, List.drop_nil]
    rfl
  | cons ch B ih =>
    intro hwf hnm i
    rw [flats_cons]
    by_cases hj : i < ch.flat.length
    · exact chunk_nomatch (hwf ch (by simp)) (hnm ch (by simp)) (flats B) hj
    · push_neg at hj
      have hd : (ch.flat ++ flats B).drop i = (flats B).drop (i - ch.flat.length) := by
        have hda := drop_append_left ch.flat (flats B) (i - ch.flat.length)
        rw [show ch.flat.length + (i - ch.flat.length) = i from by omega] at hda
        exact hda
      rw [hd]
      exact ih (fun c hc => hwf c (by simp [hc]))
        (fun c hc => hnm c (by simp [hc])) (i - ch.flat.length)

theorem not_occursAt_of_noPH {s : Str} (h : noPH s) (m : MKind) (k i : Nat) :
    ¬ occursAt s (mstr m k) i := by
  intro hocc
  obtain ⟨u, hu⟩ := hocc
  have hm := phMatchLen_marker m k u
  rw [hu, h i] at hm
  exact Option.noConfusion hm

/-! Vocabulary facts (finite checks) and id-list arithmetic. -/

theorem opq_lower : ∀ nm ∈ OPQ_INLINE, lowerStr nm = nm := by decide

theorem trans_lower : ∀ nm ∈ TRANS_INLINE, lowerStr nm = nm := by decide

theorem trans_good : ∀ nm ∈ TRANS_INLINE, goodName nm = true := by decide

theorem opq_good : ∀ nm ∈ OPQ_INLINE, goodName nm = true := by decide

theorem opq_not_trans : ∀ nm ∈ OPQ_INLINE, nm ∉ TRANS_INLINE := by decide

theorem ascIds_append (k₁ : Nat) : ∀ c k₂,
    ascIds c k₁ ++ ascIds (c + k₁) k₂ = ascIds c (k₁ + k₂) := by
  induction k₁ with
  | zero =>
    intro c k₂
    simp [ascIds]
  | succ k₁ ih =>
    intro c k₂
    rw [show k₁ + 1 + k₂ = (k₁ + k₂) + 1 from by omega]
    show c :: (ascIds (c + 1) k₁ ++ ascIds (c + (k₁ + 1)) k₂) = c :: ascIds (c + 1) (k₁ + k₂)
    rw [show c + (k₁ + 1) = (c + 1) + k₁ from by omega, ih]

theorem ascIds_concat (c k : Nat) : ascIds c k ++ [c + k] = ascIds c (k + 1) := by
  have h := ascIds_append k c 1
  rw [show ascIds (c + k) 1 = [c + k] from rfl] at h
  exact h

theorem mem_ascIds {i : Nat} : ∀ {c k}, i ∈ ascIds c k ↔ c ≤ i ∧ i < c + k := by
  intro c k
  induction k generalizing c with
  | zero => simp [ascIds]
  | succ k ih =>
    show i ∈ c :: ascIds (c + 1) k ↔ _
    rw [List.mem_cons, ih]
    omega

theorem mem_descIds {i lo k : Nat} : i ∈ descIds lo k ↔ lo ≤ i ∧ i < lo + k := by
  unfold descIds
  rw [List.mem_reverse]
  exact mem_ascIds

theorem descIds_append (lo k₁ k₂ : Nat) :
    descIds lo (k₁ + k₂) = descIds (lo + k₁) k₂ ++ descIds lo k₁ := by
  unfold descIds
  rw [← ascIds_append k₁ lo k₂, List.reverse_append]

theorem descIds_cons_high {c K : Nat} (h : c ≤ K) :
    descIds c (K + 1 - c) = K :: descIds c (K - c) := by
  unfold descIds
  rw [show K + 1 - c = (K - c) + 1 from by omega, ← ascIds_concat]
  rw [List.reverse_append, show c + (K - c) = K from by omega]
  rfl

theorem insDesc_big {x : Nat} {l : List Nat} (h : ∀ y ∈ l, x < y) :
    insDesc x l = l ++ [x] := by
  induction l with
  | nil => rfl
  | cons y t ih =>
    show (if y ≤ x then x :: y :: t else y :: insDesc x t) = y :: (t ++ [x])
    rw [if_neg (by have := h y (by simp); omega)]
    rw [ih (fun z hz => h z (by simp [hz]))]

theorem sortDescNat_ascIds (k : Nat) : ∀ c, sortDescNat (ascIds c k) = descIds c k := by
  induction k with
  | zero =>
    intro c
    rfl
  | succ k ih =>
    intro c
    show insDesc c (sortDescNat (ascIds (c + 1) k)) = descIds c (k + 1)
    rw [ih (c + 1)]
    rw [insDesc_big (fun y hy => by have := mem_descIds.mp hy; omega)]
    unfold descIds
    show (ascIds (c + 1) k).reverse ++ [c] = (c :: ascIds (c + 1) k).reverse
    rw [List.reverse_cons]

theorem rfold_append (σ : Nat → Option SavedTag) (r : Str) (ids₁ ids₂ : List Nat) :
    rfold σ r (ids₁ ++ ids₂) = rfold σ (rfold σ r ids₁) ids₂ :=
  List.foldl_append _ _ _ _

theorem rfold_cons (σ : Nat → Option SavedTag) (r : Str) (i : Nat) (ids : List Nat) :
    rfold σ r (i :: ids)
      = rfold σ (match σ i with | some t => restoreStep r i t | none => r) ids :=
  rfl

theorem lookupTag_append {sv₁ sv₂ : List (Nat × SavedTag)} {k : Nat}
    (h : ∀ e ∈ sv₁, e.1 ≠ k) : lookupTag (sv₁ ++ sv₂) k = lookupTag sv₂ k := by
  induction sv₁ with
  | nil => rfl
  | cons e t ih =>
    show List.lookup k ((e.1, e.2) :: (t ++ sv₂)) = _
    rw [List.lookup_cons]
    rw [show (k == e.1) = false from beq_eq_false_iff_ne.mpr
      (fun he => h e (by simp) he.symm)]
    exact ih (fun x hx => h x (by simp [hx]))

theorem lookupTag_single (K : Nat) (tag : SavedTag) :
    lookupTag [(K, tag)] K = some tag := by
  show List.lookup K [(K, tag)] = some tag
  rw [List.lookup_cons, show (K == K) = true from beq_self_eq_true K]

theorem lookupTag_concat_self {sv : List (Nat × SavedTag)} {K : Nat}
    {tag : SavedTag} (h : ∀ e ∈ sv, e.1 ≠ K) :
    lookupTag (sv ++ [(K, tag)]) K = some tag := by
  rw [lookupTag_append h]
  show List.lookup K [(K, tag)] = some tag
  rw [List.lookup_cons]
  rw [show (K == K) = true from beq_self_eq_true K]

/-! Structural facts about the serializer, by mutual induction on the
(nested) node type. -/

mutual

theorem serN_mono (n : Node) : ∀ c, c ≤ (serN n c).2.2 := by
  cases n with
  | text s =>
    intro c
    exact Nat.le_refl c
  | elem nm attrs cs =>
    intro c
    unfold serN
    by_cases h1 : lowerStr nm ∈ OPQ_INLINE
    · rw [if_pos h1]
      show c ≤ c + 1
      omega
    · rw [if_neg h1]
      by_cases h2 : lowerStr nm ∈ TRANS_INLINE
      · rw [if_pos h2]
        have hm := serF_mono cs c
        by_cases h3 : stripStr (serF cs c).1 = []
        · rw [if_pos h3]
          show c ≤ (serF cs c).2.2 + 1
          omega
        · rw [if_neg h3]
          show c ≤ (serF cs c).2.2 + 1
          omega
      · rw [if_neg h2]
        exact serF_mono cs c
  termination_by structural n

theorem serF_mono (F : List Node) : ∀ c, c ≤ (serF F c).2.2 := by
  cases F with
  | nil =>
    intro c
    exact Nat.le_refl c
  | cons n rest =>
    intro c
    show c ≤ (serF rest (serN n c).2.2).2.2
    exact Nat.le_trans (serN_mono n c) (serF_mono rest (serN n c).2.2)
  termination_by structural F

end

mutual

theorem serN_chunks (n : Node) : ∀ c,
    (serN n c).1 = flats (schunksN n c).1 ∧ (serN n c).2.2 = (schunksN n c).2 := by
  cases n with
  | text s =>
    intro c
    constructor
    · show s = flats [Chunk.txt s]
      rw [flats_cons, flats_nil, List.append_nil]
      rfl
    · rfl
  | elem nm attrs cs =>
    intro c
    unfold serN schunksN
    by_cases h1 : lowerStr nm ∈ OPQ_INLINE
    · rw [if_pos h1, if_pos h1]
      constructor
      · show otMark c = flats [Chunk.ot c]
        rw [flats_cons, flats_nil, List.append_nil]
        rfl
      · rfl
    · rw [if_neg h1, if_neg h1]
      by_cases h2 : lowerStr nm ∈ TRANS_INLINE
      · rw [if_pos h2, if_pos h2]
        by_cases h3 : stripStr (serF cs c).1 = []
        · rw [if_pos h3, if_pos h3]
          constructor
          · show otMark (serF cs c).2.2 = flats [Chunk.ot (serF cs c).2.2]
            rw [flats_cons, flats_nil, List.append_nil]
            rfl
          · rfl
        · rw [if_neg h3, if_neg h3]
          have hih := serF_chunks cs c
          constructor
          · show gOpen (serF cs c).2.2 ++ (serF cs c).1 ++ gClose (serF cs c).2.2
              = flats (Chunk.gO (serF cs c).2.2
                  :: ((schunksF cs c).1 ++ [Chunk.gC (serF cs c).2.2]))
            rw [flats_cons, flats_append, flats_cons, flats_nil, List.append_nil]
            rw [← hih.1]
            show gOpen (serF cs c).2.2 ++ (serF cs c).1 ++ gClose (serF cs c).2.2
              = gOpen (serF cs c).2.2 ++ ((serF cs c).1 ++ gClose (serF cs c).2.2)
            simp [List.append_assoc]
          · rfl
      · rw [if_neg h2, if_neg h2]
        exact serF_chunks cs c
  termination_by structural n

theorem serF_chunks (F : List Node) : ∀ c,
    (serF F c).1 = flats (schunksF F c).1 ∧ (serF F c).2.2 = (schunksF F c).2 := by
  cases F with
  | nil =>
    intro c
    exact ⟨rfl, rfl⟩
  | cons n rest =>
    intro c
    have h1 := serN_chunks n c
    have h2 := serF_chunks rest (serN n c).2.2
    constructor
    · show (serN n c).1 ++ (serF rest (serN n c).2.2).1
        = flats ((schunksN n c).1 ++ (schunksF rest (schunksN n c).2).1)
      rw [flats_append, ← h1.1, ← h1.2, ← h2.1]
    · show (serF rest (serN n c).2.2).2.2 = (schunksF rest (schunksN n c).2).2
      rw [← h1.2]
      exact h2.2
  termination_by structural F

end

theorem trans_not_opq : ∀ nm ∈ TRANS_INLINE, nm ∉ OPQ_INLINE := by decide

mutual

theorem serN_keys (n : Node) : ∀ c,
    (serN n c).2.1.map Prod.fst = ascIds c ((serN n c).2.2 - c) := by
  cases n with
  | text s =>
    intro c
    show ([] : List (Nat × SavedTag)).map Prod.fst = ascIds c (c - c)
    rw [Nat.sub_self]
    rfl
  | elem nm attrs cs =>
    intro c
    unfold serN
    by_cases h1 : lowerStr nm ∈ OPQ_INLINE
    · rw [if_pos h1]
      show [(c, (⟨lowerStr nm, attrs, true, renderN (.elem nm attrs cs)⟩ : SavedTag))].map
          Prod.fst = ascIds c (c + 1 - c)
      rw [show c + 1 - c = 1 from by omega]
      rfl
    · rw [if_neg h1]
      by_cases h2 : lowerStr nm ∈ TRANS_INLINE
      · rw [if_pos h2]
        have hk := serF_keys cs c
        have hm := serF_mono cs c
        by_cases h3 : stripStr (serF cs c).1 = []
        · rw [if_pos h3]
          show ((serF cs c).2.1
              ++ [((serF cs c).2.2,
                  (⟨lowerStr nm, attrs, true, renderN (.elem nm attrs cs)⟩ : SavedTag))]).map
              Prod.fst = ascIds c ((serF cs c).2.2 + 1 - c)
          rw [List.map_append, hk]
          show ascIds c ((serF cs c).2.2 - c) ++ [(serF cs c).2.2] = _
          have ha := ascIds_concat c ((serF cs c).2.2 - c)
          rw [show c + ((serF cs c).2.2 - c) = (serF cs c).2.2 from by omega] at ha
          rw [ha]
          congr 1
          omega
        · rw [if_neg h3]
          show ((serF cs c).2.1
              ++ [((serF cs c).2.2,
                  (⟨lowerStr nm, attrs, false, []⟩ : SavedTag))]).map
              Prod.fst = ascIds c ((serF cs c).2.2 + 1 - c)
          rw [List.map_append, hk]
          show ascIds c ((serF cs c).2.2 - c) ++ [(serF cs c).2.2] = _
          have ha := ascIds_concat c ((serF cs c).2.2 - c)
          rw [show c + ((serF cs c).2.2 - c) = (serF cs c).2.2 from by omega] at ha
          rw [ha]
          congr 1
          omega
      · rw [if_neg h2]
        exact serF_keys cs c
  termination_by structural n

theorem serF_keys (F : List Node) : ∀ c,
    (serF F c).2.1.map Prod.fst = ascIds c ((serF F c).2.2 - c) := by
  cases F with
  | nil =>
    intro c
    show ([] : List (Nat × SavedTag)).map Prod.fst = ascIds c (c - c)
    rw [Nat.sub_self]
    rfl
  | cons n rest =>
    intro c
    have hk1 := serN_keys n c
    have hk2 := serF_keys rest (serN n c).2.2
    have hm1 := serN_mono n c
    have hm2 := serF_mono rest (serN n c).2.2
    show ((serN n c).2.1 ++ (serF rest (serN n c).2.2).2.1).map Prod.fst
      = ascIds c ((serF rest (serN n c).2.2).2.2 - c)
    rw [List.map_append, hk1, hk2]
    have ha := ascIds_append ((serN n c).2.2 - c) c
      ((serF rest (serN n c).2.2).2.2 - (serN n c).2.2)
    rw [show c + ((serN n c).2.2 - c) = (serN n c).2.2 from by omega] at ha
    rw [ha]
    congr 1
    omega
  termination_by structural F

end

mutual

theorem schunksN_wf (n : Node) : ∀ c, wfN n = true →
    ∀ ch ∈ (schunksN n c).1, ch.wf = true
      ∧ ∀ m i, ch.isMk m i = true → c ≤ i ∧ i < (serN n c).2.2 := by
  cases n with
  | text s =>
    intro c h ch hch
    have he : ch = Chunk.txt s := by simpa [schunksN] using hch
    subst he
    refine ⟨h, ?_⟩
    intro m i hmk
    cases m <;> simp [Chunk.isMk] at hmk
  | elem nm attrs cs =>
    intro c h ch hch
    have hparts : (nm ∈ OPQ_INLINE ∨ nm ∈ TRANS_INLINE) ∧ cleanAttrs attrs = true
        ∧ wfF cs = true := by
      simp only [wfN, Bool.and_eq_true, Bool.or_eq_true, decide_eq_true_eq] at h
      exact ⟨h.1.1, h.1.2, h.2⟩
    unfold schunksN at hch
    unfold serN
    by_cases h1 : lowerStr nm ∈ OPQ_INLINE
    · rw [if_pos h1] at hch
      rw [if_pos h1]
      have he : ch = Chunk.ot c := by simpa using hch
      subst he
      refine ⟨rfl, ?_⟩
      intro m i hmk
      cases m with
      | mo => simp [Chunk.isMk] at hmk
      | mc => simp [Chunk.isMk] at hmk
      | mt =>
        simp [Chunk.isMk] at hmk
        show c ≤ i ∧ i < c + 1
        omega
    · rw [if_neg h1] at hch
      rw [if_neg h1]
      by_cases h2 : lowerStr nm ∈ TRANS_INLINE
      · rw [if_pos h2] at hch
        rw [if_pos h2]
        have hmono := serF_mono cs c
        by_cases h3 : stripStr (serF cs c).1 = []
        · rw [if_pos h3] at hch
          rw [if_pos h3]
          have he : ch = Chunk.ot (serF cs c).2.2 := by simpa using hch
          subst he
          refine ⟨rfl, ?_⟩
          intro m i hmk
          cases m with
          | mo => simp [Chunk.isMk] at hmk
          | mc => simp [Chunk.isMk] at hmk
          | mt =>
            simp [Chunk.isMk] at hmk
            show c ≤ i ∧ i < (serF cs c).2.2 + 1
            omega
        · rw [if_neg h3] at hch
          rw [if_neg h3]
          show ch.wf = true ∧ ∀ m i, ch.isMk m i = true
            → c ≤ i ∧ i < (serF cs c).2.2 + 1
          rcases List.mem_cons.mp hch with he | hmem
          · subst he
            refine ⟨rfl, ?_⟩
            intro m i hmk
            cases m with
            | mo =>
              simp [Chunk.isMk] at hmk
              omega
            | mc => simp [Chunk.isMk] at hmk
            | mt => simp [Chunk.isMk] at hmk
          · rcases List.mem_append.mp hmem with h4 | h5
            · have hih := schunksF_wf cs c hparts.2.2 ch h4
              exact ⟨hih.1, fun m i hmk => by have := hih.2 m i hmk; omega⟩
            · have he : ch = Chunk.gC (serF cs c).2.2 := by simpa using h5
              subst he
              refine ⟨rfl, ?_⟩
              intro m i hmk
              cases m with
              | mo => simp [Chunk.isMk] at hmk
              | mc =>
                simp [Chunk.isMk] at hmk
                omega
              | mt => simp [Chunk.isMk] at hmk
      · rw [if_neg h2] at hch
        rw [if_neg h2]
        exact schunksF_wf cs c hparts.2.2 ch hch
  termination_by structural n

theorem schunksF_wf (F : List Node) : ∀ c, wfF F = true →
    ∀ ch ∈ (schunksF F c).1, ch.wf = true
      ∧ ∀ m i, ch.isMk m i = true → c ≤ i ∧ i < (serF F c).2.2 := by
  cases F with
  | nil =>
    intro c _ ch hch
    have he : ch ∈ ([] : List Chunk) := hch
    cases he
  | cons n rest =>
    intro c h ch hch
    have hw : wfN n = true ∧ wfF rest = true := by
      simp only [wfF, Bool.and_eq_true] at h
      exact h
    have hc1 : (schunksN n c).2 = (serN n c).2.2 := (serN_chunks n c).2.symm
    show ch.wf = true ∧ ∀ m i, ch.isMk m i = true
      → c ≤ i ∧ i < (serF rest (serN n c).2.2).2.2
    have hch' : ch ∈ (schunksN n c).1 ++ (schunksF rest (schunksN n c).2).1 := hch
    rcases List.mem_append.mp hch' with h4 | h5
    · have hih := schunksN_wf n c hw.1 ch h4
      have hm2 := serF_mono rest (serN n c).2.2
      exact ⟨hih.1, fun m i hmk => by have := hih.2 m i hmk; omega⟩
    · rw [hc1] at h5
      have hih := schunksF_wf rest (serN n c).2.2 hw.2 ch h5
      have hm1 := serN_mono n c
      exact ⟨hih.1, fun m i hmk => by have := hih.2 m i hmk; omega⟩
  termination_by structural F

end

mutual

theorem rchunksN_flats (n : Node) : flats (rchunksN n) = renderN n := by
  cases n with
  | text s =>
    show flats [Chunk.txt s] = s
    rw [flats_cons, flats_nil, List.append_nil]
    rfl
  | elem nm attrs cs =>
    show flats (Chunk.oTag nm attrs :: (rchunksF cs ++ [Chunk.cTag nm]))
      = build_open_tag nm attrs ++ renderF cs ++ closeTag nm
    rw [flats_cons, flats_append, flats_cons, flats_nil, List.append_nil]
    rw [rchunksF_flats cs]
    show build_open_tag nm attrs ++ (renderF cs ++ closeTag nm) = _
    simp [List.append_assoc]
  termination_by structural n

theorem rchunksF_flats (F : List Node) : flats (rchunksF F) = renderF F := by
  cases F with
  | nil => rfl
  | cons n rest =>
    show flats (rchunksN n ++ rchunksF rest) = renderN n ++ renderF rest
    rw [flats_append, rchunksN_flats n, rchunksF_flats rest]
  termination_by structural F

end

mutual

theorem rchunksN_wf (n : Node) : wfN n = true →
    ∀ ch ∈ rchunksN n, ch.wf = true ∧ ch.isMarker = false := by
  cases n with
  | text s =>
    intro h ch hch
    have he : ch = Chunk.txt s := by simpa [rchunksN] using hch
    subst he
    exact ⟨h, rfl⟩
  | elem nm attrs cs =>
    intro h ch hch
    have hparts : (nm ∈ OPQ_INLINE ∨ nm ∈ TRANS_INLINE) ∧ cleanAttrs attrs = true
        ∧ wfF cs = true := by
      simp only [wfN, Bool.and_eq_true, Bool.or_eq_true, decide_eq_true_eq] at h
      exact ⟨h.1.1, h.1.2, h.2⟩
    have hgood : goodName nm = true := by
      rcases hparts.1 with h1 | h2
      · exact opq_good nm h1
      · exact trans_good nm h2
    have hch' : ch ∈ Chunk.oTag nm attrs :: (rchunksF cs ++ [Chunk.cTag nm]) := hch
    rcases List.mem_cons.mp hch' with he | hmem
    · subst he
      refine ⟨?_, rfl⟩
      show (goodName nm && cleanAttrs attrs) = true
      rw [hgood, hparts.2.1]
      rfl
    · rcases List.mem_append.mp hmem with h4 | h5
      · exact rchunksF_wf cs hparts.2.2 ch h4
      · have he : ch = Chunk.cTag nm := by simpa using h5
        subst he
        exact ⟨hgood, rfl⟩
  termination_by structural n

theorem rchunksF_wf (F : List Node) : wfF F = true →
    ∀ ch ∈ rchunksF F, ch.wf = true ∧ ch.isMarker = false := by
  cases F with
  | nil =>
    intro _ ch hch
    have he : ch ∈ ([] : List Chunk) := hch
    cases he
  | cons n rest =>
    intro h ch hch
    have hw : wfN n = true ∧ wfF rest = true := by
      simp only [wfF, Bool.and_eq_true] at h
      exact h
    have hch' : ch ∈ rchunksN n ++ rchunksF rest := hch
    rcases List.mem_append.mp hch' with h4 | h5
    · exact rchunksN_wf n hw.1 ch h4
    · exact rchunksF_wf rest hw.2 ch h5
  termination_by structural F

end

mutual

theorem serN_saved (n : Node) : ∀ c, wfN n = true →
    ∀ e ∈ (serN n c).2.1, SavedTagWf e.2 := by
  cases n with
  | text s =>
    intro c _ e he
    have h0 : e ∈ ([] : List (Nat × SavedTag)) := he
    cases h0
  | elem nm attrs cs =>
    intro c h e he
    have hparts : (nm ∈ OPQ_INLINE ∨ nm ∈ TRANS_INLINE) ∧ cleanAttrs attrs = true
        ∧ wfF cs = true := by
      simp only [wfN, Bool.and_eq_true, Bool.or_eq_true, decide_eq_true_eq] at h
      exact ⟨h.1.1, h.1.2, h.2⟩
    have hlow : lowerStr nm = nm := by
      rcases hparts.1 with h1 | h2
      · exact opq_lower nm h1
      · exact trans_lower nm h2
    have hgood : goodName nm = true := by
      rcases hparts.1 with h1 | h2
      · exact opq_good nm h1
      · exact trans_good nm h2
    unfold serN at he
    by_cases h1 : lowerStr nm ∈ OPQ_INLINE
    · rw [if_pos h1] at he
      have h0 : e = (c, (⟨lowerStr nm, attrs, true,
          renderN (.elem nm attrs cs)⟩ : SavedTag)) := by
        simpa using he
      subst h0
      show SavedTagWf ⟨lowerStr nm, attrs, true, renderN (.elem nm attrs cs)⟩
      unfold SavedTagWf
      rw [if_pos rfl]
      refine ⟨rchunksN (.elem nm attrs cs), ?_, (rchunksN_flats _).symm⟩
      exact fun ch hch => rchunksN_wf (.elem nm attrs cs) h ch hch
    · rw [if_neg h1] at he
      by_cases h2 : lowerStr nm ∈ TRANS_INLINE
      · rw [if_pos h2] at he
        by_cases h3 : stripStr (serF cs c).1 = []
        · rw [if_pos h3] at he
          rcases List.mem_append.mp he with h4 | h5
          · exact serF_saved cs c hparts.2.2 e h4
          · have h0 : e = ((serF cs c).2.2, (⟨lowerStr nm, attrs, true,
                renderN (.elem nm attrs cs)⟩ : SavedTag)) := by
              simpa using h5
            subst h0
            show SavedTagWf ⟨lowerStr nm, attrs, true, renderN (.elem nm attrs cs)⟩
            unfold SavedTagWf
            rw [if_pos rfl]
            refine ⟨rchunksN (.elem nm attrs cs), ?_, (rchunksN_flats _).symm⟩
            exact fun ch hch => rchunksN_wf (.elem nm attrs cs) h ch hch
        · rw [if_neg h3] at he
          rcases List.mem_append.mp he with h4 | h5
          · exact serF_saved cs c hparts.2.2 e h4
          · have h0 : e = ((serF cs c).2.2,
                (⟨lowerStr nm, attrs, false, []⟩ : SavedTag)) := by
              simpa using h5
            subst h0
            show SavedTagWf ⟨lowerStr nm, attrs, false, []⟩
            unfold SavedTagWf
            rw [if_neg (by simp)]
            refine ⟨?_, hparts.2.1⟩
            rw [hlow]
            exact hgood
      · rw [if_neg h2] at he
        exact serF_saved cs c hparts.2.2 e he
  termination_by structural n

theorem serF_saved (F : List Node) : ∀ c, wfF F = true →
    ∀ e ∈ (serF F c).2.1, SavedTagWf e.2 := by
  cases F with
  | nil =>
    intro c _ e he
    have h0 : e ∈ ([] : List (Nat × SavedTag)) := he
    cases h0
  | cons n rest =>
    intro c h e he
    have hw : wfN n = true ∧ wfF rest = true := by
      simp only [wfF, Bool.and_eq_true] at h
      exact h
    have he' : e ∈ (serN n c).2.1 ++ (serF rest (serN n c).2.2).2.1 := he
    rcases List.mem_append.mp he' with h4 | h5
    · exact serN_saved n c hw.1 e h4
    · exact serF_saved rest (serN n c).2.2 hw.2 e h5
  termination_by structural F

end

theorem lookupTag_append_left {sv₁ sv₂ : List (Nat × SavedTag)} {k : Nat}
    (h : k ∈ sv₁.map Prod.fst) : lookupTag (sv₁ ++ sv₂) k = lookupTag sv₁ k := by
  induction sv₁ with
  | nil => cases h
  | cons e t ih =>
    show List.lookup k ((e.1, e.2) :: (t ++ sv₂)) = List.lookup k ((e.1, e.2) :: t)
    rw [List.lookup_cons, List.lookup_cons]
    cases hk : k == e.1 with
    | true => rfl
    | false =>
      apply ih
      have h' : k ∈ e.1 :: t.map Prod.fst := by simpa using h
      rcases List.mem_cons.mp h' with he | hm
      · rw [he] at hk
        simp at hk
      · exact hm

theorem isMk_false_of_not_marker {ch : Chunk} {m : MKind} {i : Nat}
    (h : ch.isMarker = false) : ch.isMk m i = false := by
  cases hmk : ch.isMk m i with
  | false => rfl
  | true =>
    rw [isMk_isMarker hmk] at h
    exact Bool.noConfusion h

theorem rfold_noop {L : List Chunk} (hwf : ∀ c ∈ L, c.wf = true)
    (σ : Nat → Option SavedTag) : ∀ {ids : List Nat},
    (∀ idx ∈ ids, ∀ ch ∈ L, ∀ m, ch.isMk m idx = false) →
    rfold σ (flats L) ids = flats L := by
  intro ids
  induction ids with
  | nil =>
    intro _
    rfl
  | cons idx rest ih =>
    intro h
    rw [rfold_cons]
    cases hσ : σ idx with
    | none => exact ih (fun j hj ch hch m => h j (by simp [hj]) ch hch m)
    | some tag =>
      have hstep : restoreStep (flats L) idx tag = flats L := by
        by_cases ht : tag.opq = true
        · exact restoreStep_opq_none hwf ht
            (fun c hc => h idx (by simp) c hc .mt)
        · have hof : tag.opq = false := Bool.eq_false_iff.mpr ht
          rw [restoreStep_trans_noclose hwf hof
            (fun c hc => h idx (by simp) c hc .mc)]
          rw [eraseMk_of_not_mem (fun c hc => h idx (by simp) c hc .mo)]
      show rfold σ (restoreStep (flats L) idx tag) rest = flats L
      rw [hstep]
      exact ih (fun j hj ch hch m => h j (by simp [hj]) ch hch m)

/-! The main restore induction: processing the ids of a serialized
forest from highest to lowest, inside inert chunk contexts, rebuilds the
canonical rendering of the forest. -/

mutual

theorem restoreN_main (n : Node) : ∀ (c : Nat) (σ : Nat → Option SavedTag)
    (P R : List Chunk), wfN n = true →
    (∀ i, c ≤ i → i < (serN n c).2.2 → σ i = lookupTag (serN n c).2.1 i) →
    inertCtx P c (serN n c).2.2 →
    inertCtx R c (serN n c).2.2 →
    rfold σ (flats P ++ (serN n c).1 ++ flats R) (descIds c ((serN n c).2.2 - c))
      = flats P ++ renderN n ++ flats R := by
  cases n with
  | text s =>
    intro c σ P R hwf hσ hP hR
    show rfold σ (flats P ++ s ++ flats R) (descIds c (c - c)) = flats P ++ s ++ flats R
    rw [Nat.sub_self]
    rfl
  | elem nm attrs cs =>
    intro c σ P R hwf hσ hP hR
    have hparts : (nm ∈ OPQ_INLINE ∨ nm ∈ TRANS_INLINE) ∧ cleanAttrs attrs = true
        ∧ wfF cs = true := by
      simp only [wfN, Bool.and_eq_true, Bool.or_eq_true, decide_eq_true_eq] at hwf
      exact ⟨hwf.1.1, hwf.1.2, hwf.2⟩
    have hlow : lowerStr nm = nm := by
      rcases hparts.1 with hv | hv
      · exact opq_lower nm hv
      · exact trans_lower nm hv
    have hwfn : wfN (.elem nm attrs cs) = true := hwf
    unfold serN at hσ hP hR ⊢
    by_cases h1 : lowerStr nm ∈ OPQ_INLINE
    · rw [if_pos h1] at hσ hP hR ⊢
      have hσc : σ c = some (⟨lowerStr nm, attrs, true,
          renderN (.elem nm attrs cs)⟩ : SavedTag) := by
        refine (hσ c (Nat.le_refl c) (by show c < c + 1; omega)).trans ?_
        exact lookupTag_single c _
      show rfold σ (flats P ++ otMark c ++ flats R) (descIds c (c + 1 - c))
        = flats P ++ renderN (.elem nm attrs cs) ++ flats R
      rw [show c + 1 - c = 1 from by omega]
      rw [show descIds c 1 = [c] from rfl]
      rw [rfold_cons]
      simp only [hσc]
      show restoreStep (flats P ++ otMark c ++ flats R) c
          (⟨lowerStr nm, attrs, true, renderN (.elem nm attrs cs)⟩ : SavedTag)
        = flats P ++ renderN (.elem nm attrs cs) ++ flats R
      have hstr : flats P ++ otMark c ++ flats R = flats (P ++ Chunk.ot c :: R) := by
        rw [flats_append, flats_cons]
        show flats P ++ otMark c ++ flats R = flats P ++ (otMark c ++ flats R)
        simp [List.append_assoc]
      rw [hstr]
      have hwfl : ∀ x ∈ P ++ Chunk.ot c :: R, x.wf = true := by
        intro x hx
        rcases List.mem_append.mp hx with h4 | h5
        · exact (hP x h4).1
        · rcases List.mem_cons.mp h5 with he | hm
          · subst he
            rfl
          · exact (hR x hm).1
      rw [restoreStep_opq hwfl rfl (by simp [Chunk.isMk])
        (fun x hx => (hP x hx).2 .mt c (Nat.le_refl c) (by show c < c + 1; omega))]
    · rw [if_neg h1] at hσ hP hR ⊢
      by_cases h2 : lowerStr nm ∈ TRANS_INLINE
      · rw [if_pos h2] at hσ hP hR ⊢
        have hmono := serF_mono cs c
        have hkeys : ∀ e ∈ (serF cs c).2.1, e.1 ≠ (serF cs c).2.2 := by
          intro e he hke
          have hmem : e.1 ∈ (serF cs c).2.1.map Prod.fst := List.mem_map_of_mem _ he
          rw [serF_keys cs c] at hmem
          have := mem_ascIds.mp hmem
          omega
        by_cases h3 : stripStr (serF cs c).1 = []
        · rw [if_pos h3] at hσ hP hR ⊢
          have hσc : σ (serF cs c).2.2 = some (⟨lowerStr nm, attrs, true,
              renderN (.elem nm attrs cs)⟩ : SavedTag) := by
            refine (hσ (serF cs c).2.2 hmono
              (by show (serF cs c).2.2 < (serF cs c).2.2 + 1; omega)).trans ?_
            exact lookupTag_concat_self hkeys
          show rfold σ (flats P ++ otMark (serF cs c).2.2 ++ flats R)
              (descIds c ((serF cs c).2.2 + 1 - c))
            = flats P ++ renderN (.elem nm attrs cs) ++ flats R
          rw [descIds_cons_high hmono]
          rw [rfold_cons]
          simp only [hσc]
          have hstr : flats P ++ otMark (serF cs c).2.2 ++ flats R
              = flats (P ++ Chunk.ot (serF cs c).2.2 :: R) := by
            rw [flats_append, flats_cons]
            show flats P ++ otMark (serF cs c).2.2 ++ flats R
              = flats P ++ (otMark (serF cs c).2.2 ++ flats R)
            simp [List.append_assoc]
          rw [hstr]
          have hwfl : ∀ x ∈ P ++ Chunk.ot (serF cs c).2.2 :: R, x.wf = true := by
            intro x hx
            rcases List.mem_append.mp hx with h4 | h5
            · exact (hP x h4).1
            · rcases List.mem_cons.mp h5 with he | hm
              · subst he
                rfl
              · exact (hR x hm).1
          rw [restoreStep_opq hwfl rfl (by simp [Chunk.isMk])
            (fun x hx => (hP x hx).2 .mt (serF cs c).2.2 hmono
              (by show (serF cs c).2.2 < (serF cs c).2.2 + 1; omega))]
          show rfold σ (flats P ++ renderN (.elem nm attrs cs) ++ flats R)
              (descIds c ((serF cs c).2.2 - c))
            = flats P ++ renderN (.elem nm attrs cs) ++ flats R
          have hstr2 : flats P ++ renderN (.elem nm attrs cs) ++ flats R
              = flats (P ++ rchunksN (.elem nm attrs cs) ++ R) := by
            rw [flats_append, flats_append, rchunksN_flats]
          rw [hstr2]
          apply rfold_noop
          · intro x hx
            rcases List.mem_append.mp hx with h4 | h5
            · rcases List.mem_append.mp h4 with h6 | h7
              · exact (hP x h6).1
              · exact (rchunksN_wf _ hwfn x h7).1
            · exact (hR x h5).1
          · intro idx hidx x hx m
            have hrange := mem_descIds.mp hidx
            rcases List.mem_append.mp hx with h4 | h5
            · rcases List.mem_append.mp h4 with h6 | h7
              · exact (hP x h6).2 m idx hrange.1
                  (by show idx < (serF cs c).2.2 + 1; omega)
              · exact isMk_false_of_not_marker (rchunksN_wf _ hwfn x h7).2
            · exact (hR x h5).2 m idx hrange.1
                (by show idx < (serF cs c).2.2 + 1; omega)
        · rw [if_neg h3] at hσ hP hR ⊢
          have hσc : σ (serF cs c).2.2 = some (⟨lowerStr nm, attrs, false,
              []⟩ : SavedTag) := by
            refine (hσ (serF cs c).2.2 hmono
              (by show (serF cs c).2.2 < (serF cs c).2.2 + 1; omega)).trans ?_
            exact lookupTag_concat_self hkeys
          show rfold σ (flats P ++ (gOpen (serF cs c).2.2 ++ (serF cs c).1
                ++ gClose (serF cs c).2.2) ++ flats R)
              (descIds c ((serF cs c).2.2 + 1 - c))
            = flats P ++ renderN (.elem nm attrs cs) ++ flats R
          rw [descIds_cons_high hmono]
          rw [rfold_cons]
          simp only [hσc]
          have hinner := schunksF_wf cs c hparts.2.2
          have hstr : flats P ++ (gOpen (serF cs c).2.2 ++ (serF cs c).1
                ++ gClose (serF cs c).2.2) ++ flats R
              = flats (P ++ Chunk.gO (serF cs c).2.2
                  :: ((schunksF cs c).1 ++ Chunk.gC (serF cs c).2.2 :: R)) := by
            rw [flats_append, flats_cons, flats_append, flats_cons]
            rw [(serF_chunks cs c).1]
            show flats P ++ (gOpen (serF cs c).2.2 ++ flats (schunksF cs c).1
                ++ gClose (serF cs c).2.2) ++ flats R
              = flats P ++ (gOpen (serF cs c).2.2 ++ (flats (schunksF cs c).1
                  ++ (gClose (serF cs c).2.2 ++ flats R)))
            simp [List.append_assoc]
          rw [hstr]
          have hwfl : ∀ x ∈ P ++ Chunk.gO (serF cs c).2.2
              :: ((schunksF cs c).1 ++ Chunk.gC (serF cs c).2.2 :: R), x.wf = true := by
            intro x hx
            rcases List.mem_append.mp hx with h4 | h5
            · exact (hP x h4).1
            · rcases List.mem_cons.mp h5 with he | hm
              · subst he
                rfl
              · rcases List.mem_append.mp hm with h6 | h7
                · exact (hinner x h6).1
                · rcases List.mem_cons.mp h7 with he | hm2
                  · subst he
                    rfl
                  · exact (hR x hm2).1
          rw [restoreStep_trans_paired hwfl rfl
            (fun x hx => (hP x hx).2 .mo (serF cs c).2.2 hmono
              (by show (serF cs c).2.2 < (serF cs c).2.2 + 1; omega))
            (fun x hx => (hP x hx).2 .mc (serF cs c).2.2 hmono
              (by show (serF cs c).2.2 < (serF cs c).2.2 + 1; omega))
            (fun x hx => by
              cases hmk : x.isMk .mc (serF cs c).2.2 with
              | false => rfl
              | true =>
                have := ((hinner x hx).2 .mc (serF cs c).2.2 hmk).2
                omega)]
          show rfold σ (flats (P ++ Chunk.oTag (lowerStr nm) attrs
              :: ((schunksF cs c).1 ++ Chunk.cTag (lowerStr nm) :: R)))
              (descIds c ((serF cs c).2.2 - c))
            = flats P ++ renderN (.elem nm attrs cs) ++ flats R
          have hgood : goodName nm = true := trans_good nm (hlow ▸ h2)
          have hstr2 : flats (P ++ Chunk.oTag (lowerStr nm) attrs
              :: ((schunksF cs c).1 ++ Chunk.cTag (lowerStr nm) :: R))
              = flats (P ++ [Chunk.oTag (lowerStr nm) attrs]) ++ (serF cs c).1
                  ++ flats (Chunk.cTag (lowerStr nm) :: R) := by
            rw [(serF_chunks cs c).1]
            simp [flats_append, flats_cons, flats_nil, List.append_assoc]
          rw [hstr2]
          have hσ' : ∀ i, c ≤ i → i < (serF cs c).2.2
              → σ i = lookupTag (serF cs c).2.1 i := by
            intro i hi1 hi2
            refine (hσ i hi1 (by show i < (serF cs c).2.2 + 1; omega)).trans ?_
            apply lookupTag_append_left
            rw [serF_keys cs c]
            rw [mem_ascIds]
            omega
          have hP' : inertCtx (P ++ [Chunk.oTag (lowerStr nm) attrs]) c
              (serF cs c).2.2 := by
            intro x hx
            rcases List.mem_append.mp hx with h4 | h5
            · exact ⟨(hP x h4).1, fun m i hi1 hi2 =>
                (hP x h4).2 m i hi1 (by show i < (serF cs c).2.2 + 1; omega)⟩
            · have he : x = Chunk.oTag (lowerStr nm) attrs := by simpa using h5
              subst he
              refine ⟨?_, fun m i _ _ => isMk_false_of_not_marker rfl⟩
              show (goodName (lowerStr nm) && cleanAttrs attrs) = true
              rw [hlow, hgood, hparts.2.1]
              rfl
          have hR' : inertCtx (Chunk.cTag (lowerStr nm) :: R) c
              (serF cs c).2.2 := by
            intro x hx
            rcases List.mem_cons.mp hx with he | hm
            · subst he
              refine ⟨?_, fun m i _ _ => isMk_false_of_not_marker rfl⟩
              show goodName (lowerStr nm) = true
              rw [hlow]
              exact hgood
            · exact ⟨(hR x hm).1, fun m i hi1 hi2 =>
                (hR x hm).2 m i hi1 (by show i < (serF cs c).2.2 + 1; omega)⟩
          rw [restoreF_main cs c σ (P ++ [Chunk.oTag (lowerStr nm) attrs])
            (Chunk.cTag (lowerStr nm) :: R) hparts.2.2 hσ' hP' hR']
          rw [flats_append, flats_cons]
          show flats P ++ flats [Chunk.oTag (lowerStr nm) attrs] ++ renderF cs
              ++ (closeTag (lowerStr nm) ++ flats R)
            = flats P ++ (build_open_tag nm attrs ++ renderF cs ++ closeTag nm)
              ++ flats R
          rw [show flats [Chunk.oTag (lowerStr nm) attrs]
              = build_open_tag (lowerStr nm) attrs from by
            rw [flats_cons, flats_nil, List.append_nil]
            rfl]
          rw [hlow]
          simp [List.append_assoc]
      · exfalso
        rcases hparts.1 with hv | hv
        · exact h1 (by rw [hlow]; exact hv)
        · exact h2 (by rw [hlow]; exact hv)
  termination_by structural n

theorem restoreF_main (F : List Node) : ∀ (c : Nat) (σ : Nat → Option SavedTag)
    (P R : List Chunk), wfF F = true →
    (∀ i, c ≤ i → i < (serF F c).2.2 → σ i = lookupTag (serF F c).2.1 i) →
    inertCtx P c (serF F c).2.2 →
    inertCtx R c (serF F c).2.2 →
    rfold σ (flats P ++ (serF F c).1 ++ flats R) (descIds c ((serF F c).2.2 - c))
      = flats P ++ renderF F ++ flats R := by
  cases F with
  | nil =>
    intro c σ P R _ _ _ _
    show rfold σ (flats P ++ [] ++ flats R) (descIds c (c - c))
      = flats P ++ [] ++ flats R
    rw [Nat.sub_self]
    rfl
  | cons n rest =>
    intro c σ P R hwf hσ hP hR
    have hw : wfN n = true ∧ wfF rest = true := by
      simp only [wfF, Bool.and_eq_true] at hwf
      exact hwf
    have hm1 := serN_mono n c
    have hm2 := serF_mono rest (serN n c).2.2
    have hsplit : descIds c ((serF rest (serN n c).2.2).2.2 - c)
        = descIds (serN n c).2.2 ((serF rest (serN n c).2.2).2.2 - (serN n c).2.2)
          ++ descIds c ((serN n c).2.2 - c) := by
      have ha := descIds_append c ((serN n c).2.2 - c)
        ((serF rest (serN n c).2.2).2.2 - (serN n c).2.2)
      rw [show c + ((serN n c).2.2 - c) = (serN n c).2.2 from by omega] at ha
      rw [show ((serN n c).2.2 - c) + ((serF rest (serN n c).2.2).2.2 - (serN n c).2.2)
          = (serF rest (serN n c).2.2).2.2 - c from by omega] at ha
      exact ha
    show rfold σ (flats P ++ ((serN n c).1 ++ (serF rest (serN n c).2.2).1) ++ flats R)
        (descIds c ((serF rest (serN n c).2.2).2.2 - c))
      = flats P ++ (renderN n ++ renderF rest) ++ flats R
    rw [hsplit, rfold_append]
    have hkeys1 : (serN n c).2.1.map Prod.fst = ascIds c ((serN n c).2.2 - c) :=
      serN_keys n c
    have hσ2 : ∀ i, (serN n c).2.2 ≤ i → i < (serF rest (serN n c).2.2).2.2
        → σ i = lookupTag (serF rest (serN n c).2.2).2.1 i := by
      intro i hi1 hi2
      refine (hσ i (by omega) hi2).trans ?_
      apply lookupTag_append
      intro e he hke
      have hmem : e.1 ∈ (serN n c).2.1.map Prod.fst := List.mem_map_of_mem _ he
      rw [hkeys1] at hmem
      have := mem_ascIds.mp hmem
      omega
    have hchunks := schunksN_wf n c hw.1
    have hstr : flats P ++ ((serN n c).1 ++ (serF rest (serN n c).2.2).1) ++ flats R
        = flats (P ++ (schunksN n c).1) ++ (serF rest (serN n c).2.2).1 ++ flats R := by
      rw [flats_append, (serN_chunks n c).1]
      simp [List.append_assoc]
    rw [hstr]
    have hP2 : inertCtx (P ++ (schunksN n c).1) (serN n c).2.2
        (serF rest (serN n c).2.2).2.2 := by
      intro x hx
      rcases List.mem_append.mp hx with h4 | h5
      · exact ⟨(hP x h4).1, fun m i hi1 hi2 => (hP x h4).2 m i (by omega) hi2⟩
      · refine ⟨(hchunks x h5).1, fun m i hi1 hi2 => ?_⟩
        cases hmk : x.isMk m i with
        | false => rfl
        | true =>
          have := ((hchunks x h5).2 m i hmk).2
          omega
    have hR2 : inertCtx R (serN n c).2.2 (serF rest (serN n c).2.2).2.2 := by
      intro x hx
      exact ⟨(hR x hx).1, fun m i hi1 hi2 => (hR x hx).2 m i (by omega) hi2⟩
    rw [restoreF_main rest (serN n c).2.2 σ (P ++ (schunksN n c).1) R hw.2 hσ2 hP2 hR2]
    have hσ1 : ∀ i, c ≤ i → i < (serN n c).2.2
        → σ i = lookupTag (serN n c).2.1 i := by
      intro i hi1 hi2
      refine (hσ i hi1
        (by show i < (serF rest (serN n c).2.2).2.2; omega)).trans ?_
      apply lookupTag_append_left
      rw [hkeys1, mem_ascIds]
      omega
    have hrch := rchunksF_wf rest hw.2
    have hstr2 : flats (P ++ (schunksN n c).1) ++ renderF rest ++ flats R
        = flats P ++ (serN n c).1 ++ flats (rchunksF rest ++ R) := by
      rw [flats_append, (serN_chunks n c).1, flats_append, rchunksF_flats]
      simp [List.append_assoc]
    rw [hstr2]
    have hR1 : inertCtx (rchunksF rest ++ R) c (serN n c).2.2 := by
      intro x hx
      rcases List.mem_append.mp hx with h4 | h5
      · exact ⟨(hrch x h4).1, fun m i _ _ =>
          isMk_false_of_not_marker (hrch x h4).2⟩
      · exact ⟨(hR x h5).1, fun m i hi1 hi2 => (hR x h5).2 m i hi1
          (by show i < (serF rest (serN n c).2.2).2.2; omega)⟩
    have hP1 : inertCtx P c (serN n c).2.2 := by
      intro x hx
      exact ⟨(hP x hx).1, fun m i hi1 hi2 => (hP x hx).2 m i hi1
        (by show i < (serF rest (serN n c).2.2).2.2; omega)⟩
    rw [restoreN_main n c σ P (rchunksF rest ++ R) hw.1 hσ1 hP1 hR1]
    rw [flats_append, rchunksF_flats]
    simp [List.append_assoc]
  termination_by structural F

end

mutual

theorem serN_empty (n : Node) : ∀ c, wfN n = true → (serN n c).2.1 = [] →
    (serN n c).1 = renderN n := by
  cases n with
  | text s =>
    intro c _ _
    rfl
  | elem nm attrs cs =>
    intro c h hsv
    have hparts : (nm ∈ OPQ_INLINE ∨ nm ∈ TRANS_INLINE) ∧ cleanAttrs attrs = true
        ∧ wfF cs = true := by
      simp only [wfN, Bool.and_eq_true, Bool.or_eq_true, decide_eq_true_eq] at h
      exact ⟨h.1.1, h.1.2, h.2⟩
    have hlow : lowerStr nm = nm := by
      rcases hparts.1 with hv | hv
      · exact opq_lower nm hv
      · exact trans_lower nm hv
    exfalso
    unfold serN at hsv
    by_cases h1 : lowerStr nm ∈ OPQ_INLINE
    · rw [if_pos h1] at hsv
      exact List.noConfusion hsv
    · rw [if_neg h1] at hsv
      by_cases h2 : lowerStr nm ∈ TRANS_INLINE
      · rw [if_pos h2] at hsv
        by_cases h3 : stripStr (serF cs c).1 = []
        · rw [if_pos h3] at hsv
          simp at hsv
        · rw [if_neg h3] at hsv
          simp at hsv
      · rcases hparts.1 with hv | hv
        · exact h1 (by rw [hlow]; exact hv)
        · exact h2 (by rw [hlow]; exact hv)
  termination_by structural n

theorem serF_empty (F : List Node) : ∀ c, wfF F = true → (serF F c).2.1 = [] →
    (serF F c).1 = renderF F := by
  cases F with
  | nil =>
    intro c _ _
    rfl
  | cons n rest =>
    intro c h hsv
    have hw : wfN n = true ∧ wfF rest = true := by
      simp only [wfF, Bool.and_eq_true] at h
      exact h
    have hsv' : (serN n c).2.1 = [] ∧ (serF rest (serN n c).2.2).2.1 = [] := by
      have h0 : (serN n c).2.1 ++ (serF rest (serN n c).2.2).2.1 = [] := hsv
      exact List.append_eq_nil.mp h0
    show (serN n c).1 ++ (serF rest (serN n c).2.2).1 = renderN n ++ renderF rest
    rw [serN_empty n c hw.1 hsv'.1, serF_empty rest (serN n c).2.2 hw.2 hsv'.2]
  termination_by structural F

end

/-- C1 (amended): round-trip identity of the placeholder codec on clean
vocabulary markup.  For a forest whose elements all come from the fixed
opaque/transparent vocabularies and whose text nodes and attribute data
contain no `<` or `[` characters, decoding the marked text unchanged with
the saved map reconstructs exactly the canonical rendering of the
original markup (tags rebuilt by `_build_open_tag` with the stored
attributes, as the source itself does).  Without the cleanliness
restriction the identity fails — see the counterexample: literal text
shaped like a marker is deleted by the final cleanup pass. -/
theorem C1_roundtrip (F : List Node) (h : wfF F = true) :
    restore_from_placeholders (serialize_to_placeholders F).1
      (serialize_to_placeholders F).2 = renderF F := by
  show restore_from_placeholders (serF F 0).1 (serF F 0).2.1 = renderF F
  unfold restore_from_placeholders
  by_cases hsv : (serF F 0).2.1 = []
  · rw [if_pos hsv]
    exact serF_empty F 0 h hsv
  · rw [if_neg hsv]
    have hkeys := serF_keys F 0
    rw [Nat.sub_zero] at hkeys
    rw [hkeys, sortDescNat_ascIds]
    have hmain := restoreF_main F 0 (lookupTag (serF F 0).2.1) [] [] h
      (fun i _ _ => rfl) (by intro x hx; cases hx) (by intro x hx; cases hx)
    simp only [flats_nil, List.nil_append, List.append_nil, Nat.sub_zero] at hmain
    show phClean (rfold (lookupTag (serF F 0).2.1) (serF F 0).1
      (descIds 0 (serF F 0).2.2)) = renderF F
    rw [hmain]
    rw [← rchunksF_flats F, phClean_flats (fun c hc => (rchunksF_wf F h c hc).1)]
    rw [show (rchunksF F).filter (fun ch => !ch.isMarker) = rchunksF F from
      List.filter_eq_self.mpr (fun a ha => by rw [(rchunksF_wf F h a ha).2]; rfl)]

/-- C1 witness: the round-trip identity evaluated on a concrete clean
forest holding a transparent element with an attribute, an opaque
element, and surrounding text. -/
theorem C1_roundtrip_witness :
    wfF [Node.elem "em".data [("class".data, "x".data)] [Node.text "Hi".data],
         Node.elem "br".data [] [], Node.text "t".data] = true
    ∧ restore_from_placeholders
        (serialize_to_placeholders
          [Node.elem "em".data [("class".data, "x".data)] [Node.text "Hi".data],
           Node.elem "br".data [] [], Node.text "t".data]).1
        (serialize_to_placeholders
          [Node.elem "em".data [("class".data, "x".data)] [Node.text "Hi".data],
           Node.elem "br".data [] [], Node.text "t".data]).2
      = renderF [Node.elem "em".data [("class".data, "x".data)] [Node.text "Hi".data],
           Node.elem "br".data [] [], Node.text "t".data] :=
  ⟨by decide, C1_roundtrip _ (by decide)⟩

theorem lookup_mem_saved {saved : List (Nat × SavedTag)} {k : Nat} {v : SavedTag}
    (h : List.lookup k saved = some v) : (k, v) ∈ saved := by
  induction saved with
  | nil => exact Option.noConfusion h
  | cons e t ih =>
    rw [show e = (e.1, e.2) from rfl, List.lookup_cons] at h
    revert h
    cases hk : k == e.1 with
    | true =>
      intro h
      have hv := Option.some.inj h
      have hke : k = e.1 := by simpa using hk
      rw [show e = (e.1, e.2) from rfl]
      rw [← hv, ← hke]
      simp
    | false =>
      intro h
      exact List.mem_cons_of_mem _ (ih h)

theorem rfold_wf {σ : Nat → Option SavedTag}
    (hσ : ∀ i tag, σ i = some tag → SavedTagWf tag) :
    ∀ (ids : List Nat) (L : List Chunk), (∀ c ∈ L, c.wf = true) →
    ∃ L', (∀ c ∈ L', c.wf = true) ∧ rfold σ (flats L) ids = flats L' := by
  intro ids
  induction ids with
  | nil =>
    intro L hwf
    exact ⟨L, hwf, rfl⟩
  | cons i rest ih =>
    intro L hwf
    rw [rfold_cons]
    cases hσi : σ i with
    | none =>
      show ∃ L', _ ∧ rfold σ (flats L) rest = flats L'
      exact ih L hwf
    | some tag =>
      obtain ⟨L₁, hL₁, heq⟩ := restoreStep_wf hwf i (hσ i tag hσi)
      show ∃ L', _ ∧ rfold σ (restoreStep (flats L) i tag) rest = flats L'
      rw [heq]
      exact ih L₁ hL₁

theorem noPH_phClean_flats {L : List Chunk} (hwf : ∀ c ∈ L, c.wf = true) :
    noPH (phClean (flats L)) := by
  rw [phClean_flats hwf]
  apply noPH_flats
  · intro c hc
    exact hwf c (List.mem_of_mem_filter hc)
  · intro c hc
    have := List.of_mem_filter hc
    simpa using this

/-- C9 (amended): decode output is marker-free for non-overlapping
inputs.  The serializer's saved entries are all well-formed (a
transparent entry stores a clean vocabulary tag, an opaque entry's stored
markup is a concatenation of clean non-marker pieces); and whenever the
translated string decomposes into marker tokens and clean segments — as
every string the serializer emits from clean markup does — the result of
`restore_from_placeholders` under a non-empty saved map of well-formed
entries contains no substring matching the placeholder regex, and in
particular no marker `<gN>`, `</gN>` or `[OT:N]` for any `N`.  Without
the decomposability restriction the property fails: the single-pass
cleanup does not rescan after a deletion (see the counterexample, where
`<g<g1>1>` decodes to `<g1>`). -/
theorem C9_marker_free :
    (∀ F : List Node, wfF F = true →
      ∀ e ∈ (serialize_to_placeholders F).2, SavedTagWf e.2)
    ∧ (∀ (L : List Chunk) (saved : List (Nat × SavedTag)),
        (∀ ch ∈ L, ch.wf = true) → saved ≠ [] →
        (∀ e ∈ saved, SavedTagWf e.2) →
        noPH (restore_from_placeholders (flats L) saved)
        ∧ ∀ m k i, ¬ occursAt (restore_from_placeholders (flats L) saved)
            (mstr m k) i) := by
  constructor
  · intro F hwf e he
    exact serF_saved F 0 hwf e he
  · intro L saved hwf hne hsaved
    have hres : ∃ L', (∀ c ∈ L', c.wf = true)
        ∧ restore_from_placeholders (flats L) saved = phClean (flats L') := by
      unfold restore_from_placeholders
      rw [if_neg hne]
      have hσ : ∀ i tag, lookupTag saved i = some tag → SavedTagWf tag := by
        intro i tag h
        exact hsaved (i, tag) (lookup_mem_saved h)
      obtain ⟨L', hL', heq⟩ := rfold_wf hσ (sortDescNat (saved.map Prod.fst)) L hwf
      refine ⟨L', hL', ?_⟩
      show phClean (rfold (lookupTag saved) (flats L)
        (sortDescNat (saved.map Prod.fst))) = phClean (flats L')
      rw [heq]
    obtain ⟨L', hL', heq⟩ := hres
    rw [heq]
    have hnoph := noPH_phClean_flats hL'
    exact ⟨hnoph, fun m k i => not_occursAt_of_noPH hnoph m k i⟩

/-- C9 witness: the invariant evaluated on a concrete decomposable
translated string (text, a paired marker, an opaque marker, and a stray
unmapped marker) with a two-entry well-formed saved map. -/
theorem C9_marker_free_witness :
    (∀ ch ∈ [Chunk.txt "A".data, Chunk.gO 0, Chunk.txt "B".data, Chunk.gC 0,
        Chunk.ot 1, Chunk.gO 5], ch.wf = true)
    ∧ ([((0 : Nat), (⟨"em".data, [], false, []⟩ : SavedTag)),
        (1, ⟨"sup".data, [], true, "<sup>9</sup>".data⟩)] ≠ [])
    ∧ (∀ e ∈ [((0 : Nat), (⟨"em".data, [], false, []⟩ : SavedTag)),
        (1, ⟨"sup".data, [], true, "<sup>9</sup>".data⟩)], SavedTagWf e.2)
    ∧ noPH (restore_from_placeholders
        (flats [Chunk.txt "A".data, Chunk.gO 0, Chunk.txt "B".data, Chunk.gC 0,
          Chunk.ot 1, Chunk.gO 5])
        [((0 : Nat), (⟨"em".data, [], false, []⟩ : SavedTag)),
         (1, ⟨"sup".data, [], true, "<sup>9</sup>".data⟩)]) := by
  have hsaved : ∀ e ∈ [((0 : Nat), (⟨"em".data, [], false, []⟩ : SavedTag)),
      (1, ⟨"sup".data, [], true, "<sup>9</sup>".data⟩)], SavedTagWf e.2 := by
    intro e he
    rcases List.mem_cons.mp he with h0 | h1
    · subst h0
      show SavedTagWf ⟨"em".data, [], false, []⟩
      unfold SavedTagWf
      rw [if_neg (by simp)]
      exact ⟨by decide, by decide⟩
    · rcases List.mem_cons.mp h1 with h0 | h2
      · subst h0
        show SavedTagWf ⟨"sup".data, [], true, "<sup>9</sup>".data⟩
        unfold SavedTagWf
        rw [if_pos rfl]
        refine ⟨[Chunk.oTag "sup".data [], Chunk.txt "9".data,
          Chunk.cTag "sup".data], ?_, by decide⟩
        intro ch hch
        rcases List.mem_cons.mp hch with h3 | h4
        · subst h3
          exact ⟨by decide, rfl⟩
        · rcases List.mem_cons.mp h4 with h3 | h5
          · subst h3
            exact ⟨by decide, rfl⟩
          · rcases List.mem_cons.mp h5 with h3 | h6
            · subst h3
              exact ⟨by decide, rfl⟩
            · cases h6
      · cases h2
  refine ⟨by decide, by simp, hsaved, ?_⟩
  exact (C9_marker_free.2 _ _ (by decide) (by simp) hsaved).1

/-- C7 (amended): placeholder id discipline.  Ids are assigned 0-based
and consecutively — the saved map's keys, in insertion order, are exactly
`0, 1, …, count-1` — but not monotonically in document order: a
transparent element takes its id only after its children are walked, so
its id is the successor of its subtree's last id (its key is appended
after all of its subtree's keys).  Decoding does process ids from highest
to lowest (sorting the keys descending yields `count-1, …, 0`), and an
opaque marker is replaced at most once: the restore step for an opaque
tag replaces exactly the first occurrence of `[OT:N]` when one exists and
leaves the string unchanged otherwise. -/
theorem C7_id_discipline :
    (∀ F : List Node, (serialize_to_placeholders F).2.map Prod.fst
        = ascIds 0 (serF F 0).2.2)
    ∧ (∀ (nm : Str) (attrs : List (Str × Str)) (cs : List Node) (c : Nat),
        lowerStr nm ∉ OPQ_INLINE → lowerStr nm ∈ TRANS_INLINE →
        (serN (.elem nm attrs cs) c).2.1.map Prod.fst
          = (serF cs c).2.1.map Prod.fst ++ [(serF cs c).2.2])
    ∧ (∀ F : List Node,
        sortDescNat ((serialize_to_placeholders F).2.map Prod.fst)
          = descIds 0 (serF F 0).2.2)
    ∧ (∀ (r : Str) (idx : Nat) (tag : SavedTag), tag.opq = true →
        (∃ j, firstIdx r (otMark idx) = some j
          ∧ restoreStep r idx tag
            = r.take j ++ tag.original_html ++ r.drop (j + (otMark idx).length)
          ∧ ∀ j', j' < j → ¬ occursAt r (otMark idx) j')
        ∨ (firstIdx r (otMark idx) = none ∧ restoreStep r idx tag = r)) := by
  have hkeys : ∀ F : List Node, (serialize_to_placeholders F).2.map Prod.fst
      = ascIds 0 (serF F 0).2.2 := by
    intro F
    show (serF F 0).2.1.map Prod.fst = ascIds 0 (serF F 0).2.2
    have h := serF_keys F 0
    rw [Nat.sub_zero] at h
    exact h
  refine ⟨hkeys, ?_, ?_, ?_⟩
  · intro nm attrs cs c h1 h2
    unfold serN
    rw [if_neg h1, if_pos h2]
    by_cases h3 : stripStr (serF cs c).1 = []
    · rw [if_pos h3]
      show ((serF cs c).2.1
          ++ [((serF cs c).2.2, (⟨lowerStr nm, attrs, true,
              renderN (.elem nm attrs cs)⟩ : SavedTag))]).map Prod.fst = _
      rw [List.map_append]
      rfl
    · rw [if_neg h3]
      show ((serF cs c).2.1
          ++ [((serF cs c).2.2, (⟨lowerStr nm, attrs, false, []⟩ : SavedTag))]).map
          Prod.fst = _
      rw [List.map_append]
      rfl
  · intro F
    rw [hkeys F, sortDescNat_ascIds]
  · intro r idx tag ht
    unfold restoreStep
    rw [if_pos ht]
    unfold replaceFirst
    cases hf : firstIdx r (otMark idx) with
    | some j =>
      left
      refine ⟨j, rfl, rfl, ?_⟩
      exact ((firstIdx_eq_some_iff r (otMark idx) j).mp hf).2
    | none =>
      right
      exact ⟨rfl, rfl⟩

/-- C7 witness: the id facts evaluated on `<b><em>x</em></b>` (the inner
`em` takes id 0, the enclosing `b` takes id 1, appended after it; the
keys sort descending to `[1, 0]`), and the at-most-once replacement
evaluated on a string holding two copies of `[OT:0]`. -/
theorem C7_id_discipline_witness :
    ((serialize_to_placeholders
        [Node.elem "b".data [] [Node.elem "em".data [] [Node.text "x".data]]]).2.map
        Prod.fst
      = ascIds 0 (serF [Node.elem "b".data []
          [Node.elem "em".data [] [Node.text "x".data]]] 0).2.2)
    ∧ (lowerStr "b".data ∉ OPQ_INLINE ∧ lowerStr "b".data ∈ TRANS_INLINE
      ∧ (serN (.elem "b".data [] [Node.elem "em".data [] [Node.text "x".data]]) 0).2.1.map
          Prod.fst
        = (serF [Node.elem "em".data [] [Node.text "x".data]] 0).2.1.map Prod.fst
          ++ [(serF [Node.elem "em".data [] [Node.text "x".data]] 0).2.2])
    ∧ (sortDescNat ((serialize_to_placeholders
        [Node.elem "b".data [] [Node.elem "em".data [] [Node.text "x".data]]]).2.map
        Prod.fst)
      = descIds 0 (serF [Node.elem "b".data []
          [Node.elem "em".data [] [Node.text "x".data]]] 0).2.2)
    ∧ ((⟨"br".data, [], true, "<br/>".data⟩ : SavedTag).opq = true
      ∧ ((∃ j, firstIdx "x[OT:0]y[OT:0]".data (otMark 0) = some j
          ∧ restoreStep "x[OT:0]y[OT:0]".data 0
              (⟨"br".data, [], true, "<br/>".data⟩ : SavedTag)
            = "x[OT:0]y[OT:0]".data.take j
              ++ (⟨"br".data, [], true, "<br/>".data⟩ : SavedTag).original_html
              ++ "x[OT:0]y[OT:0]".data.drop (j + (otMark 0).length)
          ∧ ∀ j', j' < j → ¬ occursAt "x[OT:0]y[OT:0]".data (otMark 0) j')
        ∨ (firstIdx "x[OT:0]y[OT:0]".data (otMark 0) = none
          ∧ restoreStep "x[OT:0]y[OT:0]".data 0
              (⟨"br".data, [], true, "<br/>".data⟩ : SavedTag)
            = "x[OT:0]y[OT:0]".data))) :=
  ⟨C7_id_discipline.1 _,
    ⟨by decide, by decide, C7_id_discipline.2.1 "b".data []
      [Node.elem "em".data [] [Node.text "x".data]] 0 (by decide) (by decide)⟩,
    C7_id_discipline.2.2.1 _,
    ⟨rfl, C7_id_discipline.2.2.2 "x[OT:0]y[OT:0]".data 0
      (⟨"br".data, [], true, "<br/>".data⟩ : SavedTag) rfl⟩⟩

theorem eraseMk_append_left {m : MKind} {i : Nat} {L₁ L₂ : List Chunk}
    (h : ∀ ch ∈ L₂, ch.isMk m i = false) :
    eraseMk m i (L₁ ++ L₂) = eraseMk m i L₁ ++ L₂ := by
  induction L₁ with
  | nil =>
    rw [List.nil_append]
    show eraseMk m i L₂ = [] ++ L₂
    rw [eraseMk_of_not_mem h, List.nil_append]
  | cons c t ih =>
    rw [List.cons_append, eraseMk_cons, eraseMk_cons]
    by_cases hc : c.isMk m i = true
    · rw [if_pos hc, if_pos hc]
    · rw [if_neg hc, if_neg hc, ih, List.cons_append]

mutual

theorem ruN_counter (n : Node) : ∀ N c, (ruN N n c).2 = (serN n c).2.2 := by
  cases n with
  | text s =>
    intro N c
    rfl
  | elem nm attrs cs =>
    intro N c
    unfold ruN serN
    by_cases h1 : lowerStr nm ∈ OPQ_INLINE
    · rw [if_pos h1, if_pos h1]
    · rw [if_neg h1, if_neg h1]
      by_cases h2 : lowerStr nm ∈ TRANS_INLINE
      · rw [if_pos h2, if_pos h2]
        by_cases h3 : stripStr (serF cs c).1 = []
        · rw [if_pos h3, if_pos h3]
        · rw [if_neg h3, if_neg h3]
          by_cases h4 : (serF cs c).2.2 = N
          · rw [if_pos h4]
          · rw [if_neg h4]
      · rw [if_neg h2, if_neg h2]
        exact ruF_counter cs N c
  termination_by structural n

theorem ruF_counter (F : List Node) : ∀ N c, (ruF N F c).2 = (serF F c).2.2 := by
  cases F with
  | nil =>
    intro N c
    rfl
  | cons n rest =>
    intro N c
    show (ruF N rest (ruN N n c).2).2 = (serF rest (serN n c).2.2).2.2
    rw [ruN_counter n N c]
    exact ruF_counter rest N (serN n c).2.2
  termination_by structural F

end

mutual

theorem ruN_render (n : Node) : ∀ N c, wfN n = true →
    (N < c ∨ (serN n c).2.2 ≤ N) → (ruN N n c).1 = renderN n := by
  cases n with
  | text s =>
    intro N c _ _
    rfl
  | elem nm attrs cs =>
    intro N c hwf hN
    have hparts : (nm ∈ OPQ_INLINE ∨ nm ∈ TRANS_INLINE) ∧ cleanAttrs attrs = true
        ∧ wfF cs = true := by
      simp only [wfN, Bool.and_eq_true, Bool.or_eq_true, decide_eq_true_eq] at hwf
      exact ⟨hwf.1.1, hwf.1.2, hwf.2⟩
    have hlow : lowerStr nm = nm := by
      rcases hparts.1 with hv | hv
      · exact opq_lower nm hv
      · exact trans_lower nm hv
    unfold ruN
    unfold serN at hN
    by_cases h1 : lowerStr nm ∈ OPQ_INLINE
    · rw [if_pos h1]
    · rw [if_neg h1] at hN
      rw [if_neg h1]
      by_cases h2 : lowerStr nm ∈ TRANS_INLINE
      · rw [if_pos h2] at hN
        rw [if_pos h2]
        have hm := serF_mono cs c
        by_cases h3 : stripStr (serF cs c).1 = []
        · rw [if_pos h3]
        · rw [if_neg h3] at hN
          rw [if_neg h3]
          have hne : (serF cs c).2.2 ≠ N := by
            rcases hN with h4 | h4
            · omega
            · have h5 : (serF cs c).2.2 + 1 ≤ N := h4
              omega
          rw [if_neg hne]
          have ha : N < c ∨ (serF cs c).2.2 ≤ N := by
            rcases hN with h4 | h4
            · exact Or.inl h4
            · have h5 : (serF cs c).2.2 + 1 ≤ N := h4
              exact Or.inr (by omega)
          rw [ruF_render cs N c hparts.2.2 ha]
          rfl
      · exfalso
        rcases hparts.1 with hv | hv
        · exact h1 (by rw [hlow]; exact hv)
        · exact h2 (by rw [hlow]; exact hv)
  termination_by structural n

theorem ruF_render (F : List Node) : ∀ N c, wfF F = true →
    (N < c ∨ (serF F c).2.2 ≤ N) → (ruF N F c).1 = renderF F := by
  cases F with
  | nil =>
    intro N c _ _
    rfl
  | cons n rest =>
    intro N c hwf hN
    have hw : wfN n = true ∧ wfF rest = true := by
      simp only [wfF, Bool.and_eq_true] at hwf
      exact hwf
    have hm1 := serN_mono n c
    have hm2 := serF_mono rest (serN n c).2.2
    have hN' : N < c ∨ (serF rest (serN n c).2.2).2.2 ≤ N := hN
    show (ruN N n c).1 ++ (ruF N rest (ruN N n c).2).1 = renderN n ++ renderF rest
    rw [ruN_counter n N c]
    have ha : N < c ∨ (serN n c).2.2 ≤ N := by
      rcases hN' with h4 | h4
      · exact Or.inl h4
      · exact Or.inr (by omega)
    have hb : N < (serN n c).2.2 ∨ (serF rest (serN n c).2.2).2.2 ≤ N := by
      rcases hN' with h4 | h4
      · exact Or.inl (by omega)
      · exact Or.inr h4
    rw [ruN_render n N c hw.1 ha]
    rw [ruF_render rest N (serN n c).2.2 hw.2 hb]
  termination_by structural F

end

mutual

theorem ruchN_flats (n : Node) : ∀ N c, flats (ruchN N n c) = (ruN N n c).1 := by
  cases n with
  | text s =>
    intro N c
    show flats [Chunk.txt s] = s
    rw [flats_cons, flats_nil, List.append_nil]
    rfl
  | elem nm attrs cs =>
    intro N c
    unfold ruchN ruN
    by_cases h1 : lowerStr nm ∈ OPQ_INLINE
    · rw [if_pos h1, if_pos h1]
      exact rchunksN_flats _
    · rw [if_neg h1, if_neg h1]
      by_cases h2 : lowerStr nm ∈ TRANS_INLINE
      · rw [if_pos h2, if_pos h2]
        by_cases h3 : stripStr (serF cs c).1 = []
        · rw [if_pos h3, if_pos h3]
          exact rchunksN_flats _
        · rw [if_neg h3, if_neg h3]
          by_cases h4 : (serF cs c).2.2 = N
          · rw [if_pos h4, if_pos h4]
            exact ruchF_flats cs N c
          · rw [if_neg h4, if_neg h4]
            show flats (Chunk.oTag nm attrs :: (ruchF N cs c ++ [Chunk.cTag nm]))
              = build_open_tag nm attrs ++ (ruF N cs c).1 ++ closeTag nm
            rw [flats_cons, flats_append, flats_cons, flats_nil, List.append_nil]
            rw [ruchF_flats cs N c]
            show build_open_tag nm attrs ++ ((ruF N cs c).1 ++ closeTag nm) = _
            simp [List.append_assoc]
      · rw [if_neg h2, if_neg h2]
        exact ruchF_flats cs N c
  termination_by structural n

theorem ruchF_flats (F : List Node) : ∀ N c, flats (ruchF N F c) = (ruF N F c).1 := by
  cases F with
  | nil =>
    intro N c
    rfl
  | cons n rest =>
    intro N c
    show flats (ruchN N n c ++ ruchF N rest (serN n c).2.2)
      = (ruN N n c).1 ++ (ruF N rest (ruN N n c).2).1
    rw [flats_append, ruchN_flats n N c, ruN_counter n N c,
      ruchF_flats rest N (serN n c).2.2]
  termination_by structural F

end

mutual

theorem ruchN_wf (n : Node) : ∀ N c, wfN n = true →
    ∀ ch ∈ ruchN N n c, ch.wf = true ∧ ch.isMarker = false := by
  cases n with
  | text s =>
    intro N c h ch hch
    have he : ch = Chunk.txt s := by simpa [ruchN] using hch
    subst he
    exact ⟨h, rfl⟩
  | elem nm attrs cs =>
    intro N c h ch hch
    have hparts : (nm ∈ OPQ_INLINE ∨ nm ∈ TRANS_INLINE) ∧ cleanAttrs attrs = true
        ∧ wfF cs = true := by
      simp only [wfN, Bool.and_eq_true, Bool.or_eq_true, decide_eq_true_eq] at h
      exact ⟨h.1.1, h.1.2, h.2⟩
    have hgood : goodName nm = true := by
      rcases hparts.1 with hv | hv
      · exact opq_good nm hv
      · exact trans_good nm hv
    unfold ruchN at hch
    by_cases h1 : lowerStr nm ∈ OPQ_INLINE
    · rw [if_pos h1] at hch
      exact rchunksN_wf _ h ch hch
    · rw [if_neg h1] at hch
      by_cases h2 : lowerStr nm ∈ TRANS_INLINE
      · rw [if_pos h2] at hch
        by_cases h3 : stripStr (serF cs c).1 = []
        · rw [if_pos h3] at hch
          exact rchunksN_wf _ h ch hch
        · rw [if_neg h3] at hch
          by_cases h4 : (serF cs c).2.2 = N
          · rw [if_pos h4] at hch
            exact ruchF_wf cs N c hparts.2.2 ch hch
          · rw [if_neg h4] at hch
            rcases List.mem_cons.mp hch with he | hmem
            · subst he
              refine ⟨?_, rfl⟩
              show (goodName nm && cleanAttrs attrs) = true
              rw [hgood, hparts.2.1]
              rfl
            · rcases List.mem_append.mp hmem with h5 | h6
              · exact ruchF_wf cs N c hparts.2.2 ch h5
              · have he : ch = Chunk.cTag nm := by simpa using h6
                subst he
                exact ⟨hgood, rfl⟩
      · rw [if_neg h2] at hch
        exact ruchF_wf cs N c hparts.2.2 ch hch
  termination_by structural n

theorem ruchF_wf (F : List Node) : ∀ N c, wfF F = true →
    ∀ ch ∈ ruchF N F c, ch.wf = true ∧ ch.isMarker = false := by
  cases F with
  | nil =>
    intro N c _ ch hch
    have h0 : ch ∈ ([] : List Chunk) := hch
    cases h0
  | cons n rest =>
    intro N c h ch hch
    have hw : wfN n = true ∧ wfF rest = true := by
      simp only [wfF, Bool.and_eq_true] at h
      exact h
    have hch' : ch ∈ ruchN N n c ++ ruchF N rest (serN n c).2.2 := hch
    rcases List.mem_append.mp hch' with h4 | h5
    · exact ruchN_wf n N c hw.1 ch h4
    · exact ruchF_wf rest N (serN n c).2.2 hw.2 ch h5
  termination_by structural F

end

mutual

theorem childrenAtN_range (n : Node) : ∀ N c cs',
    childrenAtN N n c = some cs' → c ≤ N ∧ N < (serN n c).2.2 := by
  cases n with
  | text s =>
    intro N c cs' h
    exact Option.noConfusion h
  | elem nm attrs cs =>
    intro N c cs' h
    unfold childrenAtN at h
    unfold serN
    by_cases h1 : lowerStr nm ∈ OPQ_INLINE
    · rw [if_pos h1] at h
      exact Option.noConfusion h
    · rw [if_neg h1] at h
      rw [if_neg h1]
      by_cases h2 : lowerStr nm ∈ TRANS_INLINE
      · rw [if_pos h2] at h
        rw [if_pos h2]
        have hm := serF_mono cs c
        by_cases h3 : stripStr (serF cs c).1 = []
        · rw [if_pos h3] at h
          exact Option.noConfusion h
        · rw [if_neg h3] at h
          rw [if_neg h3]
          by_cases h4 : (serF cs c).2.2 = N
          · show c ≤ N ∧ N < (serF cs c).2.2 + 1
            omega
          · rw [if_neg h4] at h
            have := childrenAtF_range cs N c cs' h
            show c ≤ N ∧ N < (serF cs c).2.2 + 1
            omega
      · rw [if_neg h2] at h
        rw [if_neg h2]
        exact childrenAtF_range cs N c cs' h
  termination_by structural n

theorem childrenAtF_range (F : List Node) : ∀ N c cs',
    childrenAtF N F c = some cs' → c ≤ N ∧ N < (serF F c).2.2 := by
  cases F with
  | nil =>
    intro N c cs' h
    exact Option.noConfusion h
  | cons n rest =>
    intro N c cs' h
    have hm1 := serN_mono n c
    have hm2 := serF_mono rest (serN n c).2.2
    show c ≤ N ∧ N < (serF rest (serN n c).2.2).2.2
    revert h
    show (match childrenAtN N n c with
      | some cs0 => some cs0
      | none => childrenAtF N rest (serN n c).2.2) = some cs' → _
    cases hh : childrenAtN N n c with
    | some cs0 =>
      intro _
      have := childrenAtN_range n N c cs0 hh
      omega
    | none =>
      intro h
      have := childrenAtF_range rest N (serN n c).2.2 cs' h
      omega
  termination_by structural F

end

mutual

theorem childrenAtN_sub (n : Node) : ∀ N c cs', wfN n = true →
    childrenAtN N n c = some cs' →
    ∃ pre post, (ruN N n c).1 = pre ++ renderF cs' ++ post := by
  cases n with
  | text s =>
    intro N c cs' _ h
    exact Option.noConfusion h
  | elem nm attrs cs =>
    intro N c cs' hwf h
    have hparts : (nm ∈ OPQ_INLINE ∨ nm ∈ TRANS_INLINE) ∧ cleanAttrs attrs = true
        ∧ wfF cs = true := by
      simp only [wfN, Bool.and_eq_true, Bool.or_eq_true, decide_eq_true_eq] at hwf
      exact ⟨hwf.1.1, hwf.1.2, hwf.2⟩
    unfold childrenAtN at h
    unfold ruN
    by_cases h1 : lowerStr nm ∈ OPQ_INLINE
    · rw [if_pos h1] at h
      exact Option.noConfusion h
    · rw [if_neg h1] at h
      rw [if_neg h1]
      by_cases h2 : lowerStr nm ∈ TRANS_INLINE
      · rw [if_pos h2] at h
        rw [if_pos h2]
        by_cases h3 : stripStr (serF cs c).1 = []
        · rw [if_pos h3] at h
          exact Option.noConfusion h
        · rw [if_neg h3] at h
          rw [if_neg h3]
          by_cases h4 : (serF cs c).2.2 = N
          · rw [if_pos h4] at h
            rw [if_pos h4]
            refine ⟨[], [], ?_⟩
            show (ruF N cs c).1 = [] ++ renderF cs' ++ []
            rw [show cs' = cs from (Option.some.inj h).symm]
            rw [ruF_render cs N c hparts.2.2 (Or.inr (by omega))]
            simp
          · rw [if_neg h4] at h
            rw [if_neg h4]
            obtain ⟨pre, post, hsub⟩ := childrenAtF_sub cs N c cs' hparts.2.2 h
            refine ⟨build_open_tag nm attrs ++ pre, post ++ closeTag nm, ?_⟩
            show build_open_tag nm attrs ++ (ruF N cs c).1 ++ closeTag nm = _
            rw [hsub]
            simp [List.append_assoc]
      · rw [if_neg h2] at h
        rw [if_neg h2]
        exact childrenAtF_sub cs N c cs' hparts.2.2 h
  termination_by structural n

theorem childrenAtF_sub (F : List Node) : ∀ N c cs', wfF F = true →
    childrenAtF N F c = some cs' →
    ∃ pre post, (ruF N F c).1 = pre ++ renderF cs' ++ post := by
  cases F with
  | nil =>
    intro N c cs' _ h
    exact Option.noConfusion h
  | cons n rest =>
    intro N c cs' hwf h
    have hw : wfN n = true ∧ wfF rest = true := by
      simp only [wfF, Bool.and_eq_true] at hwf
      exact hwf
    revert h
    show (match childrenAtN N n c with
      | some cs0 => some cs0
      | none => childrenAtF N rest (serN n c).2.2) = some cs' → _
    cases hh : childrenAtN N n c with
    | some cs0 =>
      intro h
      have hcs : cs0 = cs' := Option.some.inj h
      subst hcs
      obtain ⟨pre, post, hsub⟩ := childrenAtN_sub n N c cs0 hw.1 hh
      refine ⟨pre, post ++ (ruF N rest (ruN N n c).2).1, ?_⟩
      show (ruN N n c).1 ++ (ruF N rest (ruN N n c).2).1 = _
      rw [hsub]
      simp [List.append_assoc]
    | none =>
      intro h
      obtain ⟨pre, post, hsub⟩ := childrenAtF_sub rest N (serN n c).2.2 cs' hw.2 h
      refine ⟨(ruN N n c).1 ++ pre, post, ?_⟩
      show (ruN N n c).1 ++ (ruF N rest (ruN N n c).2).1 = _
      rw [ruN_counter n N c, hsub]
      simp [List.append_assoc]
  termination_by structural F

end

/-! The restore induction with one closing marker `</gN>` deleted from
the marked text: the element with id `N` loses its orphaned open marker
(and rebuilds nothing), every other id restores as before, and the
result is the rendering with element `N` unwrapped. -/

mutual

theorem restoreDelN (n : Node) : ∀ (N c : Nat) (σ : Nat → Option SavedTag)
    (P R : List Chunk) (cs' : List Node), wfN n = true →
    childrenAtN N n c = some cs' →
    (∀ i, c ≤ i → i < (serN n c).2.2 → σ i = lookupTag (serN n c).2.1 i) →
    inertCtx P c (serN n c).2.2 →
    inertCtx R c (serN n c).2.2 →
    rfold σ (flats P ++ flats (eraseMk .mc N (schunksN n c).1) ++ flats R)
        (descIds c ((serN n c).2.2 - c))
      = flats P ++ (ruN N n c).1 ++ flats R := by
  cases n with
  | text s =>
    intro N c σ P R cs' _ hc _ _ _
    exact Option.noConfusion hc
  | elem nm attrs cs =>
    intro N c σ P R cs' hwf hc hσ hP hR
    have hparts : (nm ∈ OPQ_INLINE ∨ nm ∈ TRANS_INLINE) ∧ cleanAttrs attrs = true
        ∧ wfF cs = true := by
      simp only [wfN, Bool.and_eq_true, Bool.or_eq_true, decide_eq_true_eq] at hwf
      exact ⟨hwf.1.1, hwf.1.2, hwf.2⟩
    have hlow : lowerStr nm = nm := by
      rcases hparts.1 with hv | hv
      · exact opq_lower nm hv
      · exact trans_lower nm hv
    have hgood : goodName nm = true := by
      rcases hparts.1 with hv | hv
      · exact opq_good nm hv
      · exact trans_good nm hv
    unfold childrenAtN at hc
    unfold serN at hσ hP hR ⊢
    unfold schunksN ruN
    by_cases h1 : lowerStr nm ∈ OPQ_INLINE
    · rw [if_pos h1] at hc
      exact Option.noConfusion hc
    · rw [if_neg h1] at hc hσ hP hR
      rw [if_neg h1, if_neg h1, if_neg h1]
      by_cases h2 : lowerStr nm ∈ TRANS_INLINE
      · rw [if_pos h2] at hc hσ hP hR
        rw [if_pos h2, if_pos h2, if_pos h2]
        have hmono := serF_mono cs c
        have hkeys : ∀ e ∈ (serF cs c).2.1, e.1 ≠ (serF cs c).2.2 := by
          intro e he hke
          have hmem : e.1 ∈ (serF cs c).2.1.map Prod.fst := List.mem_map_of_mem _ he
          rw [serF_keys cs c] at hmem
          have := mem_ascIds.mp hmem
          omega
        have hinner := schunksF_wf cs c hparts.2.2
        by_cases h3 : stripStr (serF cs c).1 = []
        · rw [if_pos h3] at hc
          exact Option.noConfusion hc
        · rw [if_neg h3] at hc hσ hP hR
          rw [if_neg h3, if_neg h3, if_neg h3]
          have hσ' : ∀ i, c ≤ i → i < (serF cs c).2.2
              → σ i = lookupTag (serF cs c).2.1 i := by
            intro i hi1 hi2
            refine (hσ i hi1 (by show i < (serF cs c).2.2 + 1; omega)).trans ?_
            apply lookupTag_append_left
            rw [serF_keys cs c]
            rw [mem_ascIds]
            omega
          by_cases h4 : (serF cs c).2.2 = N
          · rw [if_pos h4] at hc
            rw [if_pos h4]
            subst h4
            have hσc : σ (serF cs c).2.2 = some (⟨lowerStr nm, attrs, false,
                []⟩ : SavedTag) := by
              refine (hσ (serF cs c).2.2 hmono
                (by show (serF cs c).2.2 < (serF cs c).2.2 + 1; omega)).trans ?_
              exact lookupTag_concat_self hkeys
            have hinnoc : ∀ ch ∈ (schunksF cs c).1,
                ch.isMk .mc (serF cs c).2.2 = false := by
              intro ch hch
              cases hmk : ch.isMk .mc (serF cs c).2.2 with
              | false => rfl
              | true =>
                have := ((hinner ch hch).2 .mc (serF cs c).2.2 hmk).2
                omega
            have herase : eraseMk .mc (serF cs c).2.2
                (Chunk.gO (serF cs c).2.2
                  :: ((schunksF cs c).1 ++ [Chunk.gC (serF cs c).2.2]))
                = Chunk.gO (serF cs c).2.2 :: (schunksF cs c).1 := by
              rw [eraseMk_cons, if_neg (by simp [Chunk.isMk])]
              rw [eraseMk_append_right hinnoc]
              rw [show eraseMk .mc (serF cs c).2.2 [Chunk.gC (serF cs c).2.2] = []
                from by rw [eraseMk_cons, if_pos (by simp [Chunk.isMk])]]
              rw [List.append_nil]
            rw [herase]
            rw [descIds_cons_high hmono, rfold_cons]
            simp only [hσc]
            have hstr : flats P ++ flats (Chunk.gO (serF cs c).2.2
                  :: (schunksF cs c).1) ++ flats R
                = flats (P ++ Chunk.gO (serF cs c).2.2
                    :: ((schunksF cs c).1 ++ R)) := by
              rw [flats_append, flats_cons, flats_cons, flats_append]
              simp [List.append_assoc]
            rw [hstr]
            have hwfl : ∀ x ∈ P ++ Chunk.gO (serF cs c).2.2
                :: ((schunksF cs c).1 ++ R), x.wf = true := by
              intro x hx
              rcases List.mem_append.mp hx with hx1 | hx2
              · exact (hP x hx1).1
              · rcases List.mem_cons.mp hx2 with he | hm
                · subst he
                  rfl
                · rcases List.mem_append.mp hm with hx3 | hx4
                  · exact (hinner x hx3).1
                  · exact (hR x hx4).1
            have hnc : ∀ x ∈ P ++ Chunk.gO (serF cs c).2.2
                :: ((schunksF cs c).1 ++ R), x.isMk .mc (serF cs c).2.2 = false := by
              intro x hx
              rcases List.mem_append.mp hx with hx1 | hx2
              · exact (hP x hx1).2 .mc (serF cs c).2.2 hmono
                  (by show (serF cs c).2.2 < (serF cs c).2.2 + 1; omega)
              · rcases List.mem_cons.mp hx2 with he | hm
                · subst he
                  rfl
                · rcases List.mem_append.mp hm with hx3 | hx4
                  · exact hinnoc x hx3
                  · exact (hR x hx4).2 .mc (serF cs c).2.2 hmono
                      (by show (serF cs c).2.2 < (serF cs c).2.2 + 1; omega)
            rw [restoreStep_trans_noclose hwfl rfl hnc]
            rw [show eraseMk .mo (serF cs c).2.2 (P ++ Chunk.gO (serF cs c).2.2
                :: ((schunksF cs c).1 ++ R)) = P ++ ((schunksF cs c).1 ++ R) from by
              apply eraseMk_first
              · intro x hx
                exact (hP x hx).2 .mo (serF cs c).2.2 hmono
                  (by show (serF cs c).2.2 < (serF cs c).2.2 + 1; omega)
              · simp [Chunk.isMk]]
            have hstr2 : flats (P ++ ((schunksF cs c).1 ++ R))
                = flats P ++ (serF cs c).1 ++ flats R := by
              rw [flats_append, flats_append, (serF_chunks cs c).1]
              simp [List.append_assoc]
            rw [hstr2]
            have hP' : inertCtx P c (serF cs c).2.2 := by
              intro x hx
              exact ⟨(hP x hx).1, fun m i hi1 hi2 => (hP x hx).2 m i hi1
                (by show i < (serF cs c).2.2 + 1; omega)⟩
            have hR' : inertCtx R c (serF cs c).2.2 := by
              intro x hx
              exact ⟨(hR x hx).1, fun m i hi1 hi2 => (hR x hx).2 m i hi1
                (by show i < (serF cs c).2.2 + 1; omega)⟩
            rw [restoreF_main cs c σ P R hparts.2.2 hσ' hP' hR']
            rw [ruF_render cs (serF cs c).2.2 c hparts.2.2 (Or.inr (by omega))]
          · rw [if_neg h4] at hc
            rw [if_neg h4]
            have hrange := childrenAtF_range cs N c cs' hc
            have hσc : σ (serF cs c).2.2 = some (⟨lowerStr nm, attrs, false,
                []⟩ : SavedTag) := by
              refine (hσ (serF cs c).2.2 hmono
                (by show (serF cs c).2.2 < (serF cs c).2.2 + 1; omega)).trans ?_
              exact lookupTag_concat_self hkeys
            have hinnoK : ∀ ch ∈ eraseMk .mc N (schunksF cs c).1,
                ch.isMk .mc (serF cs c).2.2 = false := by
              intro ch hch
              cases hmk : ch.isMk .mc (serF cs c).2.2 with
              | false => rfl
              | true =>
                have := ((hinner ch (eraseMk_mem hch)).2 .mc (serF cs c).2.2 hmk).2
                omega
            have herase : eraseMk .mc N
                (Chunk.gO (serF cs c).2.2
                  :: ((schunksF cs c).1 ++ [Chunk.gC (serF cs c).2.2]))
                = Chunk.gO (serF cs c).2.2
                  :: (eraseMk .mc N (schunksF cs c).1 ++ [Chunk.gC (serF cs c).2.2]) := by
              rw [eraseMk_cons, if_neg (by simp [Chunk.isMk])]
              rw [eraseMk_append_left (by
                intro x hx
                have he : x = Chunk.gC (serF cs c).2.2 := by simpa using hx
                subst he
                simp [Chunk.isMk]
                omega)]
            rw [herase]
            rw [descIds_cons_high hmono, rfold_cons]
            simp only [hσc]
            have hstr : flats P ++ flats (Chunk.gO (serF cs c).2.2
                  :: (eraseMk .mc N (schunksF cs c).1 ++ [Chunk.gC (serF cs c).2.2]))
                  ++ flats R
                = flats (P ++ Chunk.gO (serF cs c).2.2
                    :: (eraseMk .mc N (schunksF cs c).1
                      ++ Chunk.gC (serF cs c).2.2 :: R)) := by
              simp [flats_append, flats_cons, flats_nil, List.append_assoc]
            rw [hstr]
            have hwfl : ∀ x ∈ P ++ Chunk.gO (serF cs c).2.2
                :: (eraseMk .mc N (schunksF cs c).1
                  ++ Chunk.gC (serF cs c).2.2 :: R), x.wf = true := by
              intro x hx
              rcases List.mem_append.mp hx with hx1 | hx2
              · exact (hP x hx1).1
              · rcases List.mem_cons.mp hx2 with he | hm
                · subst he
                  rfl
                · rcases List.mem_append.mp hm with hx3 | hx4
                  · exact (hinner x (eraseMk_mem hx3)).1
                  · rcases List.mem_cons.mp hx4 with he | hm2
                    · subst he
                      rfl
                    · exact (hR x hm2).1
            rw [restoreStep_trans_paired hwfl rfl
              (fun x hx => (hP x hx).2 .mo (serF cs c).2.2 hmono
                (by show (serF cs c).2.2 < (serF cs c).2.2 + 1; omega))
              (fun x hx => (hP x hx).2 .mc (serF cs c).2.2 hmono
                (by show (serF cs c).2.2 < (serF cs c).2.2 + 1; omega))
              hinnoK]
            have hstr2 : flats (P ++ Chunk.oTag (lowerStr nm) attrs
                :: (eraseMk .mc N (schunksF cs c).1 ++ Chunk.cTag (lowerStr nm) :: R))
                = flats (P ++ [Chunk.oTag (lowerStr nm) attrs])
                  ++ flats (eraseMk .mc N (schunksF cs c).1)
                  ++ flats (Chunk.cTag (lowerStr nm) :: R) := by
              simp [flats_append, flats_cons, flats_nil, List.append_assoc]
            rw [hstr2]
            have hP' : inertCtx (P ++ [Chunk.oTag (lowerStr nm) attrs]) c
                (serF cs c).2.2 := by
              intro x hx
              rcases List.mem_append.mp hx with hx1 | hx2
              · exact ⟨(hP x hx1).1, fun m i hi1 hi2 => (hP x hx1).2 m i hi1
                  (by show i < (serF cs c).2.2 + 1; omega)⟩
              · have he : x = Chunk.oTag (lowerStr nm) attrs := by simpa using hx2
                subst he
                refine ⟨?_, fun m i _ _ => isMk_false_of_not_marker rfl⟩
                show (goodName (lowerStr nm) && cleanAttrs attrs) = true
                rw [hlow, hgood, hparts.2.1]
                rfl
            have hR' : inertCtx (Chunk.cTag (lowerStr nm) :: R) c
                (serF cs c).2.2 := by
              intro x hx
              rcases List.mem_cons.mp hx with he | hm
              · subst he
                refine ⟨?_, fun m i _ _ => isMk_false_of_not_marker rfl⟩
                show goodName (lowerStr nm) = true
                rw [hlow]
                exact hgood
              · exact ⟨(hR x hm).1, fun m i hi1 hi2 => (hR x hm).2 m i hi1
                  (by show i < (serF cs c).2.2 + 1; omega)⟩
            rw [restoreDelF cs N c σ (P ++ [Chunk.oTag (lowerStr nm) attrs])
              (Chunk.cTag (lowerStr nm) :: R) cs' hparts.2.2 hc hσ' hP' hR']
            show flats (P ++ [Chunk.oTag (lowerStr nm) attrs]) ++ (ruF N cs c).1
                ++ flats (Chunk.cTag (lowerStr nm) :: R)
              = flats P ++ (build_open_tag nm attrs ++ (ruF N cs c).1
                  ++ closeTag nm) ++ flats R
            rw [hlow]
            simp [flats_append, flats_cons, flats_nil, Chunk.flat, List.append_assoc]
      · exfalso
        rcases hparts.1 with hv | hv
        · exact h1 (by rw [hlow]; exact hv)
        · exact h2 (by rw [hlow]; exact hv)
  termination_by structural n

theorem restoreDelF (F : List Node) : ∀ (N c : Nat) (σ : Nat → Option SavedTag)
    (P R : List Chunk) (cs' : List Node), wfF F = true →
    childrenAtF N F c = some cs' →
    (∀ i, c ≤ i → i < (serF F c).2.2 → σ i = lookupTag (serF F c).2.1 i) →
    inertCtx P c (serF F c).2.2 →
    inertCtx R c (serF F c).2.2 →
    rfold σ (flats P ++ flats (eraseMk .mc N (schunksF F c).1) ++ flats R)
        (descIds c ((serF F c).2.2 - c))
      = flats P ++ (ruF N F c).1 ++ flats R := by
  cases F with
  | nil =>
    intro N c σ P R cs' _ hc _ _ _
    exact Option.noConfusion hc
  | cons n rest =>
    intro N c σ P R cs' hwf hc hσ hP hR
    have hw : wfN n = true ∧ wfF rest = true := by
      simp only [wfF, Bool.and_eq_true] at hwf
      exact hwf
    have hm1 := serN_mono n c
    have hm2 := serF_mono rest (serN n c).2.2
    have hcount : (schunksN n c).2 = (serN n c).2.2 := (serN_chunks n c).2.symm
    have hch1 := schunksN_wf n c hw.1
    have hch2 := schunksF_wf rest (serN n c).2.2 hw.2
    have hsplit : descIds c ((serF rest (serN n c).2.2).2.2 - c)
        = descIds (serN n c).2.2 ((serF rest (serN n c).2.2).2.2 - (serN n c).2.2)
          ++ descIds c ((serN n c).2.2 - c) := by
      have ha := descIds_append c ((serN n c).2.2 - c)
        ((serF rest (serN n c).2.2).2.2 - (serN n c).2.2)
      rw [show c + ((serN n c).2.2 - c) = (serN n c).2.2 from by omega] at ha
      rw [show ((serN n c).2.2 - c)
          + ((serF rest (serN n c).2.2).2.2 - (serN n c).2.2)
          = (serF rest (serN n c).2.2).2.2 - c from by omega] at ha
      exact ha
    have hkeys1 : (serN n c).2.1.map Prod.fst = ascIds c ((serN n c).2.2 - c) :=
      serN_keys n c
    have hσ2 : ∀ i, (serN n c).2.2 ≤ i → i < (serF rest (serN n c).2.2).2.2
        → σ i = lookupTag (serF rest (serN n c).2.2).2.1 i := by
      intro i hi1 hi2
      refine (hσ i (by omega) hi2).trans ?_
      apply lookupTag_append
      intro e he hke
      have hmem : e.1 ∈ (serN n c).2.1.map Prod.fst := List.mem_map_of_mem _ he
      rw [hkeys1] at hmem
      have := mem_ascIds.mp hmem
      omega
    have hσ1 : ∀ i, c ≤ i → i < (serN n c).2.2
        → σ i = lookupTag (serN n c).2.1 i := by
      intro i hi1 hi2
      refine (hσ i hi1
        (by show i < (serF rest (serN n c).2.2).2.2; omega)).trans ?_
      apply lookupTag_append_left
      rw [hkeys1, mem_ascIds]
      omega
    show rfold σ (flats P ++ flats (eraseMk .mc N
        ((schunksN n c).1 ++ (schunksF rest (schunksN n c).2).1)) ++ flats R)
        (descIds c ((serF rest (serN n c).2.2).2.2 - c))
      = flats P ++ ((ruN N n c).1 ++ (ruF N rest (ruN N n c).2).1) ++ flats R
    rw [hcount, hsplit, rfold_append, ruN_counter n N c]
    revert hc
    show (match childrenAtN N n c with
      | some cs0 => some cs0
      | none => childrenAtF N rest (serN n c).2.2) = some cs' → _
    cases hh : childrenAtN N n c with
    | some cs0 =>
      intro _
      have hrange := childrenAtN_range n N c cs0 hh
      have herase : eraseMk .mc N
          ((schunksN n c).1 ++ (schunksF rest (serN n c).2.2).1)
          = eraseMk .mc N (schunksN n c).1
            ++ (schunksF rest (serN n c).2.2).1 := by
        apply eraseMk_append_left
        intro x hx
        cases hmk : x.isMk .mc N with
        | false => rfl
        | true =>
          have := ((hch2 x hx).2 .mc N hmk).1
          omega
      rw [herase]
      have hstr : flats P ++ (flats (eraseMk .mc N (schunksN n c).1)
            ++ flats (schunksF rest (serN n c).2.2).1) ++ flats R
          = flats (P ++ eraseMk .mc N (schunksN n c).1)
            ++ (serF rest (serN n c).2.2).1 ++ flats R := by
        rw [flats_append, (serF_chunks rest (serN n c).2.2).1]
        simp [List.append_assoc]
      rw [flats_append, hstr]
      have hP2 : inertCtx (P ++ eraseMk .mc N (schunksN n c).1) (serN n c).2.2
          (serF rest (serN n c).2.2).2.2 := by
        intro x hx
        rcases List.mem_append.mp hx with h4 | h5
        · exact ⟨(hP x h4).1, fun m i hi1 hi2 => (hP x h4).2 m i (by omega) hi2⟩
        · refine ⟨(hch1 x (eraseMk_mem h5)).1, fun m i hi1 hi2 => ?_⟩
          cases hmk : x.isMk m i with
          | false => rfl
          | true =>
            have := ((hch1 x (eraseMk_mem h5)).2 m i hmk).2
            omega
      have hR2 : inertCtx R (serN n c).2.2 (serF rest (serN n c).2.2).2.2 := by
        intro x hx
        exact ⟨(hR x hx).1, fun m i hi1 hi2 => (hR x hx).2 m i (by omega) hi2⟩
      rw [restoreF_main rest (serN n c).2.2 σ
        (P ++ eraseMk .mc N (schunksN n c).1) R hw.2 hσ2 hP2 hR2]
      have hrch := rchunksF_wf rest hw.2
      have hstr2 : flats (P ++ eraseMk .mc N (schunksN n c).1) ++ renderF rest
            ++ flats R
          = flats P ++ flats (eraseMk .mc N (schunksN n c).1)
            ++ flats (rchunksF rest ++ R) := by
        rw [flats_append, flats_append, rchunksF_flats]
        simp [List.append_assoc]
      rw [hstr2]
      have hR1 : inertCtx (rchunksF rest ++ R) c (serN n c).2.2 := by
        intro x hx
        rcases List.mem_append.mp hx with h4 | h5
        · exact ⟨(hrch x h4).1, fun m i _ _ =>
            isMk_false_of_not_marker (hrch x h4).2⟩
        · exact ⟨(hR x h5).1, fun m i hi1 hi2 => (hR x h5).2 m i hi1
            (by show i < (serF rest (serN n c).2.2).2.2; omega)⟩
      have hP1 : inertCtx P c (serN n c).2.2 := by
        intro x hx
        exact ⟨(hP x hx).1, fun m i hi1 hi2 => (hP x hx).2 m i hi1
          (by show i < (serF rest (serN n c).2.2).2.2; omega)⟩
      rw [restoreDelN n N c σ P (rchunksF rest ++ R) cs0 hw.1 hh hσ1 hP1 hR1]
      rw [flats_append, rchunksF_flats]
      rw [ruF_render rest N (serN n c).2.2 hw.2 (Or.inl (by omega))]
      simp [List.append_assoc]
    | none =>
      intro hc
      have hrange := childrenAtF_range rest N (serN n c).2.2 cs' hc
      have herase : eraseMk .mc N
          ((schunksN n c).1 ++ (schunksF rest (serN n c).2.2).1)
          = (schunksN n c).1
            ++ eraseMk .mc N (schunksF rest (serN n c).2.2).1 := by
        apply eraseMk_append_right
        intro x hx
        cases hmk : x.isMk .mc N with
        | false => rfl
        | true =>
          have := ((hch1 x hx).2 .mc N hmk).2
          omega
      rw [herase]
      have hstr : flats P ++ flats ((schunksN n c).1
            ++ eraseMk .mc N (schunksF rest (serN n c).2.2).1) ++ flats R
          = flats (P ++ (schunksN n c).1)
            ++ flats (eraseMk .mc N (schunksF rest (serN n c).2.2).1)
            ++ flats R := by
        rw [flats_append, flats_append]
        simp [List.append_assoc]
      rw [hstr]
      have hP2 : inertCtx (P ++ (schunksN n c).1) (serN n c).2.2
          (serF rest (serN n c).2.2).2.2 := by
        intro x hx
        rcases List.mem_append.mp hx with h4 | h5
        · exact ⟨(hP x h4).1, fun m i hi1 hi2 => (hP x h4).2 m i (by omega) hi2⟩
        · refine ⟨(hch1 x h5).1, fun m i hi1 hi2 => ?_⟩
          cases hmk : x.isMk m i with
          | false => rfl
          | true =>
            have := ((hch1 x h5).2 m i hmk).2
            omega
      have hR2 : inertCtx R (serN n c).2.2 (serF rest (serN n c).2.2).2.2 := by
        intro x hx
        exact ⟨(hR x hx).1, fun m i hi1 hi2 => (hR x hx).2 m i (by omega) hi2⟩
      rw [restoreDelF rest N (serN n c).2.2 σ (P ++ (schunksN n c).1) R cs'
        hw.2 hc hσ2 hP2 hR2]
      have hruch := ruchF_wf rest N (serN n c).2.2 hw.2
      have hstr2 : flats (P ++ (schunksN n c).1) ++ (ruF N rest (serN n c).2.2).1
            ++ flats R
          = flats P ++ (serN n c).1 ++ flats (ruchF N rest (serN n c).2.2 ++ R) := by
        rw [flats_append, (serN_chunks n c).1, flats_append,
          ruchF_flats rest N (serN n c).2.2]
        simp [List.append_assoc]
      rw [hstr2]
      have hR1 : inertCtx (ruchF N rest (serN n c).2.2 ++ R) c (serN n c).2.2 := by
        intro x hx
        rcases List.mem_append.mp hx with h4 | h5
        · exact ⟨(hruch x h4).1, fun m i _ _ =>
            isMk_false_of_not_marker (hruch x h4).2⟩
        · exact ⟨(hR x h5).1, fun m i hi1 hi2 => (hR x h5).2 m i hi1
            (by show i < (serF rest (serN n c).2.2).2.2; omega)⟩
      have hP1 : inertCtx P c (serN n c).2.2 := by
        intro x hx
        exact ⟨(hP x hx).1, fun m i hi1 hi2 => (hP x hx).2 m i hi1
          (by show i < (serF rest (serN n c).2.2).2.2; omega)⟩
      rw [restoreN_main n c σ P (ruchF N rest (serN n c).2.2 ++ R) hw.1 hσ1 hP1 hR1]
      rw [flats_append, ruchF_flats rest N (serN n c).2.2]
      rw [ruN_render n N c hw.1 (Or.inr (by omega))]
      simp [List.append_assoc]
  termination_by structural F

end

/-- C4 (amended): lossy tolerance of decoding on clean markup.  Take
clean vocabulary markup, serialize it, and remove the closing marker
`</gN>` of the (transparent, non-demoted) element that was assigned id
`N`.  Decoding then still returns — no exception — and produces exactly
the rendering of the document with element `N` unwrapped: its own tags
are dropped, its children and every other element are restored exactly
as in the unbroken decode, and in particular the result still contains
the pair's full inner content as a substring.  (Outside clean markup the
"other markers unaffected" part of the original claim fails — deleting
`</gN>` can juxtapose text into a new marker shape; see the
counterexample.) -/
theorem C4_lossy_tolerance (F : List Node) (N : Nat) (cs' : List Node)
    (h : wfF F = true) (hch : childrenAtF N F 0 = some cs') :
    restore_from_placeholders
        (replaceFirst (serialize_to_placeholders F).1 (gClose N) [])
        (serialize_to_placeholders F).2
      = (ruF N F 0).1
    ∧ ∃ pre post, (ruF N F 0).1 = pre ++ renderF cs' ++ post := by
  refine ⟨?_, childrenAtF_sub F N 0 cs' h hch⟩
  have hrange := childrenAtF_range F N 0 cs' hch
  have hchunks := schunksF_wf F 0 h
  have hwfch : ∀ ch ∈ (schunksF F 0).1, ch.wf = true :=
    fun ch hc => (hchunks ch hc).1
  show restore_from_placeholders
    (replaceFirst (serF F 0).1 (gClose N) []) (serF F 0).2.1 = _
  rw [(serF_chunks F 0).1]
  rw [show gClose N = mstr .mc N from rfl, replaceFirst_flats_erase hwfch .mc N]
  have hne : (serF F 0).2.1 ≠ [] := by
    intro he
    have hk := serF_keys F 0
    rw [he, Nat.sub_zero] at hk
    have hmem : (0 : Nat) ∈ ascIds 0 (serF F 0).2.2 :=
      mem_ascIds.mpr ⟨Nat.le_refl 0, by omega⟩
    rw [← hk] at hmem
    cases hmem
  unfold restore_from_placeholders
  rw [if_neg hne]
  have hkeys := serF_keys F 0
  rw [Nat.sub_zero] at hkeys
  rw [hkeys, sortDescNat_ascIds]
  have hmain := restoreDelF F N 0 (lookupTag (serF F 0).2.1) [] [] cs' h hch
    (fun i _ _ => rfl) (by intro x hx; cases hx) (by intro x hx; cases hx)
  simp only [flats_nil, List.nil_append, List.append_nil, Nat.sub_zero] at hmain
  show phClean (rfold (lookupTag (serF F 0).2.1)
    (flats (eraseMk .mc N (schunksF F 0).1)) (descIds 0 (serF F 0).2.2)) = _
  rw [hmain]
  rw [← ruchF_flats F N 0, phClean_flats (fun ch hc => (ruchF_wf F N 0 h ch hc).1)]
  rw [show (ruchF N F 0).filter (fun ch => !ch.isMarker) = ruchF N F 0 from
    List.filter_eq_self.mpr (fun a ha => by rw [(ruchF_wf F N 0 h a ha).2]; rfl)]

/-- C4 witness: the tolerance evaluated on `<em>Hi</em><b>z</b>` with the
closing marker of the `em` pair (id 0) removed — the decode returns the
unwrapped rendering `Hi<b>z</b>`, which contains `Hi`. -/
theorem C4_lossy_tolerance_witness :
    wfF [Node.elem "em".data [] [Node.text "Hi".data],
         Node.elem "b".data [] [Node.text "z".data]] = true
    ∧ childrenAtF 0 [Node.elem "em".data [] [Node.text "Hi".data],
         Node.elem "b".data [] [Node.text "z".data]] 0
        = some [Node.text "Hi".data]
    ∧ (restore_from_placeholders
        (replaceFirst (serialize_to_placeholders
          [Node.elem "em".data [] [Node.text "Hi".data],
           Node.elem "b".data [] [Node.text "z".data]]).1 (gClose 0) [])
        (serialize_to_placeholders
          [Node.elem "em".data [] [Node.text "Hi".data],
           Node.elem "b".data [] [Node.text "z".data]]).2
      = (ruF 0 [Node.elem "em".data [] [Node.text "Hi".data],
           Node.elem "b".data [] [Node.text "z".data]] 0).1
    ∧ ∃ pre post, (ruF 0 [Node.elem "em".data [] [Node.text "Hi".data],
           Node.elem "b".data [] [Node.text "z".data]] 0).1
        = pre ++ renderF [Node.text "Hi".data] ++ post) :=
  ⟨by decide, rfl, C4_lossy_tolerance _ 0 _ (by decide) rfl⟩
